import Mathlib

/-!
Verification of the skip-list map from `src/lib.rs`.

The Rust structure is a raw-pointer skip list.  We embed it shallowly:
the heap is an explicit list of optional nodes, a "pointer" is an index
into that list (`none` cells are unallocated or freed), and every loop
of the source is translated to a fueled recursion, with the fuel chosen
so that under the well-formedness invariant it never runs out (the Rust
loops terminate for exactly the same reason).  The ambient randomness of
`rand::random::<f64>()` is replaced by an explicit rational parameter:
every theorem quantifies over all draws.  Machine floats only influence
which level is drawn, never its range, so exact rationals are faithful
for all claimed properties.
-/

set_option maxHeartbeats 1000000

namespace SkipVerify

/-- `MAX_LEVEL` from the source. -/
def MAX_LEVEL : Nat := 32

/-- The constant `P = 0.5`, as an exact rational. -/
def P : ℚ := 1 / 2

/-- `Data<K, V>`: one key/value entry. -/
structure Data (K V : Type) where
  key : K
  value : V
deriving DecidableEq

/-- `Node<K, V>`: an optional entry (absent only for the head sentinel)
and the per-level vector of forward pointers, modelled as heap indices. -/
structure Node (K V : Type) where
  data : Option (Data K V)
  forward : List (Option Nat)
deriving DecidableEq

/-- The heap: cell `i` holds the node at index `i`, or `none` when that
cell is unallocated or has been freed. -/
abbrev Heap (K V : Type) := List (Option (Node K V))

variable {K V : Type}

/-- Read position `n` of a list of options, `none` when out of bounds. -/
def getO {α : Type} : List (Option α) → Nat → Option α
  | [], _ => none
  | x :: _, 0 => x
  | _ :: t, n + 1 => getO t n

/-- Write position `n` of a list of options, identity when out of bounds. -/
def setO {α : Type} : List (Option α) → Nat → Option α → List (Option α)
  | [], _, _ => []
  | _ :: t, 0, x => x :: t
  | y :: t, n + 1, x => y :: setO t n x

/-- `Node::new(data, level)`: `level + 1` empty forward slots. -/
def Node.mkNode (d : Option (Data K V)) (level : Nat) : Node K V :=
  ⟨d, List.replicate (level + 1) none⟩

/-- `Node::head()`: the sentinel, data-less, spanning `MAX_LEVEL` slots. -/
def Node.headNode : Node K V := Node.mkNode none (MAX_LEVEL - 1)

/-- The entry stored at heap index `u` (`(*u).data`). -/
def dataAt (h : Heap K V) (u : Nat) : Option (Data K V) :=
  (getO h u).bind Node.data

/-- The forward pointer of node `u` at level `i` (`(*u).forward[i]`);
`none` both for an empty slot and for an out-of-bounds access (the
source would panic on the latter; the invariant rules it out). -/
def forwardAt (h : Heap K V) (u : Nat) (i : Nat) : Option Nat :=
  match getO h u with
  | some nd => getO nd.forward i
  | none => none

/-- `(*u).forward.len()`; 0 for a dangling pointer. -/
def fwdLenAt (h : Heap K V) (u : Nat) : Nat :=
  match getO h u with
  | some nd => nd.forward.length
  | none => 0

/-- `next.data.as_ref().is_some_and(|d| d.key < key)` from the scan loops. -/
def keyLtB [LinearOrder K] (h : Heap K V) (u : Nat) (t : K) : Bool :=
  match dataAt h u with
  | some d => decide (d.key < t)
  | none => false

/-- `next.data.as_ref().is_some_and(|d| d.key == *key)` from `remove`. -/
def keyEqB [LinearOrder K] (h : Heap K V) (u : Nat) (t : K) : Bool :=
  match dataAt h u with
  | some d => decide (d.key = t)
  | none => false

/-- The inner `while` of the scan at a fixed level `i`: advance along
`forward[i]` while the successor's key is strictly below the target.
Fueled; `heap.length` fuel suffices on every well-formed state. -/
def scanLevel [LinearOrder K] (h : Heap K V) (t : K) (i : Nat) : Nat → Nat → Nat
  | 0, cur => cur
  | fuel + 1, cur =>
    match forwardAt h cur i with
    | some nxt => if keyLtB h nxt t then scanLevel h t i fuel nxt else cur
    | none => cur

/-- The level-descending scan of `insert`/`remove`, recording the update
node of every level: `(scanAll h t i cur).2` has length `i + 1` and its
entry `j` is the node recorded at level `j`; `.1` is the final (level 0)
position. -/
def scanAll [LinearOrder K] (h : Heap K V) (t : K) : Nat → Nat → Nat × List Nat
  | 0, cur =>
    (scanLevel h t 0 h.length cur, [scanLevel h t 0 h.length cur])
  | i + 1, cur =>
    let c := scanLevel h t (i + 1) h.length cur
    let r := scanAll h t i c
    (r.1, r.2 ++ [c])

/-- The same descent without recording, as written in `get`/`get_mut`. -/
def descend [LinearOrder K] (h : Heap K V) (t : K) : Nat → Nat → Nat
  | 0, cur => scanLevel h t 0 h.length cur
  | i + 1, cur => descend h t i (scanLevel h t (i + 1) h.length cur)

/-- The loop of `random_level`: while `x > f` and `level + 1 < MAX_LEVEL`,
increment the level and halve `x`.  `MAX_LEVEL` fuel is enough since the
level strictly increases and is capped. -/
def randomLevelGo (f : ℚ) : Nat → Nat → ℚ → Nat
  | 0, level, _ => level
  | fuel + 1, level, x =>
    if f < x ∧ level + 1 < MAX_LEVEL then randomLevelGo f fuel (level + 1) (x * P)
    else level

/-- `random_level()`; the draw `r` of `rand::random::<f64>()` is passed
explicitly, and `f = 1.0 - r` as in the source. -/
def random_level (r : ℚ) : Nat := randomLevelGo (1 - r) MAX_LEVEL 0 P

/-- `SkipList<K, V>`: length, the head pointer, and the explicit heap. -/
structure SkipList (K V : Type) where
  len : Nat
  head : Nat
  heap : Heap K V
deriving DecidableEq

/-- `SkipList::new()`. -/
def SkipList.new : SkipList K V :=
  ⟨0, 0, [some Node.headNode]⟩

/-- `std::mem::replace(&mut data.value, value)`: replace the value of the
entry of node `u` in place (identity when `u` has no entry, which the
source's control flow never reaches). -/
def setValue (h : Heap K V) (u : Nat) (v : V) : Heap K V :=
  match getO h u with
  | some nd =>
    match nd.data with
    | some d => setO h u (some ⟨some ⟨d.key, v⟩, nd.forward⟩)
    | none => h
  | none => h

/-- `(*u).forward[i] = p` (identity on a dangling pointer; an
out-of-bounds slot index leaves the node unchanged where the source
would panic — the invariant rules both out). -/
def setForward (h : Heap K V) (u : Nat) (i : Nat) (p : Option Nat) : Heap K V :=
  match getO h u with
  | some nd => setO h u (some ⟨nd.data, setO nd.forward i p⟩)
  | none => h

/-- The splice loop of `insert`: for `c` levels starting at `i`, copy the
update node's forward pointer into the new node and redirect the update
node to the new node.  `insert` runs it with `i = 0`, `c = new_level + 1`. -/
def splice (ups : List Nat) (newId : Nat) : Heap K V → Nat → Nat → Heap K V
  | h, 0, _ => h
  | h, c + 1, i =>
    let u := ups.getD i 0
    let h1 := setForward h newId i (forwardAt h u i)
    let h2 := setForward h1 u i (some newId)
    splice ups newId h2 c (i + 1)

/-- The tail of `insert` when the key is new: draw a level, allocate the
node at the next free index, splice it in at levels `0 ..= new_level`,
and bump the length. -/
def SkipList.insertFresh [LinearOrder K] (s : SkipList K V) (key : K) (value : V)
    (ups : List Nat) (r : ℚ) : Option V × SkipList K V :=
  let newLevel := random_level r
  let newId := s.heap.length
  let h1 := s.heap ++ [some (Node.mkNode (some ⟨key, value⟩) newLevel)]
  let h2 := splice ups newId h1 (newLevel + 1) 0
  (none, ⟨s.len + 1, s.head, h2⟩)

/-- `SkipList::insert`.  The random draw `r` is an explicit parameter. -/
def SkipList.insert [LinearOrder K] (s : SkipList K V) (key : K) (value : V)
    (r : ℚ) : Option V × SkipList K V :=
  let sc := scanAll s.heap key (MAX_LEVEL - 1) s.head
  match forwardAt s.heap sc.1 0 with
  | some nxt =>
    match dataAt s.heap nxt with
    | some d =>
      if d.key = key then
        (some d.value, ⟨s.len, s.head, setValue s.heap nxt value⟩)
      else s.insertFresh key value sc.2 r
    | none => s.insertFresh key value sc.2 r
  | none => s.insertFresh key value sc.2 r

/-- The unlink loop of `remove`: at each level from 0 up, stop as soon as
the recorded update node no longer points at the node being removed,
otherwise redirect it past that node. -/
def unlink (ups : List Nat) (del : Nat) : Heap K V → Nat → Nat → Heap K V
  | h, 0, _ => h
  | h, c + 1, i =>
    let u := ups.getD i 0
    if forwardAt h u i = some del then
      unlink ups del (setForward h u i (forwardAt h del i)) c (i + 1)
    else h

/-- `SkipList::remove`.  Freeing `Box::from_raw` becomes clearing the
heap cell; the value is read from the node as the source does after
unlinking (unlinking never touches it).  The source's
`data.unwrap()` panic case surfaces here as a `none` that the invariant
proves unreachable. -/
def SkipList.remove [LinearOrder K] (s : SkipList K V) (key : K) :
    Option V × SkipList K V :=
  let sc := scanAll s.heap key (MAX_LEVEL - 1) s.head
  match forwardAt s.heap sc.1 0 with
  | some nxt =>
    if keyEqB s.heap nxt key then
      let h1 := unlink sc.2 nxt s.heap MAX_LEVEL 0
      ((dataAt h1 nxt).map Data.value, ⟨s.len - 1, s.head, setO h1 nxt none⟩)
    else (none, s)
  | none => (none, s)

/-- `SkipList::get`. -/
def SkipList.get [LinearOrder K] (s : SkipList K V) (key : K) : Option V :=
  let cur := descend s.heap key (MAX_LEVEL - 1) s.head
  match forwardAt s.heap cur 0 with
  | some nxt =>
    match dataAt s.heap nxt with
    | some d => if d.key = key then some d.value else none
    | none => none
  | none => none

/-- The relink loop of `pop_front`: for levels `0 ..= del.level()`, the
head sentinel inherits the removed node's forward pointer. -/
def popRelink (headIdx del : Nat) : Heap K V → Nat → Nat → Heap K V
  | h, 0, _ => h
  | h, c + 1, i =>
    popRelink headIdx del (setForward h headIdx i (forwardAt h del i)) c (i + 1)

/-- `SkipList::pop_front`. -/
def SkipList.pop_front (s : SkipList K V) : Option (K × V) × SkipList K V :=
  match forwardAt s.heap s.head 0 with
  | some nxt =>
    let lvl := fwdLenAt s.heap nxt - 1
    let h1 := popRelink s.head nxt s.heap (lvl + 1) 0
    ((dataAt h1 nxt).map (fun d => (d.key, d.value)),
      ⟨s.len - 1, s.head, setO h1 nxt none⟩)
  | none => (none, s)

/-- The `while !self.is_empty() { self.pop_front(); }` loop of `clear`,
fueled by the current length: under the invariant each `pop_front`
decrements `len`, so the fuel never runs out where the source loop
would still be running. -/
def clearGo : SkipList K V → Nat → SkipList K V
  | s, 0 => s
  | s, fuel + 1 => if s.len = 0 then s else clearGo (s.pop_front).2 fuel

/-- `SkipList::clear`. -/
def SkipList.clear (s : SkipList K V) : SkipList K V := clearGo s s.len

/-- The node indices visited by following level-0 pointers from cursor
`c` (the walk shared by `Iter`, `IterMut` and `Display`), fueled. -/
def chainList (h : Heap K V) : Nat → Option Nat → List Nat
  | 0, _ => []
  | _ + 1, none => []
  | fuel + 1, some u => u :: chainList h fuel (forwardAt h u 0)

/-- What the borrowing iterator yields: for each visited node the entry
it would `unwrap` (a `none` element marks the panic the invariant
excludes). -/
def SkipList.iterListO (s : SkipList K V) : List (Option (K × V)) :=
  (chainList s.heap s.heap.length (forwardAt s.heap s.head 0)).map
    (fun u => (dataAt s.heap u).map (fun d => (d.key, d.value)))

/-- The sequence of `iter()` items, with the impossible panics dropped. -/
def SkipList.iterList (s : SkipList K V) : List (K × V) :=
  s.iterListO.reduceOption

/-- The ids visited by the borrowing traversal. -/
def SkipList.chainIds (s : SkipList K V) : List Nat :=
  chainList s.heap s.heap.length (forwardAt s.heap s.head 0)

/-- `IntoIter::next` repeated to exhaustion (`pop_front` until `none`),
fueled by `len`, which suffices on well-formed states. -/
def intoGo : SkipList K V → Nat → List (K × V)
  | _, 0 => []
  | s, fuel + 1 =>
    match s.pop_front with
    | (some d, s1) => d :: intoGo s1 fuel
    | (none, _) => []

/-- The full sequence yielded by `into_iter()`. -/
def SkipList.intoList (s : SkipList K V) : List (K × V) := intoGo s s.len

/-- `Clone for SkipList`: a fresh list, re-inserting every pair produced
by the borrowing traversal in order.  Each insertion draws its own
level; `rs` supplies the stream of draws. -/
def SkipList.cloneWith [LinearOrder K] (s : SkipList K V) (rs : Nat → ℚ) :
    SkipList K V :=
  s.iterList.enum.foldl (fun t p => (t.insert p.2.1 p.2.2 (rs p.1)).2) SkipList.new

/-- One mutating operation of the public interface, with its random
draw where one is consumed. -/
inductive Op (K V : Type) where
  | ins (k : K) (v : V) (r : ℚ)
  | del (k : K)
  | pop
  | clr

/-- Apply one operation. -/
def step [LinearOrder K] (s : SkipList K V) : Op K V → SkipList K V
  | .ins k v r => (s.insert k v r).2
  | .del k => (s.remove k).2
  | .pop => (s.pop_front).2
  | .clr => s.clear

/-- The state after running a sequence of operations from `new()`. -/
def run [LinearOrder K] (ops : List (Op K V)) : SkipList K V :=
  ops.foldl step SkipList.new

/-! ### Basic lemmas about the heap primitives -/

theorem length_setO {α : Type} (l : List (Option α)) (n : Nat) (x : Option α) :
    (setO l n x).length = l.length := by
  induction l generalizing n with
  | nil => simp [setO]
  | cons y t ih =>
    cases n with
    | zero => simp [setO]
    | succ m => simp [setO, ih]

theorem getO_setO_self {α : Type} (l : List (Option α)) (n : Nat) (x : Option α)
    (hn : n < l.length) : getO (setO l n x) n = x := by
  induction l generalizing n with
  | nil => simp at hn
  | cons y t ih =>
    cases n with
    | zero => simp [setO, getO]
    | succ m =>
      simp only [setO, getO]
      exact ih m (by simpa using hn)

theorem getO_setO_ne {α : Type} (l : List (Option α)) (n m : Nat) (x : Option α)
    (hnm : m ≠ n) : getO (setO l n x) m = getO l m := by
  induction l generalizing n m with
  | nil => simp [setO]
  | cons y t ih =>
    cases n with
    | zero =>
      cases m with
      | zero => exact absurd rfl hnm
      | succ k => simp [setO, getO]
    | succ j =>
      cases m with
      | zero => simp [setO, getO]
      | succ k =>
        simp only [setO, getO]
        exact ih j k (fun h => hnm (by simp [h]))

theorem getO_append_lt {α : Type} (l l2 : List (Option α)) (n : Nat)
    (hn : n < l.length) : getO (l ++ l2) n = getO l n := by
  induction l generalizing n with
  | nil => simp at hn
  | cons y t ih =>
    cases n with
    | zero => simp [getO]
    | succ m =>
      simp only [List.cons_append, getO]
      exact ih m (by simpa using hn)

theorem getO_append_self {α : Type} (l : List (Option α)) (x : Option α) :
    getO (l ++ [x]) l.length = x := by
  induction l with
  | nil => simp [getO]
  | cons y t ih => simpa [getO] using ih

theorem getO_lt_length {α : Type} (l : List (Option α)) (n : Nat) (a : α)
    (h : getO l n = some a) : n < l.length := by
  induction l generalizing n with
  | nil => simp [getO] at h
  | cons y t ih =>
    cases n with
    | zero => simp
    | succ m =>
      simp only [getO] at h
      simpa using ih m h

theorem getO_ge_length {α : Type} (l : List (Option α)) (n : Nat)
    (h : l.length ≤ n) : getO l n = none := by
  cases hg : getO l n with
  | none => rfl
  | some a => exact absurd (getO_lt_length l n a hg) (by omega)

theorem getO_replicate_none {α : Type} (n m : Nat) :
    getO (List.replicate n (none : Option α) : List (Option α)) m = none := by
  induction n generalizing m with
  | zero => simp [getO]
  | succ k ih =>
    cases m with
    | zero => simp [List.replicate, getO]
    | succ j => simpa [List.replicate, getO] using ih j

/-! ### Frame lemmas for the node-level mutators -/

theorem setValue_eq_of (h : Heap K V) (u : Nat) (v : V) (nd : Node K V)
    (d : Data K V) (hu : getO h u = some nd) (hd : nd.data = some d) :
    setValue h u v = setO h u (some ⟨some ⟨d.key, v⟩, nd.forward⟩) := by
  simp only [setValue, hu, hd]

theorem setForward_eq_of (h : Heap K V) (u i : Nat) (p : Option Nat)
    (nd : Node K V) (hu : getO h u = some nd) :
    setForward h u i p = setO h u (some ⟨nd.data, setO nd.forward i p⟩) := by
  unfold setForward
  rw [hu]

theorem setForward_dangling (h : Heap K V) (u i : Nat) (p : Option Nat)
    (hu : getO h u = none) : setForward h u i p = h := by
  unfold setForward
  rw [hu]

theorem length_setValue (h : Heap K V) (u : Nat) (v : V) :
    (setValue h u v).length = h.length := by
  cases hu : getO h u with
  | none => simp only [setValue, hu]
  | some nd =>
    cases hd : nd.data with
    | none => simp only [setValue, hu, hd]
    | some d => simp only [setValue, hu, hd, length_setO]

theorem length_setForward (h : Heap K V) (u i : Nat) (p : Option Nat) :
    (setForward h u i p).length = h.length := by
  cases hu : getO h u with
  | none => simp only [setForward, hu]
  | some nd => simp only [setForward, hu, length_setO]

theorem getO_setValue_ne (h : Heap K V) (u w : Nat) (v : V) (hw : w ≠ u) :
    getO (setValue h u v) w = getO h w := by
  cases hu : getO h u with
  | none => simp only [setValue, hu]
  | some nd =>
    cases hd : nd.data with
    | none => simp only [setValue, hu, hd]
    | some d =>
      simp only [setValue, hu, hd]
      exact getO_setO_ne h u w _ hw

theorem getO_setForward_ne (h : Heap K V) (u w i : Nat) (p : Option Nat)
    (hw : w ≠ u) : getO (setForward h u i p) w = getO h w := by
  cases hu : getO h u with
  | none => simp only [setForward, hu]
  | some nd =>
    simp only [setForward, hu]
    exact getO_setO_ne h u w _ hw

theorem getO_setForward_self (h : Heap K V) (u i : Nat) (p : Option Nat)
    (nd : Node K V) (hu : getO h u = some nd) :
    getO (setForward h u i p) u = some ⟨nd.data, setO nd.forward i p⟩ := by
  rw [setForward_eq_of h u i p nd hu]
  exact getO_setO_self h u _ (getO_lt_length h u nd hu)

theorem dataAt_setForward (h : Heap K V) (u w i : Nat) (p : Option Nat) :
    dataAt (setForward h u i p) w = dataAt h w := by
  by_cases hw : w = u
  · subst hw
    cases hu : getO h w with
    | none => rw [setForward_dangling h w i p hu]
    | some nd =>
      unfold dataAt
      rw [getO_setForward_self h w i p nd hu, hu]
      rfl
  · unfold dataAt
    rw [getO_setForward_ne h u w i p hw]

theorem fwdLenAt_setForward (h : Heap K V) (u w i : Nat) (p : Option Nat) :
    fwdLenAt (setForward h u i p) w = fwdLenAt h w := by
  by_cases hw : w = u
  · subst hw
    cases hu : getO h w with
    | none => rw [setForward_dangling h w i p hu]
    | some nd =>
      unfold fwdLenAt
      rw [getO_setForward_self h w i p nd hu, hu]
      simp [length_setO]
  · unfold fwdLenAt
    rw [getO_setForward_ne h u w i p hw]

theorem forwardAt_setForward_ne (h : Heap K V) (u w i j : Nat) (p : Option Nat)
    (hw : w ≠ u ∨ j ≠ i) : forwardAt (setForward h u i p) w j = forwardAt h w j := by
  rcases hw with hw | hj
  · unfold forwardAt
    rw [getO_setForward_ne h u w i p hw]
  · by_cases hw : w = u
    · subst hw
      cases hu : getO h w with
      | none => rw [setForward_dangling h w i p hu]
      | some nd =>
        unfold forwardAt
        rw [getO_setForward_self h w i p nd hu, hu]
        exact getO_setO_ne nd.forward i j p hj
    · unfold forwardAt
      rw [getO_setForward_ne h u w i p hw]

theorem forwardAt_setForward_self (h : Heap K V) (u i : Nat) (p : Option Nat)
    (nd : Node K V) (hu : getO h u = some nd) (hi : i < nd.forward.length) :
    forwardAt (setForward h u i p) u i = p := by
  unfold forwardAt
  rw [getO_setForward_self h u i p nd hu]
  exact getO_setO_self nd.forward i p hi

theorem forwardAt_setValue (h : Heap K V) (u w i : Nat) (v : V) :
    forwardAt (setValue h u v) w i = forwardAt h w i := by
  by_cases hw : w = u
  · subst hw
    cases hu : getO h w with
    | none => simp only [setValue, hu]
    | some nd =>
      cases hd : nd.data with
      | none => simp only [setValue, hu, hd]
      | some d =>
        simp only [setValue, hu, hd]
        unfold forwardAt
        rw [getO_setO_self h w _ (getO_lt_length h w nd hu), hu]
  · unfold forwardAt
    rw [getO_setValue_ne h u w v hw]

theorem fwdLenAt_setValue (h : Heap K V) (u w : Nat) (v : V) :
    fwdLenAt (setValue h u v) w = fwdLenAt h w := by
  by_cases hw : w = u
  · subst hw
    cases hu : getO h w with
    | none => simp only [setValue, hu]
    | some nd =>
      cases hd : nd.data with
      | none => simp only [setValue, hu, hd]
      | some d =>
        simp only [setValue, hu, hd]
        unfold fwdLenAt
        rw [getO_setO_self h w _ (getO_lt_length h w nd hu), hu]
  · unfold fwdLenAt
    rw [getO_setValue_ne h u w v hw]

theorem dataAt_setValue_self (h : Heap K V) (u : Nat) (v : V) (nd : Node K V)
    (d : Data K V) (hu : getO h u = some nd) (hd : nd.data = some d) :
    dataAt (setValue h u v) u = some ⟨d.key, v⟩ := by
  unfold dataAt
  rw [setValue_eq_of h u v nd d hu hd,
    getO_setO_self h u _ (getO_lt_length h u nd hu)]
  rfl

theorem dataAt_setValue_ne (h : Heap K V) (u w : Nat) (v : V) (hw : w ≠ u) :
    dataAt (setValue h u v) w = dataAt h w := by
  unfold dataAt
  rw [getO_setValue_ne h u w v hw]

theorem getO_free_ne (h : Heap K V) (u w : Nat) (hw : w ≠ u) :
    getO (setO h u none) w = getO h w :=
  getO_setO_ne h u w none hw

theorem forwardAt_free_ne (h : Heap K V) (u w i : Nat) (hw : w ≠ u) :
    forwardAt (setO h u none) w i = forwardAt h w i := by
  unfold forwardAt
  rw [getO_free_ne h u w hw]

theorem dataAt_free_ne (h : Heap K V) (u w : Nat) (hw : w ≠ u) :
    dataAt (setO h u none) w = dataAt h w := by
  unfold dataAt
  rw [getO_free_ne h u w hw]

theorem forwardAt_append (h : Heap K V) (x : Option (Node K V)) (u i : Nat)
    (hu : u < h.length) : forwardAt (h ++ [x]) u i = forwardAt h u i := by
  unfold forwardAt
  rw [getO_append_lt h [x] u hu]

theorem dataAt_append (h : Heap K V) (x : Option (Node K V)) (u : Nat)
    (hu : u < h.length) : dataAt (h ++ [x]) u = dataAt h u := by
  unfold dataAt
  rw [getO_append_lt h [x] u hu]

theorem fwdLenAt_append (h : Heap K V) (x : Option (Node K V)) (u : Nat)
    (hu : u < h.length) : fwdLenAt (h ++ [x]) u = fwdLenAt h u := by
  unfold fwdLenAt
  rw [getO_append_lt h [x] u hu]

/-! ### Chains of forward pointers -/

/-- `Links h i u l`: starting at node `u`, the level-`i` forward pointers
run through exactly the nodes of `l` in order. -/
def Links (h : Heap K V) (i : Nat) : Nat → List Nat → Prop
  | _, [] => True
  | u, v :: l => forwardAt h u i = some v ∧ Links h i v l

/-- A complete level-`i` chain: the links run through `l` and the last
node's level-`i` pointer is empty. -/
def IsChain (h : Heap K V) (i : Nat) (u : Nat) (l : List Nat) : Prop :=
  Links h i u l ∧ forwardAt h (l.getLastD u) i = none

theorem links_nil (h : Heap K V) (i u : Nat) : Links h i u [] := trivial

theorem links_cons (h : Heap K V) (i u v : Nat) (l : List Nat) :
    Links h i u (v :: l) ↔ forwardAt h u i = some v ∧ Links h i v l := Iff.rfl

theorem getLastD_append {α : Type} (l₁ l₂ : List α) (d : α) :
    (l₁ ++ l₂).getLastD d = l₂.getLastD (l₁.getLastD d) := by
  induction l₁ generalizing d with
  | nil => rfl
  | cons a l ih =>
    rw [List.cons_append, List.getLastD_cons, List.getLastD_cons, ih]

theorem links_append (h : Heap K V) (i u : Nat) (l₁ l₂ : List Nat) :
    Links h i u (l₁ ++ l₂) ↔ Links h i u l₁ ∧ Links h i (l₁.getLastD u) l₂ := by
  induction l₁ generalizing u with
  | nil => simp [Links]
  | cons v l ih =>
    simp only [List.cons_append, links_cons, List.getLastD_cons, ih v]
    tauto

theorem isChain_append (h : Heap K V) (i u : Nat) (l₁ l₂ : List Nat) :
    IsChain h i u (l₁ ++ l₂) ↔
      Links h i u l₁ ∧ IsChain h i (l₁.getLastD u) l₂ := by
  unfold IsChain
  rw [links_append, getLastD_append]
  tauto

/-- A chain is insensitive to heap changes that keep the level-`i`
pointers of its nodes (source included) intact. -/
theorem links_congr (h h2 : Heap K V) (i u : Nat) (l : List Nat)
    (hfw : ∀ a ∈ u :: l, forwardAt h2 a i = forwardAt h a i)
    (hl : Links h i u l) : Links h2 i u l := by
  induction l generalizing u with
  | nil => trivial
  | cons v t ih =>
    obtain ⟨h1, hrest⟩ := hl
    refine ⟨?_, ih v ?_ hrest⟩
    · rw [hfw u (by simp), h1]
    · intro a ha
      exact hfw a (by simpa using Or.inr ha)

theorem getLastD_mem_cons {α : Type} (l : List α) (u : α) :
    l.getLastD u ∈ u :: l := by
  induction l generalizing u with
  | nil => exact List.mem_cons_self u []
  | cons v t ih =>
    rw [List.getLastD_cons]
    rcases List.mem_cons.mp (ih v) with hv | ht
    · rw [hv]
      exact List.mem_cons_of_mem u (List.mem_cons_self v t)
    · exact List.mem_cons_of_mem u (List.mem_cons_of_mem v ht)

theorem isChain_congr (h h2 : Heap K V) (i u : Nat) (l : List Nat)
    (hfw : ∀ a ∈ u :: l, forwardAt h2 a i = forwardAt h a i)
    (hc : IsChain h i u l) : IsChain h2 i u l := by
  obtain ⟨hl, hend⟩ := hc
  refine ⟨links_congr h h2 i u l hfw hl, ?_⟩
  rw [hfw _ (getLastD_mem_cons l u), hend]

/-! ### The abstract spine -/

/-- One entry of the abstract spine: node id, key, value, and the level
drawn at creation (`forward.len() - 1` in the node). -/
structure SEnt (K V : Type) where
  id : Nat
  key : K
  val : V
  lvl : Nat

/-- The ids of a spine. -/
def ids (sp : List (SEnt K V)) : List Nat := sp.map SEnt.id

/-- The spine entries that participate in level `i` (assigned level at
least `i`). -/
def atLevel (i : Nat) (sp : List (SEnt K V)) : List (SEnt K V) :=
  sp.filter (fun e => decide (i ≤ e.lvl))

/-- The (key, value) pairs of a spine, in order. -/
def entriesSp (sp : List (SEnt K V)) : List (K × V) :=
  sp.map (fun e => (e.key, e.val))

/-- Well-formedness: the heap of `s` is exactly the skip list described
by the spine `sp` (the level-0 chain in ascending key order, with every
per-level chain passing through precisely the spine nodes of that level). -/
structure Wf [LinearOrder K] (s : SkipList K V) (sp : List (SEnt K V)) : Prop where
  head_lt : s.head < s.heap.length
  head_node : ∃ fw, getO s.heap s.head = some ⟨none, fw⟩ ∧ fw.length = MAX_LEVEL
  nodes : ∀ e ∈ sp, ∃ fw, getO s.heap e.id = some ⟨some ⟨e.key, e.val⟩, fw⟩ ∧
    fw.length = e.lvl + 1
  lvl_lt : ∀ e ∈ sp, e.lvl < MAX_LEVEL
  id_lt : ∀ e ∈ sp, e.id < s.heap.length
  nodup : (s.head :: ids sp).Nodup
  sorted : sp.Pairwise (fun a b => a.key < b.key)
  links : ∀ i < MAX_LEVEL, IsChain s.heap i s.head (ids (atLevel i sp))
  len_eq : s.len = sp.length

/-! ### Pure list helpers -/

/-- The scan predicate: the entry's key is strictly below the target. -/
def belowB [LinearOrder K] (t : K) (e : SEnt K V) : Bool := decide (e.key < t)

theorem ids_append (l₁ l₂ : List (SEnt K V)) : ids (l₁ ++ l₂) = ids l₁ ++ ids l₂ := by
  simp [ids]

theorem ids_cons (e : SEnt K V) (l : List (SEnt K V)) :
    ids (e :: l) = e.id :: ids l := rfl

theorem atLevel_zero (sp : List (SEnt K V)) : atLevel 0 sp = sp := by
  simp [atLevel]

theorem atLevel_sublist (i : Nat) (sp : List (SEnt K V)) :
    List.Sublist (atLevel i sp) sp :=
  List.filter_sublist sp

theorem mem_atLevel (i : Nat) (sp : List (SEnt K V)) (e : SEnt K V) :
    e ∈ atLevel i sp ↔ e ∈ sp ∧ i ≤ e.lvl := by
  simp [atLevel]

theorem takeWhile_append_of_all {α : Type} (p : α → Bool) (l₁ l₂ : List α)
    (h : ∀ a ∈ l₁, p a = true) :
    (l₁ ++ l₂).takeWhile p = l₁ ++ l₂.takeWhile p := by
  induction l₁ with
  | nil => rfl
  | cons a l ih =>
    have ha : p a = true := h a (by simp)
    simp only [List.cons_append, List.takeWhile_cons, ha, if_true]
    rw [ih (fun b hb => h b (by simp [hb]))]

theorem filter_eq_nil_of_all {α : Type} (p : α → Bool) (l : List α)
    (h : ∀ a ∈ l, p a = false) : l.filter p = [] := by
  induction l with
  | nil => rfl
  | cons a t ih =>
    rw [List.filter_cons, h a (by simp)]
    exact if_neg (by simp) |>.trans (ih (fun b hb => h b (by simp [hb])))

/-- On a strictly sorted list, the scan prefix is exactly the set of
entries below the target. -/
theorem takeWhile_eq_filter_below [LinearOrder K] (t : K) (l : List (SEnt K V))
    (hs : l.Pairwise (fun a b => a.key < b.key)) :
    l.takeWhile (belowB t) = l.filter (belowB t) := by
  induction l with
  | nil => rfl
  | cons e l ih =>
    rw [List.pairwise_cons] at hs
    by_cases hk : e.key < t
    · have hb : belowB t e = true := by simp [belowB, hk]
      simp only [List.takeWhile_cons, List.filter_cons, hb, if_true]
      rw [ih hs.2]
    · have hb : belowB t e = false := by simp [belowB, hk]
      simp only [List.takeWhile_cons, List.filter_cons, hb, Bool.false_eq_true,
        if_false]
      rw [filter_eq_nil_of_all]
      intro a ha
      have hea : e.key < a.key := hs.1 a ha
      simp only [belowB, decide_eq_false_iff_not]
      intro hat
      exact hk (lt_trans hea hat)

theorem getLastD_concat {α : Type} (l : List α) (a d : α) :
    (l ++ [a]).getLastD d = a := by
  rw [getLastD_append]
  rfl

/-! ### Correctness of the scan -/

theorem scanAll_snd_length [LinearOrder K] (h : Heap K V) (t : K) :
    ∀ (i cur : Nat), ((scanAll h t i cur).2).length = i + 1 := by
  intro i
  induction i with
  | zero => intro cur; simp [scanAll]
  | succ i ih => intro cur; simp [scanAll, ih]

theorem descend_eq_scanAll [LinearOrder K] (h : Heap K V) (t : K) :
    ∀ (i cur : Nat), descend h t i cur = (scanAll h t i cur).1 := by
  intro i
  induction i with
  | zero => intro cur; rfl
  | succ i ih => intro cur; simp [descend, scanAll, ih]

theorem isChain_head (h : Heap K V) (i u : Nat) (l : List Nat)
    (hc : IsChain h i u l) : forwardAt h u i = l.head? := by
  cases l with
  | nil => exact hc.2
  | cons v t => exact hc.1.1

/-- The inner while loop stops at the last chain entry whose key is
below the target. -/
theorem scanLevel_spec [LinearOrder K] (h : Heap K V) (t : K) (i : Nat) :
    ∀ (l : List (SEnt K V)) (u fuel : Nat),
    IsChain h i u (ids l) →
    (∀ e ∈ l, dataAt h e.id = some ⟨e.key, e.val⟩) →
    l.length ≤ fuel →
    scanLevel h t i fuel u = (ids (l.takeWhile (belowB t))).getLastD u := by
  intro l
  induction l with
  | nil =>
    intro u fuel hch _ _
    have hend : forwardAt h u i = none := hch.2
    cases fuel with
    | zero => rfl
    | succ f => simp [scanLevel, hend, ids]
  | cons e l ih =>
    intro u fuel hch hdata hfuel
    rw [ids_cons] at hch
    obtain ⟨⟨hfw, hlinks⟩, hend⟩ := hch
    rw [List.getLastD_cons] at hend
    have hch2 : IsChain h i e.id (ids l) := ⟨hlinks, hend⟩
    cases fuel with
    | zero => exact absurd hfuel (by simp)
    | succ f =>
      have hkb : keyLtB h e.id t = belowB t e := by
        unfold keyLtB
        rw [hdata e (by simp)]
        rfl
      by_cases hk : e.key < t
      · have hb : belowB t e = true := by simp [belowB, hk]
        rw [List.takeWhile_cons, hb]
        simp only [if_true]
        rw [ids_cons, List.getLastD_cons]
        have hrec := ih e.id f hch2 (fun a ha => hdata a (by simp [ha]))
          (by simpa using Nat.le_of_succ_le_succ hfuel)
        simp only [scanLevel, hfw, hkb, hb, if_true]
        exact hrec
      · have hb : belowB t e = false := by simp [belowB, hk]
        rw [List.takeWhile_cons, hb]
        simp only [Bool.false_eq_true, if_false]
        simp only [scanLevel, hfw, hkb, hb, Bool.false_eq_true, if_false]
        rfl

/-- Loop-invariant of the descending scan: `cur` is the last node of
some all-below-target prefix of the level-`i` sub-spine. -/
def Pre [LinearOrder K] (sp : List (SEnt K V)) (hd : Nat) (t : K) (i cur : Nat) : Prop :=
  ∃ pre post, atLevel i sp = pre ++ post ∧ (ids pre).getLastD hd = cur ∧
    ∀ e ∈ pre, e.key < t

/-- The recorded update node of level `i`: the last spine node of level
at least `i` whose key is below the target (the head sentinel if none). -/
def updAt [LinearOrder K] (sp : List (SEnt K V)) (hd : Nat) (t : K) (i : Nat) : Nat :=
  (ids ((atLevel i sp).takeWhile (belowB t))).getLastD hd

theorem pre_head [LinearOrder K] (sp : List (SEnt K V)) (hd : Nat) (t : K) (i : Nat) :
    Pre sp hd t i hd :=
  ⟨[], atLevel i sp, rfl, rfl, by simp⟩

/-- One level of the descent: starting anywhere inside the below-target
prefix, the while loop lands exactly on the update node of that level. -/
theorem scanLevel_step [LinearOrder K] (h : Heap K V) (sp : List (SEnt K V))
    (hd : Nat) (t : K) (i cur fuel : Nat)
    (hch : IsChain h i hd (ids (atLevel i sp)))
    (hdata : ∀ e ∈ sp, dataAt h e.id = some ⟨e.key, e.val⟩)
    (hfuel : sp.length ≤ fuel)
    (hpre : Pre sp hd t i cur) :
    scanLevel h t i fuel cur = updAt sp hd t i := by
  obtain ⟨pre, post, hsplit, hcur, hbelow⟩ := hpre
  rw [hsplit, ids_append] at hch
  have hch2 := ((isChain_append h i hd (ids pre) (ids post)).mp hch).2
  rw [hcur] at hch2
  have hpostlen : post.length ≤ fuel := by
    have h1 : (atLevel i sp).length ≤ sp.length :=
      (atLevel_sublist i sp).length_le
    have h2 : post.length ≤ (atLevel i sp).length := by
      rw [hsplit, List.length_append]
      omega
    omega
  have hdpost : ∀ e ∈ post, dataAt h e.id = some ⟨e.key, e.val⟩ := by
    intro e he
    refine hdata e ((atLevel_sublist i sp).subset ?_)
    rw [hsplit]
    exact List.mem_append_right pre he
  have hs := scanLevel_spec h t i post cur fuel hch2 hdpost hpostlen
  rw [hs]
  unfold updAt
  rw [hsplit, takeWhile_append_of_all (belowB t) pre post
    (fun a ha => by simp [belowB, hbelow a ha]), ids_append, getLastD_append, hcur]

/-- The update node of a level at least `i` satisfies the loop invariant
at level `i`: it closes some below-target prefix of the level-`i` chain. -/
theorem pre_of_upd [LinearOrder K] (sp : List (SEnt K V)) (hd : Nat) (t : K)
    (i j : Nat) (hij : i ≤ j)
    (hsorted : sp.Pairwise (fun a b => a.key < b.key)) :
    Pre sp hd t i (updAt sp hd t j) := by
  have hsj : (atLevel j sp).Pairwise (fun a b => a.key < b.key) :=
    List.Pairwise.sublist (atLevel_sublist j sp) hsorted
  have hsi : (atLevel i sp).Pairwise (fun a b => a.key < b.key) :=
    List.Pairwise.sublist (atLevel_sublist i sp) hsorted
  have hTj := takeWhile_eq_filter_below t (atLevel j sp) hsj
  have hTi := takeWhile_eq_filter_below t (atLevel i sp) hsi
  rcases List.eq_nil_or_concat ((atLevel j sp).takeWhile (belowB t)) with hnil | hcat
  · unfold updAt
    rw [hnil]
    exact pre_head sp hd t i
  · obtain ⟨L, e, hLe⟩ := hcat
    rw [List.concat_eq_append] at hLe
    have hupd : updAt sp hd t j = e.id := by
      unfold updAt
      rw [hLe, ids_append]
      exact getLastD_concat (ids L) e.id hd
    have hmemTj : e ∈ (atLevel j sp).takeWhile (belowB t) := by
      rw [hLe]
      simp
    have hef : e ∈ (atLevel j sp).filter (belowB t) := hTj ▸ hmemTj
    have hememj := (List.mem_filter.mp hef).1
    have hbe : belowB t e = true := (List.mem_filter.mp hef).2
    have hesp := (mem_atLevel j sp e).mp hememj
    have hememi : e ∈ atLevel i sp :=
      (mem_atLevel i sp e).mpr ⟨hesp.1, le_trans hij hesp.2⟩
    have hmemTi : e ∈ (atLevel i sp).takeWhile (belowB t) := by
      rw [hTi]
      exact List.mem_filter.mpr ⟨hememi, hbe⟩
    obtain ⟨l₁, l₂, hsplitTi⟩ := List.append_of_mem hmemTi
    refine ⟨l₁ ++ [e], l₂ ++ (atLevel i sp).dropWhile (belowB t), ?_, ?_, ?_⟩
    · have hTD := List.takeWhile_append_dropWhile (p := belowB t) (l := atLevel i sp)
      conv_lhs => rw [← hTD]
      rw [hsplitTi]
      simp
    · rw [hupd, ids_append]
      exact getLastD_concat (ids l₁) e.id hd
    · intro a ha
      have haTW : a ∈ (atLevel i sp).takeWhile (belowB t) := by
        rw [hsplitTi]
        rcases List.mem_append.mp ha with h1 | h2
        · exact List.mem_append_left _ h1
        · rw [List.mem_singleton.mp h2]
          exact List.mem_append_right _ (List.mem_cons_self e l₂)
      have := List.mem_takeWhile_imp haTW
      simpa [belowB] using this

/-- The full descending scan: the final position is the level-0 update
node and the recorded list holds exactly the per-level update nodes. -/
theorem scanAll_spec [LinearOrder K] (h : Heap K V) (sp : List (SEnt K V))
    (hd : Nat) (t : K)
    (hlinks : ∀ i < MAX_LEVEL, IsChain h i hd (ids (atLevel i sp)))
    (hdata : ∀ e ∈ sp, dataAt h e.id = some ⟨e.key, e.val⟩)
    (hsorted : sp.Pairwise (fun a b => a.key < b.key))
    (hlen : sp.length ≤ h.length) :
    ∀ i, i < MAX_LEVEL → ∀ cur, Pre sp hd t i cur →
    scanAll h t i cur = (updAt sp hd t 0, (List.range (i + 1)).map (updAt sp hd t)) := by
  intro i
  induction i with
  | zero =>
    intro hi cur hpre
    have hs := scanLevel_step h sp hd t 0 cur h.length (hlinks 0 hi) hdata hlen hpre
    simp only [scanAll, hs]
    rfl
  | succ i ih =>
    intro hi cur hpre
    have hs := scanLevel_step h sp hd t (i + 1) cur h.length (hlinks (i + 1) hi)
      hdata hlen hpre
    have hnext : Pre sp hd t i (updAt sp hd t (i + 1)) :=
      pre_of_upd sp hd t i (i + 1) (Nat.le_succ i) hsorted
    have hrec := ih (Nat.lt_of_succ_lt hi) (updAt sp hd t (i + 1)) hnext
    simp only [scanAll, hs, hrec]
    rw [List.range_succ (i + 1), List.map_append]
    simp

/-! ### Consequences of well-formedness -/

theorem nodup_lt_length_le (l : List Nat) (n : Nat) (hnd : l.Nodup)
    (hlt : ∀ x ∈ l, x < n) : l.length ≤ n := by
  classical
  have hcard : l.toFinset.card = l.length := List.toFinset_card_of_nodup hnd
  have hsub : l.toFinset ⊆ Finset.range n := by
    intro x hx
    exact Finset.mem_range.mpr (hlt x (List.mem_toFinset.mp hx))
  calc l.length = l.toFinset.card := hcard.symm
    _ ≤ (Finset.range n).card := Finset.card_le_card hsub
    _ = n := Finset.card_range n

theorem Wf.data_all [LinearOrder K] {s : SkipList K V} {sp : List (SEnt K V)}
    (hw : Wf s sp) : ∀ e ∈ sp, dataAt s.heap e.id = some ⟨e.key, e.val⟩ := by
  intro e he
  obtain ⟨fw, hfw, _⟩ := hw.nodes e he
  unfold dataAt
  rw [hfw]
  rfl

theorem Wf.sp_lt_heap [LinearOrder K] {s : SkipList K V} {sp : List (SEnt K V)}
    (hw : Wf s sp) : sp.length < s.heap.length := by
  have hle := nodup_lt_length_le (s.head :: ids sp) s.heap.length hw.nodup
    (by
      intro x hx
      rcases List.mem_cons.mp hx with hx0 | hx1
      · rw [hx0]; exact hw.head_lt
      · obtain ⟨e, he, hex⟩ := List.mem_map.mp hx1
        rw [← hex]
        exact hw.id_lt e he)
  have : (s.head :: ids sp).length = sp.length + 1 := by simp [ids]
  omega

theorem Wf.head_dataAt [LinearOrder K] {s : SkipList K V} {sp : List (SEnt K V)}
    (hw : Wf s sp) : dataAt s.heap s.head = none := by
  obtain ⟨fw, hfw, _⟩ := hw.head_node
  unfold dataAt
  rw [hfw]
  rfl

/-- The scan of every operation computes the per-level update nodes. -/
theorem Wf.scanAll_eq [LinearOrder K] {s : SkipList K V} {sp : List (SEnt K V)}
    (hw : Wf s sp) (t : K) :
    scanAll s.heap t (MAX_LEVEL - 1) s.head =
      (updAt sp s.head t 0, (List.range MAX_LEVEL).map (updAt sp s.head t)) := by
  have h31 : MAX_LEVEL - 1 < MAX_LEVEL := by decide
  have hsc := scanAll_spec s.heap sp s.head t hw.links hw.data_all hw.sorted
    (Nat.le_of_lt hw.sp_lt_heap) (MAX_LEVEL - 1) h31 s.head
    (pre_head sp s.head t (MAX_LEVEL - 1))
  rw [hsc]
  have hml : MAX_LEVEL - 1 + 1 = MAX_LEVEL := by decide
  rw [hml]

/-- After the scan, the level-0 successor of the final position is the
first spine entry with key not below the target. -/
theorem Wf.pred_succ [LinearOrder K] {s : SkipList K V} {sp : List (SEnt K V)}
    (hw : Wf s sp) (t : K) :
    forwardAt s.heap (updAt sp s.head t 0) 0 =
      (ids (sp.dropWhile (belowB t))).head? := by
  have hch := hw.links 0 (by decide)
  rw [atLevel_zero] at hch
  have hTD := List.takeWhile_append_dropWhile (p := belowB t) (l := sp)
  have hch2 : IsChain s.heap 0 s.head
      (ids (sp.takeWhile (belowB t)) ++ ids (sp.dropWhile (belowB t))) := by
    rw [← ids_append, hTD]
    exact hch
  have hsplit := ((isChain_append s.heap 0 s.head _ _).mp hch2).2
  have hupd : updAt sp s.head t 0 = (ids (sp.takeWhile (belowB t))).getLastD s.head := by
    unfold updAt
    rw [atLevel_zero]
  rw [hupd]
  exact isChain_head s.heap 0 _ _ hsplit

/-! ### The reference model: a sorted association list -/

/-- Model lookup: the value stored under `t`. -/
def mFind [LinearOrder K] (m : List (K × V)) (t : K) : Option V :=
  (m.find? (fun p => decide (p.1 = t))).map Prod.snd

theorem head?_dropWhile_false {α : Type} (p : α → Bool) :
    ∀ (l : List α) (a : α), (l.dropWhile p).head? = some a → p a = false := by
  intro l
  induction l with
  | nil =>
    intro a h
    simp [List.dropWhile] at h
  | cons x xs ih =>
    intro a h
    rw [List.dropWhile_cons] at h
    by_cases hp : p x = true
    · rw [if_pos hp] at h
      exact ih a h
    · rw [if_neg hp] at h
      have hax : a = x := by
        simp only [List.head?_cons, Option.some.injEq] at h
        exact h.symm
      rw [hax]
      exact Bool.not_eq_true _ |>.mp hp

theorem mem_takeWhile_below [LinearOrder K] (t : K) (sp : List (SEnt K V))
    (e : SEnt K V) (he : e ∈ sp.takeWhile (belowB t)) : e.key < t := by
  have := List.mem_takeWhile_imp he
  simpa [belowB] using this

/-- `get` computes the model lookup on the spine's entries. -/
theorem Wf.get_eq [LinearOrder K] {s : SkipList K V} {sp : List (SEnt K V)}
    (hw : Wf s sp) (t : K) : s.get t = mFind (entriesSp sp) t := by
  have hcur : descend s.heap t (MAX_LEVEL - 1) s.head = updAt sp s.head t 0 := by
    rw [descend_eq_scanAll, hw.scanAll_eq t]
  have hTD := List.takeWhile_append_dropWhile (p := belowB t) (l := sp)
  simp only [SkipList.get, hcur, hw.pred_succ t]
  cases hD : sp.dropWhile (belowB t) with
  | nil =>
    simp only [ids, List.map_nil, List.head?_nil]
    have hfind : (entriesSp sp).find? (fun p => decide (p.1 = t)) = none := by
      rw [List.find?_eq_none]
      intro x hx
      obtain ⟨e, he, hex⟩ := List.mem_map.mp hx
      have heTW : e ∈ sp.takeWhile (belowB t) := by
        have hTWsp : sp.takeWhile (belowB t) = sp := by
          conv_rhs => rw [← hTD, hD, List.append_nil]
        rw [hTWsp]
        exact he
      have hkey := mem_takeWhile_below t sp e heTW
      rw [← hex]
      simp only [decide_eq_true_eq]
      exact fun hc => absurd (hc ▸ hkey) (lt_irrefl t)
    simp [mFind, hfind]
  | cons e rest =>
    simp only [ids, List.map_cons, List.head?_cons]
    have hesp : e ∈ sp := (List.dropWhile_sublist (belowB t)).subset (hD ▸ List.mem_cons_self e rest)
    have hde := hw.data_all e hesp
    rw [hde]
    have hsplitsp : sp = sp.takeWhile (belowB t) ++ e :: rest := by
      conv_lhs => rw [← hTD, hD]
    have hnb : ¬ e.key < t := by
      have := head?_dropWhile_false (belowB t) sp e (by rw [hD]; rfl)
      simpa [belowB] using this
    have hfindTW : (entriesSp (sp.takeWhile (belowB t))).find?
        (fun p => decide (p.1 = t)) = none := by
      rw [List.find?_eq_none]
      intro x hx
      obtain ⟨a, haTW, hax⟩ := List.mem_map.mp hx
      have hkey := mem_takeWhile_below t sp a haTW
      rw [← hax]
      simp only [decide_eq_true_eq]
      exact fun hc => absurd (hc ▸ hkey) (lt_irrefl t)
    have hmodel : entriesSp sp =
        entriesSp (sp.takeWhile (belowB t)) ++ (e.key, e.val) :: entriesSp rest := by
      conv_lhs => rw [hsplitsp]
      simp [entriesSp]
    by_cases hk : e.key = t
    · simp only [hk, if_pos rfl]
      rw [mFind, hmodel, List.find?_append, hfindTW, Option.none_or]
      rw [List.find?_cons]
      simp [hk]
    · simp only [hk, if_false]
      have hgt : t < e.key := lt_of_le_of_ne (not_lt.mp hnb) (fun hh => hk hh.symm)
      have hrest : ∀ a ∈ rest, t < a.key := by
        intro a ha
        have hpw := hw.sorted
        rw [hsplitsp, List.pairwise_append] at hpw
        have := (List.pairwise_cons.mp hpw.2.1).1 a ha
        exact lt_trans hgt this
      rw [mFind, hmodel, List.find?_append, hfindTW, Option.none_or, List.find?_cons]
      have hke : (decide (((e.key, e.val) : K × V).1 = t)) = false := by
        simp [hk]
      rw [hke]
      have hfrest : (entriesSp rest).find? (fun p => decide (p.1 = t)) = none := by
        rw [List.find?_eq_none]
        intro x hx
        obtain ⟨a, ha, hax⟩ := List.mem_map.mp hx
        rw [← hax]
        simp only [decide_eq_true_eq]
        exact fun hc => absurd (hc ▸ hrest a ha) (lt_irrefl t)
      simp [hfrest]

/-! ### The level generator stays below `MAX_LEVEL` -/

theorem randomLevelGo_lt (f : ℚ) :
    ∀ (fuel level : Nat) (x : ℚ), level < MAX_LEVEL →
    randomLevelGo f fuel level x < MAX_LEVEL := by
  intro fuel
  induction fuel with
  | zero => intro level x hl; exact hl
  | succ fu ih =>
    intro level x hl
    unfold randomLevelGo
    by_cases hc : f < x ∧ level + 1 < MAX_LEVEL
    · rw [if_pos hc]
      exact ih (level + 1) (x * P) hc.2
    · rw [if_neg hc]
      exact hl

theorem random_level_lt (r : ℚ) : random_level r < MAX_LEVEL :=
  randomLevelGo_lt (1 - r) MAX_LEVEL 0 P (by decide)

/-! ### Effect of the splice loop -/

theorem getO_of_pos (h : Heap K V) (w : Nat) (hp : 0 < fwdLenAt h w) :
    ∃ nd, getO h w = some nd := by
  cases hg : getO h w with
  | none =>
    simp only [fwdLenAt, hg] at hp
    exact absurd hp (lt_irrefl 0)
  | some nd => exact ⟨nd, rfl⟩

theorem node_shape (h : Heap K V) (w : Nat) (d : Option (Data K V)) (n : Nat)
    (hda : dataAt h w = d) (hfl : fwdLenAt h w = n) (hpos : 0 < n) :
    ∃ fw, getO h w = some ⟨d, fw⟩ ∧ fw.length = n := by
  cases hg : getO h w with
  | none =>
    simp only [fwdLenAt, hg] at hfl
    omega
  | some nd =>
    have hdat : nd.data = d := by
      unfold dataAt at hda
      rw [hg] at hda
      simpa using hda
    have hln : nd.forward.length = n := by
      simp only [fwdLenAt, hg] at hfl
      exact hfl
    refine ⟨nd.forward, ?_, hln⟩
    rw [← hdat]

theorem splice_dataAt (ups : List Nat) (newId : Nat) :
    ∀ (c i0 : Nat) (h : Heap K V) (w : Nat),
    dataAt (splice ups newId h c i0) w = dataAt h w := by
  intro c
  induction c with
  | zero => intro i0 h w; rfl
  | succ c ih =>
    intro i0 h w
    unfold splice
    rw [ih]
    rw [dataAt_setForward, dataAt_setForward]

theorem splice_fwdLenAt (ups : List Nat) (newId : Nat) :
    ∀ (c i0 : Nat) (h : Heap K V) (w : Nat),
    fwdLenAt (splice ups newId h c i0) w = fwdLenAt h w := by
  intro c
  induction c with
  | zero => intro i0 h w; rfl
  | succ c ih =>
    intro i0 h w
    unfold splice
    rw [ih]
    rw [fwdLenAt_setForward, fwdLenAt_setForward]

theorem splice_length (ups : List Nat) (newId : Nat) :
    ∀ (c i0 : Nat) (h : Heap K V),
    (splice ups newId h c i0).length = h.length := by
  intro c
  induction c with
  | zero => intro i0 h; rfl
  | succ c ih =>
    intro i0 h
    unfold splice
    rw [ih]
    rw [length_setForward, length_setForward]

/-- The three facts about the splice loop over levels `[i0, i0 + c)`:
untouched slots are unchanged, each update node's slot points at the new
node, and the new node's slot holds the update node's old pointer. -/
theorem splice_spec (ups : List Nat) (newId : Nat) :
    ∀ (c i0 : Nat) (h : Heap K V),
    (∀ j, i0 ≤ j → j < i0 + c → ups.getD j 0 ≠ newId) →
    (∀ j, i0 ≤ j → j < i0 + c → j < fwdLenAt h (ups.getD j 0)) →
    (∀ j, i0 ≤ j → j < i0 + c → j < fwdLenAt h newId) →
    (∀ w i, (i < i0 ∨ i0 + c ≤ i ∨ (w ≠ newId ∧ w ≠ ups.getD i 0)) →
      forwardAt (splice ups newId h c i0) w i = forwardAt h w i) ∧
    (∀ j, i0 ≤ j → j < i0 + c →
      forwardAt (splice ups newId h c i0) (ups.getD j 0) j = some newId) ∧
    (∀ j, i0 ≤ j → j < i0 + c →
      forwardAt (splice ups newId h c i0) newId j = forwardAt h (ups.getD j 0) j) := by
  intro c
  induction c with
  | zero =>
    intro i0 h _ _ _
    refine ⟨fun w i _ => rfl, fun j h1 h2 => absurd h2 (by omega),
      fun j h1 h2 => absurd h2 (by omega)⟩
  | succ c ih =>
    intro i0 h hne hlen hnew
    have hne0 : ups.getD i0 0 ≠ newId := hne i0 (le_refl i0) (by omega)
    obtain ⟨ndu, hndu⟩ := getO_of_pos h (ups.getD i0 0)
      (lt_of_le_of_lt (Nat.zero_le i0) (hlen i0 (le_refl i0) (by omega)))
    obtain ⟨ndn, hndn⟩ := getO_of_pos h newId
      (lt_of_le_of_lt (Nat.zero_le i0) (hnew i0 (le_refl i0) (by omega)))
    have hlu : i0 < ndu.forward.length := by
      have hx := hlen i0 (le_refl i0) (by omega)
      simp only [fwdLenAt, hndu] at hx
      exact hx
    have hln : i0 < ndn.forward.length := by
      have hx := hnew i0 (le_refl i0) (by omega)
      simp only [fwdLenAt, hndn] at hx
      exact hx
    set h1 := setForward h newId i0 (forwardAt h (ups.getD i0 0) i0) with hh1
    set h2 := setForward h1 (ups.getD i0 0) i0 (some newId) with hh2
    have hsp : splice ups newId h (c + 1) i0 = splice ups newId h2 c (i0 + 1) := by
      rw [splice]
    have hfl2 : ∀ w, fwdLenAt h2 w = fwdLenAt h w := by
      intro w
      rw [hh2, hh1, fwdLenAt_setForward, fwdLenAt_setForward]
    have hih := ih (i0 + 1) h2
      (fun j hj1 hj2 => hne j (by omega) (by omega))
      (fun j hj1 hj2 => by rw [hfl2]; exact hlen j (by omega) (by omega))
      (fun j hj1 hj2 => by rw [hfl2]; exact hnew j (by omega) (by omega))
    obtain ⟨ihframe, ihupd, ihnew⟩ := hih
    -- pointers at the slot handled in this iteration
    have hfw_u : forwardAt h2 (ups.getD i0 0) i0 = some newId := by
      rw [hh2]
      obtain ⟨ndu1, hndu1⟩ : ∃ nd, getO h1 (ups.getD i0 0) = some nd := by
        rw [hh1]
        rw [getO_setForward_ne h newId _ i0 _ hne0]
        exact ⟨ndu, hndu⟩
      refine forwardAt_setForward_self h1 _ i0 _ ndu1 hndu1 ?_
      have hfe : fwdLenAt h1 (ups.getD i0 0) = fwdLenAt h (ups.getD i0 0) := by
        rw [hh1, fwdLenAt_setForward]
      simp only [fwdLenAt, hndu1, hndu] at hfe
      omega
    have hfw_n : forwardAt h2 newId i0 = forwardAt h (ups.getD i0 0) i0 := by
      rw [hh2, forwardAt_setForward_ne h1 _ newId i0 i0 _ (Or.inl (fun hh => hne0 hh.symm)), hh1]
      exact forwardAt_setForward_self h newId i0 _ ndn hndn hln
    have hframe2 : ∀ w i, (w ≠ newId ∧ w ≠ ups.getD i0 0) ∨ i ≠ i0 →
        forwardAt h2 w i = forwardAt h w i := by
      intro w i hcond
      rcases hcond with ⟨hw1, hw2⟩ | hi
      · rw [hh2, forwardAt_setForward_ne h1 _ w i0 i _ (Or.inl hw2), hh1,
          forwardAt_setForward_ne h newId w i0 i _ (Or.inl hw1)]
      · rw [hh2, forwardAt_setForward_ne h1 _ w i0 i _ (Or.inr hi), hh1,
          forwardAt_setForward_ne h newId w i0 i _ (Or.inr hi)]
    refine ⟨?_, ?_, ?_⟩
    · intro w i hcond
      rw [hsp]
      rcases hcond with hlt | hge | hwne
      · rw [ihframe w i (Or.inl (by omega))]
        exact hframe2 w i (Or.inr (by omega))
      · rw [ihframe w i (Or.inr (Or.inl (by omega)))]
        exact hframe2 w i (Or.inr (by omega))
      · by_cases hi : i = i0
        · subst hi
          rw [ihframe w i (Or.inl (by omega))]
          exact hframe2 w i (Or.inl hwne)
        · by_cases hrange : i0 + 1 ≤ i ∧ i < i0 + 1 + c
          · rw [ihframe w i (Or.inr (Or.inr hwne))]
            exact hframe2 w i (Or.inr hi)
          · have : i < i0 + 1 ∨ i0 + 1 + c ≤ i := by omega
            rcases this with h1 | h2
            · rw [ihframe w i (Or.inl h1)]
              exact hframe2 w i (Or.inr hi)
            · rw [ihframe w i (Or.inr (Or.inl h2))]
              exact hframe2 w i (Or.inr hi)
    · intro j hj1 hj2
      rw [hsp]
      by_cases hj : j = i0
      · subst hj
        rw [ihframe (ups.getD j 0) j (Or.inl (by omega))]
        exact hfw_u
      · exact ihupd j (by omega) (by omega)
    · intro j hj1 hj2
      rw [hsp]
      by_cases hj : j = i0
      · subst hj
        rw [ihframe newId j (Or.inl (by omega))]
        exact hfw_n
      · rw [ihnew j (by omega) (by omega)]
        exact hframe2 (ups.getD j 0) j (Or.inr (fun hh => hj hh))

/-! ### Facts about the recorded update nodes -/

theorem getD_range_map (f : Nat → Nat) (n j : Nat) (hj : j < n) :
    (((List.range n).map f).getD j 0) = f j := by
  rw [List.getD_eq_getElem?_getD, List.getElem?_map, List.getElem?_range hj]
  rfl

theorem updAt_cases [LinearOrder K] (sp : List (SEnt K V)) (hd : Nat) (t : K)
    (j : Nat) :
    updAt sp hd t j = hd ∨
      ∃ e, e ∈ atLevel j sp ∧ e.key < t ∧ updAt sp hd t j = e.id := by
  rcases List.eq_nil_or_concat ((atLevel j sp).takeWhile (belowB t)) with hnil | hcat
  · left
    unfold updAt
    rw [hnil]
    rfl
  · obtain ⟨L, e, hLe⟩ := hcat
    rw [List.concat_eq_append] at hLe
    right
    refine ⟨e, ?_, ?_, ?_⟩
    · exact (List.takeWhile_sublist (belowB t)).subset (hLe ▸ List.mem_append_right L (by simp))
    · have hmem : e ∈ (atLevel j sp).takeWhile (belowB t) := by
        rw [hLe]; simp
      have := List.mem_takeWhile_imp hmem
      simpa [belowB] using this
    · unfold updAt
      rw [hLe, ids_append]
      exact getLastD_concat (ids L) e.id hd

theorem Wf.ids_nodup [LinearOrder K] {s : SkipList K V} {sp : List (SEnt K V)}
    (hw : Wf s sp) : (ids sp).Nodup := (List.nodup_cons.mp hw.nodup).2

theorem Wf.head_notin [LinearOrder K] {s : SkipList K V} {sp : List (SEnt K V)}
    (hw : Wf s sp) : s.head ∉ ids sp := (List.nodup_cons.mp hw.nodup).1

theorem Wf.head_ne_id [LinearOrder K] {s : SkipList K V} {sp : List (SEnt K V)}
    (hw : Wf s sp) (e : SEnt K V) (he : e ∈ sp) : s.head ≠ e.id := by
  intro hc
  exact hw.head_notin (hc ▸ List.mem_map_of_mem SEnt.id he)

theorem Wf.id_inj [LinearOrder K] {s : SkipList K V} {sp : List (SEnt K V)}
    (hw : Wf s sp) (a b : SEnt K V) (ha : a ∈ sp) (hb : b ∈ sp)
    (hab : a.id = b.id) : a = b :=
  List.inj_on_of_nodup_map hw.ids_nodup ha hb hab

theorem Wf.updAt_lt [LinearOrder K] {s : SkipList K V} {sp : List (SEnt K V)}
    (hw : Wf s sp) (t : K) (j : Nat) : updAt sp s.head t j < s.heap.length := by
  rcases updAt_cases sp s.head t j with hh | ⟨e, he, _, hid⟩
  · rw [hh]; exact hw.head_lt
  · rw [hid]
    exact hw.id_lt e ((atLevel_sublist j sp).subset he)

theorem Wf.head_fwdLen [LinearOrder K] {s : SkipList K V} {sp : List (SEnt K V)}
    (hw : Wf s sp) : fwdLenAt s.heap s.head = MAX_LEVEL := by
  obtain ⟨fw, hfw, hlen⟩ := hw.head_node
  simp only [fwdLenAt, hfw]
  exact hlen

theorem Wf.node_fwdLen [LinearOrder K] {s : SkipList K V} {sp : List (SEnt K V)}
    (hw : Wf s sp) (e : SEnt K V) (he : e ∈ sp) :
    fwdLenAt s.heap e.id = e.lvl + 1 := by
  obtain ⟨fw, hfw, hlen⟩ := hw.nodes e he
  simp only [fwdLenAt, hfw]
  exact hlen

theorem Wf.updAt_fwdLen [LinearOrder K] {s : SkipList K V} {sp : List (SEnt K V)}
    (hw : Wf s sp) (t : K) (j : Nat) (hj : j < MAX_LEVEL) :
    j < fwdLenAt s.heap (updAt sp s.head t j) := by
  rcases updAt_cases sp s.head t j with hh | ⟨e, he, _, hid⟩
  · rw [hh, hw.head_fwdLen]
    exact hj
  · rw [hid, hw.node_fwdLen e ((atLevel_sublist j sp).subset he)]
    have := ((mem_atLevel j sp e).mp he).2
    omega

/-- Keys alone determine the sortedness, so replacing one entry by another
with the same key preserves it. -/
theorem sorted_replace [LinearOrder K] (l₁ l₂ : List (SEnt K V)) (a b : SEnt K V)
    (hk : b.key = a.key)
    (hp : (l₁ ++ a :: l₂).Pairwise (fun x y => x.key < y.key)) :
    (l₁ ++ b :: l₂).Pairwise (fun x y => x.key < y.key) := by
  rw [List.pairwise_append] at hp ⊢
  obtain ⟨h1, h2, h3⟩ := hp
  rw [List.pairwise_cons] at h2 ⊢
  refine ⟨h1, ⟨fun e he => hk ▸ h2.1 e he, h2.2⟩, ?_⟩
  intro x hx y hy
  rcases List.mem_cons.mp hy with hyb | hyl
  · rw [hyb, hk]
    exact h3 x hx a (by simp)
  · exact h3 x hx y (by simp [hyl])

/-- `insert` on a key already present: replaces the value in place,
returns the previous value, and changes nothing else. -/
theorem insert_found [LinearOrder K] {s : SkipList K V} {sp : List (SEnt K V)}
    (hw : Wf s sp) (t : K) (v : V) (r : ℚ) (e : SEnt K V) (rest : List (SEnt K V))
    (hD : sp.dropWhile (belowB t) = e :: rest) (hk : e.key = t) :
    s.insert t v r = (some e.val, ⟨s.len, s.head, setValue s.heap e.id v⟩) := by
  have hesp : e ∈ sp :=
    (List.dropWhile_sublist (belowB t)).subset (hD ▸ List.mem_cons_self e rest)
  have hde := hw.data_all e hesp
  simp only [SkipList.insert, hw.scanAll_eq t, hw.pred_succ t, hD, ids,
    List.map_cons, List.head?_cons, hde, hk, if_pos rfl, if_true]

/-- The in-place value replacement keeps the structure well formed, with
the same spine up to the one value. -/
theorem insert_found_wf [LinearOrder K] {s : SkipList K V} {sp : List (SEnt K V)}
    (hw : Wf s sp) (t : K) (v : V) (e : SEnt K V) (rest : List (SEnt K V))
    (hD : sp.dropWhile (belowB t) = e :: rest) :
    Wf (⟨s.len, s.head, setValue s.heap e.id v⟩ : SkipList K V)
      (sp.takeWhile (belowB t) ++ ⟨e.id, e.key, v, e.lvl⟩ :: rest) := by
  have hTD := List.takeWhile_append_dropWhile (p := belowB t) (l := sp)
  have hsplitsp : sp = sp.takeWhile (belowB t) ++ e :: rest := by
    conv_lhs => rw [← hTD, hD]
  have hesp : e ∈ sp :=
    (List.dropWhile_sublist (belowB t)).subset (hD ▸ List.mem_cons_self e rest)
  obtain ⟨fw, hfw, hfwlen⟩ := hw.nodes e hesp
  have hsetv : setValue s.heap e.id v =
      setO s.heap e.id (some ⟨some ⟨e.key, v⟩, fw⟩) :=
    setValue_eq_of s.heap e.id v ⟨some ⟨e.key, e.val⟩, fw⟩ ⟨e.key, e.val⟩ hfw rfl
  have hgetE : getO (setValue s.heap e.id v) e.id = some ⟨some ⟨e.key, v⟩, fw⟩ := by
    rw [hsetv]
    exact getO_setO_self s.heap e.id _ (getO_lt_length s.heap e.id _ hfw)
  have heidnot : e.id ∉ ids (sp.takeWhile (belowB t)) ++ ids rest := by
    have hnd := hw.ids_nodup
    rw [hsplitsp, ids_append, ids_cons] at hnd
    exact (List.nodup_cons.mp (List.nodup_middle.mp hnd)).1
  have hane : ∀ a : SEnt K V, a ∈ sp.takeWhile (belowB t) ∨ a ∈ rest → a.id ≠ e.id := by
    intro a ha hc
    refine heidnot ?_
    rcases ha with h1 | h2
    · exact hc ▸ List.mem_append_left _ (List.mem_map_of_mem SEnt.id h1)
    · exact hc ▸ List.mem_append_right _ (List.mem_map_of_mem SEnt.id h2)
  have hamem : ∀ a : SEnt K V, a ∈ sp.takeWhile (belowB t) ∨ a ∈ rest → a ∈ sp := by
    intro a ha
    rw [hsplitsp]
    rcases ha with h1 | h2
    · exact List.mem_append_left _ h1
    · exact List.mem_append_right _ (List.mem_cons_of_mem e h2)
  refine ⟨?_, ?_, ?_, ?_, ?_, ?_, ?_, ?_, ?_⟩
  · rw [length_setValue]
    exact hw.head_lt
  · rw [getO_setValue_ne s.heap e.id s.head v (hw.head_ne_id e hesp)]
    exact hw.head_node
  · intro a ha
    rcases List.mem_append.mp ha with h1 | h12
    · rw [getO_setValue_ne s.heap e.id a.id v (hane a (Or.inl h1))]
      exact hw.nodes a (hamem a (Or.inl h1))
    · rcases List.mem_cons.mp h12 with h2 | h3
      · rw [h2, hgetE]
        exact ⟨fw, rfl, hfwlen⟩
      · rw [getO_setValue_ne s.heap e.id a.id v (hane a (Or.inr h3))]
        exact hw.nodes a (hamem a (Or.inr h3))
  · intro a ha
    rcases List.mem_append.mp ha with h1 | h12
    · exact hw.lvl_lt a (hamem a (Or.inl h1))
    · rcases List.mem_cons.mp h12 with h2 | h3
      · rw [h2]
        exact hw.lvl_lt e hesp
      · exact hw.lvl_lt a (hamem a (Or.inr h3))
  · intro a ha
    rw [length_setValue]
    rcases List.mem_append.mp ha with h1 | h12
    · exact hw.id_lt a (hamem a (Or.inl h1))
    · rcases List.mem_cons.mp h12 with h2 | h3
      · rw [h2]
        exact hw.id_lt e hesp
      · exact hw.id_lt a (hamem a (Or.inr h3))
  · have hids2 : ids (sp.takeWhile (belowB t) ++
        (⟨e.id, e.key, v, e.lvl⟩ : SEnt K V) :: rest) = ids sp := by
      conv_rhs => rw [hsplitsp]
      rw [ids_append, ids_cons, ids_append, ids_cons]
    rw [hids2]
    exact hw.nodup
  · exact sorted_replace _ rest e ⟨e.id, e.key, v, e.lvl⟩ rfl (hsplitsp ▸ hw.sorted)
  · intro i hi
    have hids : ids (atLevel i (sp.takeWhile (belowB t) ++
        (⟨e.id, e.key, v, e.lvl⟩ : SEnt K V) :: rest)) = ids (atLevel i sp) := by
      conv_rhs => rw [hsplitsp]
      unfold atLevel
      rw [List.filter_append, List.filter_append, List.filter_cons, List.filter_cons]
      by_cases hil : (i ≤ e.lvl)
      · simp [hil, ids]
      · simp [hil, ids]
  -- placeholder-free continuation below
    rw [hids]
    refine isChain_congr s.heap _ i s.head _ ?_ (hw.links i hi)
    intro a _
    rw [forwardAt_setValue]
  · have hlen2 : (sp.takeWhile (belowB t) ++
        (⟨e.id, e.key, v, e.lvl⟩ : SEnt K V) :: rest).length = sp.length := by
      conv_rhs => rw [hsplitsp]
      simp
    rw [hlen2]
    exact hw.len_eq

/-! ### Chain surgery lemmas for the fresh-insert and unlink cases -/

/-- A partial chain only reads the pointers of its nodes except the very
last one, so it survives heap changes that spare those. -/
theorem links_of_init_eq (h h2 : Heap K V) (i : Nat) :
    ∀ (l : List Nat) (u : Nat), (u :: l).Nodup →
    (∀ a ∈ u :: l, a ≠ l.getLastD u → forwardAt h2 a i = forwardAt h a i) →
    Links h i u l → Links h2 i u l := by
  intro l
  induction l with
  | nil => intro u _ _ _; trivial
  | cons v l ih =>
    intro u hnd hfw hl
    obtain ⟨h1, hrest⟩ := hl
    have hlast : (v :: l).getLastD u = l.getLastD v := List.getLastD_cons u v l
    have hune : u ≠ (v :: l).getLastD u := by
      rw [hlast]
      intro hc
      exact (List.nodup_cons.mp hnd).1 (hc ▸ getLastD_mem_cons l v)
    refine ⟨by rw [hfw u (by simp) hune, h1], ?_⟩
    refine ih v (List.nodup_cons.mp hnd).2 ?_ hrest
    intro a ha hne
    exact hfw a (List.mem_cons_of_mem u ha) (by rw [hlast]; exact hne)

/-- Re-root a complete chain at a new source node that inherits the old
source's pointer, when the chain's inner pointers are untouched. -/
theorem isChain_retarget (h h2 : Heap K V) (i a b : Nat) (l : List Nat)
    (hb : forwardAt h2 b i = forwardAt h a i)
    (hl : ∀ w ∈ l, forwardAt h2 w i = forwardAt h w i)
    (hc : IsChain h i a l) : IsChain h2 i b l := by
  cases l with
  | nil => exact ⟨trivial, hb.trans hc.2⟩
  | cons v rest =>
    obtain ⟨⟨h1, hrest⟩, hend⟩ := hc
    refine ⟨⟨hb.trans h1, ?_⟩, ?_⟩
    · exact links_congr h h2 i v rest (fun w hw => hl w hw) hrest
    · rw [List.getLastD_cons]
      rw [hl ((rest).getLastD v) (getLastD_mem_cons rest v)]
      rw [← List.getLastD_cons a v rest]
      exact hend

theorem isChain_cons_of (h2 : Heap K V) (i u b : Nat) (l : List Nat)
    (hub : forwardAt h2 u i = some b) (hc : IsChain h2 i b l) :
    IsChain h2 i u (b :: l) := by
  refine ⟨⟨hub, hc.1⟩, ?_⟩
  rw [List.getLastD_cons]
  exact hc.2

theorem atLevel_append (i : Nat) (l₁ l₂ : List (SEnt K V)) :
    atLevel i (l₁ ++ l₂) = atLevel i l₁ ++ atLevel i l₂ := by
  unfold atLevel
  rw [List.filter_append]

/-- On a sorted spine, restricting to a level commutes with cutting at
the target key, so the recorded update node lives in the spine prefix. -/
theorem updAt_TW [LinearOrder K] (sp : List (SEnt K V)) (hd : Nat) (t : K) (i : Nat)
    (hsorted : sp.Pairwise (fun a b => a.key < b.key)) :
    updAt sp hd t i = (ids (atLevel i (sp.takeWhile (belowB t)))).getLastD hd := by
  unfold updAt
  have hsi : (atLevel i sp).Pairwise (fun a b => a.key < b.key) :=
    List.Pairwise.sublist (atLevel_sublist i sp) hsorted
  have hstep : (atLevel i sp).takeWhile (belowB t) =
      atLevel i (sp.takeWhile (belowB t)) := by
    rw [takeWhile_eq_filter_below t _ hsi, takeWhile_eq_filter_below t sp hsorted]
    unfold atLevel
    exact List.filter_comm _ _ sp
  rw [hstep]

/-- When no spine key equals the target, everything after the cut is
strictly above the target. -/
theorem dropWhile_gt [LinearOrder K] (t : K) (sp : List (SEnt K V))
    (hsorted : sp.Pairwise (fun a b => a.key < b.key))
    (hnot : ∀ a ∈ sp, a.key ≠ t) :
    ∀ a ∈ sp.dropWhile (belowB t), t < a.key := by
  intro a ha
  cases hD : sp.dropWhile (belowB t) with
  | nil =>
    rw [hD] at ha
    simp at ha
  | cons e rest =>
    rw [hD] at ha
    have hnb : ¬ e.key < t := by
      simpa [belowB] using head?_dropWhile_false (belowB t) sp e (by rw [hD]; rfl)
    have hesp : e ∈ sp :=
      (List.dropWhile_sublist (belowB t)).subset (hD ▸ List.mem_cons_self e rest)
    have hte : t < e.key :=
      lt_of_le_of_ne (not_lt.mp hnb) (fun hh => hnot e hesp hh.symm)
    rcases List.mem_cons.mp ha with hae | har
    · rw [hae]
      exact hte
    · have hpw : (e :: rest).Pairwise (fun a b => a.key < b.key) := by
        have := List.Pairwise.sublist (List.dropWhile_sublist (belowB t)) hsorted
        rw [hD] at this
        exact this
      exact lt_trans hte ((List.pairwise_cons.mp hpw).1 a har)

/-- A node at or beyond the target key is never a recorded update node. -/
theorem Wf.updAt_ne_of_ge [LinearOrder K] {s : SkipList K V} {sp : List (SEnt K V)}
    (hw : Wf s sp) (t : K) (j : Nat) (b : SEnt K V) (hb : b ∈ sp)
    (hbk : ¬ b.key < t) : b.id ≠ updAt sp s.head t j := by
  rcases updAt_cases sp s.head t j with hh | ⟨e, he, hek, hid⟩
  · rw [hh]
    exact fun hc => hw.head_ne_id b hb hc.symm
  · rw [hid]
    intro hc
    have hesp : e ∈ sp := (atLevel_sublist j sp).subset he
    have := hw.id_inj b e hb hesp hc
    rw [this] at hbk
    exact hbk hek

/-- When the key is absent, `insert` reaches the fresh-node path. -/
theorem insert_goes_fresh [LinearOrder K] {s : SkipList K V} {sp : List (SEnt K V)}
    (hw : Wf s sp) (t : K) (v : V) (r : ℚ)
    (hnot : ∀ a ∈ sp, a.key ≠ t) :
    s.insert t v r =
      s.insertFresh t v ((List.range MAX_LEVEL).map (updAt sp s.head t)) r := by
  cases hD : sp.dropWhile (belowB t) with
  | nil =>
    simp only [SkipList.insert, hw.scanAll_eq t, hw.pred_succ t, hD, ids,
      List.map_nil, List.head?_nil]
  | cons e rest =>
    have hesp : e ∈ sp :=
      (List.dropWhile_sublist (belowB t)).subset (hD ▸ List.mem_cons_self e rest)
    have hde := hw.data_all e hesp
    have hke : ¬ (e.key = t) := hnot e hesp
    simp only [SkipList.insert, hw.scanAll_eq t, hw.pred_succ t, hD, ids,
      List.map_cons, List.head?_cons, hde]
    rw [if_neg hke]

/-- The fresh-node path preserves well-formedness: the new node sits in
the spine between the below-target prefix and the rest. -/
theorem insertFresh_wf [LinearOrder K] {s : SkipList K V} {sp : List (SEnt K V)}
    (hw : Wf s sp) (t : K) (v : V) (r : ℚ)
    (hnot : ∀ a ∈ sp, a.key ≠ t) :
    Wf (s.insertFresh t v ((List.range MAX_LEVEL).map (updAt sp s.head t)) r).2
      (sp.takeWhile (belowB t) ++
        (⟨s.heap.length, t, v, random_level r⟩ : SEnt K V) :: sp.dropWhile (belowB t)) := by
  have hnl : random_level r < MAX_LEVEL := random_level_lt r
  have hTD := List.takeWhile_append_dropWhile (p := belowB t) (l := sp)
  have hsplitsp : sp = sp.takeWhile (belowB t) ++ sp.dropWhile (belowB t) := hTD.symm
  have hupsget : ∀ j, j < MAX_LEVEL →
      ((List.range MAX_LEVEL).map (updAt sp s.head t)).getD j 0 = updAt sp s.head t j :=
    fun j hj => getD_range_map (updAt sp s.head t) MAX_LEVEL j hj
  have hfa1 : ∀ w i, w < s.heap.length →
      forwardAt (s.heap ++ [some (Node.mkNode (some ⟨t, v⟩) (random_level r))]) w i =
        forwardAt s.heap w i :=
    fun w i hwlt => forwardAt_append s.heap _ w i hwlt
  have hda1 : ∀ w, w < s.heap.length →
      dataAt (s.heap ++ [some (Node.mkNode (some ⟨t, v⟩) (random_level r))]) w =
        dataAt s.heap w :=
    fun w hwlt => dataAt_append s.heap _ w hwlt
  have hfl1 : ∀ w, w < s.heap.length →
      fwdLenAt (s.heap ++ [some (Node.mkNode (some ⟨t, v⟩) (random_level r))]) w =
        fwdLenAt s.heap w :=
    fun w hwlt => fwdLenAt_append s.heap _ w hwlt
  have hgetn : getO (s.heap ++ [some (Node.mkNode (some ⟨t, v⟩) (random_level r))])
      s.heap.length = some (Node.mkNode (some ⟨t, v⟩) (random_level r)) :=
    getO_append_self s.heap _
  have hfan : ∀ i, forwardAt (s.heap ++ [some (Node.mkNode (some ⟨t, v⟩) (random_level r))])
      s.heap.length i = none := by
    intro i
    simp only [forwardAt, hgetn]
    simp only [Node.mkNode]
    exact getO_replicate_none _ i
  have hdan : dataAt (s.heap ++ [some (Node.mkNode (some ⟨t, v⟩) (random_level r))])
      s.heap.length = some ⟨t, v⟩ := by
    simp only [dataAt, hgetn]
    rfl
  have hfln : fwdLenAt (s.heap ++ [some (Node.mkNode (some ⟨t, v⟩) (random_level r))])
      s.heap.length = random_level r + 1 := by
    simp only [fwdLenAt, hgetn]
    simp only [Node.mkNode]
    exact List.length_replicate _ _
  obtain ⟨E1, E2, E3⟩ := splice_spec ((List.range MAX_LEVEL).map (updAt sp s.head t))
    s.heap.length (random_level r + 1) 0
    (s.heap ++ [some (Node.mkNode (some ⟨t, v⟩) (random_level r))])
    (by
      intro j hj0 hjc
      rw [hupsget j (by omega)]
      exact Nat.ne_of_lt (hw.updAt_lt t j))
    (by
      intro j hj0 hjc
      rw [hupsget j (by omega), hfl1 _ (hw.updAt_lt t j)]
      exact hw.updAt_fwdLen t j (by omega))
    (by
      intro j hj0 hjc
      rw [hfln]
      omega)
  -- cleaned-up forms of the splice effects
  have FE1 : ∀ w i, i < MAX_LEVEL → w < s.heap.length → w ≠ updAt sp s.head t i →
      forwardAt (s.insertFresh t v ((List.range MAX_LEVEL).map (updAt sp s.head t)) r).2.heap w i =
        forwardAt s.heap w i := by
    intro w i hi hwlt hwne
    have := E1 w i (Or.inr (Or.inr ⟨Nat.ne_of_lt hwlt, by rw [hupsget i hi]; exact hwne⟩))
    exact this.trans (hfa1 w i hwlt)
  have FE1b : ∀ w i, random_level r + 1 ≤ i → w < s.heap.length →
      forwardAt (s.insertFresh t v ((List.range MAX_LEVEL).map (updAt sp s.head t)) r).2.heap w i =
        forwardAt s.heap w i := by
    intro w i hi hwlt
    have := E1 w i (Or.inr (Or.inl (by omega)))
    exact this.trans (hfa1 w i hwlt)
  have FE2 : ∀ j, j ≤ random_level r →
      forwardAt (s.insertFresh t v ((List.range MAX_LEVEL).map (updAt sp s.head t)) r).2.heap
        (updAt sp s.head t j) j = some s.heap.length := by
    intro j hj
    have := E2 j (Nat.zero_le j) (by omega)
    rw [hupsget j (by omega)] at this
    exact this
  have FE3 : ∀ j, j ≤ random_level r →
      forwardAt (s.insertFresh t v ((List.range MAX_LEVEL).map (updAt sp s.head t)) r).2.heap
        s.heap.length j = forwardAt s.heap (updAt sp s.head t j) j := by
    intro j hj
    have := E3 j (Nat.zero_le j) (by omega)
    rw [hupsget j (by omega)] at this
    exact this.trans (hfa1 _ j (hw.updAt_lt t j))
  have FE3b : ∀ i, random_level r + 1 ≤ i →
      forwardAt (s.insertFresh t v ((List.range MAX_LEVEL).map (updAt sp s.head t)) r).2.heap
        s.heap.length i = none := by
    intro i hi
    have := E1 s.heap.length i (Or.inr (Or.inl (by omega)))
    exact this.trans (hfan i)
  have hda2 : ∀ w, dataAt (s.insertFresh t v ((List.range MAX_LEVEL).map (updAt sp s.head t)) r).2.heap w =
      dataAt (s.heap ++ [some (Node.mkNode (some ⟨t, v⟩) (random_level r))]) w :=
    fun w => splice_dataAt _ _ _ _ _ w
  have hfl2 : ∀ w, fwdLenAt (s.insertFresh t v ((List.range MAX_LEVEL).map (updAt sp s.head t)) r).2.heap w =
      fwdLenAt (s.heap ++ [some (Node.mkNode (some ⟨t, v⟩) (random_level r))]) w :=
    fun w => splice_fwdLenAt _ _ _ _ _ w
  have hlen2 : (s.insertFresh t v ((List.range MAX_LEVEL).map (updAt sp s.head t)) r).2.heap.length =
      s.heap.length + 1 := by
    show (splice _ _ _ _ _).length = _
    rw [splice_length]
    simp
  have hheadeq : (s.insertFresh t v ((List.range MAX_LEVEL).map (updAt sp s.head t)) r).2.head =
      s.head := rfl
  have hTWlt : ∀ a ∈ sp.takeWhile (belowB t), a.key < t :=
    fun a ha => mem_takeWhile_below t sp a ha
  have hDWgt : ∀ a ∈ sp.dropWhile (belowB t), t < a.key :=
    dropWhile_gt t sp hw.sorted hnot
  have hTWmem : ∀ a ∈ sp.takeWhile (belowB t), a ∈ sp :=
    fun a ha => (List.takeWhile_sublist (belowB t)).subset ha
  have hDWmem : ∀ a ∈ sp.dropWhile (belowB t), a ∈ sp :=
    fun a ha => (List.dropWhile_sublist (belowB t)).subset ha
  refine ⟨?_, ?_, ?_, ?_, ?_, ?_, ?_, ?_, ?_⟩
  · rw [hlen2]
    exact Nat.lt_succ_of_lt hw.head_lt
  · refine node_shape _ s.head none MAX_LEVEL ?_ ?_ (by decide)
    · rw [hda2, hda1 s.head hw.head_lt]
      exact hw.head_dataAt
    · rw [hfl2, hfl1 s.head hw.head_lt]
      exact hw.head_fwdLen
  · intro a ha
    rcases List.mem_append.mp ha with h1 | h12
    · refine node_shape _ a.id (some ⟨a.key, a.val⟩) (a.lvl + 1) ?_ ?_ (by omega)
      · rw [hda2, hda1 a.id (hw.id_lt a (hTWmem a h1))]
        exact hw.data_all a (hTWmem a h1)
      · rw [hfl2, hfl1 a.id (hw.id_lt a (hTWmem a h1))]
        exact hw.node_fwdLen a (hTWmem a h1)
    · rcases List.mem_cons.mp h12 with h2 | h3
      · rw [h2]
        refine node_shape _ s.heap.length (some ⟨t, v⟩) (random_level r + 1) ?_ ?_ (by omega)
        · rw [hda2]
          exact hdan
        · rw [hfl2]
          exact hfln
      · refine node_shape _ a.id (some ⟨a.key, a.val⟩) (a.lvl + 1) ?_ ?_ (by omega)
        · rw [hda2, hda1 a.id (hw.id_lt a (hDWmem a h3))]
          exact hw.data_all a (hDWmem a h3)
        · rw [hfl2, hfl1 a.id (hw.id_lt a (hDWmem a h3))]
          exact hw.node_fwdLen a (hDWmem a h3)
  · intro a ha
    rcases List.mem_append.mp ha with h1 | h12
    · exact hw.lvl_lt a (hTWmem a h1)
    · rcases List.mem_cons.mp h12 with h2 | h3
      · rw [h2]
        exact hnl
      · exact hw.lvl_lt a (hDWmem a h3)
  · intro a ha
    rw [hlen2]
    rcases List.mem_append.mp ha with h1 | h12
    · exact Nat.lt_succ_of_lt (hw.id_lt a (hTWmem a h1))
    · rcases List.mem_cons.mp h12 with h2 | h3
      · rw [h2]
        show s.heap.length < s.heap.length + 1
        omega
      · exact Nat.lt_succ_of_lt (hw.id_lt a (hDWmem a h3))
  · rw [hheadeq]
    simp only [ids_append, ids_cons]
    have hshape : s.head :: (ids (sp.takeWhile (belowB t)) ++
        s.heap.length :: ids (sp.dropWhile (belowB t))) =
        (s.head :: ids (sp.takeWhile (belowB t))) ++
          s.heap.length :: ids (sp.dropWhile (belowB t)) := by
      simp
    rw [hshape, List.nodup_middle, List.nodup_cons]
    constructor
    · intro hc
      have hc2 : s.heap.length ∈ s.head :: ids sp := by
        rw [hsplitsp, ids_append]
        simpa using hc
      rcases List.mem_cons.mp hc2 with hh | hm
      · exact absurd hh.symm (Nat.ne_of_lt hw.head_lt)
      · obtain ⟨b, hb, hbid⟩ := List.mem_map.mp hm
        exact absurd hbid (Nat.ne_of_lt (hw.id_lt b hb))
    · have hnd := hw.nodup
      rw [hsplitsp, ids_append] at hnd
      simpa using hnd
  · rw [List.pairwise_append]
    refine ⟨List.Pairwise.sublist (List.takeWhile_sublist (belowB t)) hw.sorted, ?_, ?_⟩
    · rw [List.pairwise_cons]
      exact ⟨fun b hb => hDWgt b hb,
        List.Pairwise.sublist (List.dropWhile_sublist (belowB t)) hw.sorted⟩
    · intro a ha b hb
      rcases List.mem_cons.mp hb with hb1 | hb2
      · rw [hb1]
        exact hTWlt a ha
      · exact lt_trans (hTWlt a ha) (hDWgt b hb2)
  · intro i hi
    rw [hheadeq]
    have hold := hw.links i hi
    have hatL : ids (atLevel i sp) = ids (atLevel i (sp.takeWhile (belowB t))) ++
        ids (atLevel i (sp.dropWhile (belowB t))) := by
      conv_lhs => rw [hsplitsp]
      rw [atLevel_append, ids_append]
    have hupdi := updAt_TW sp s.head t i hw.sorted
    rw [hatL] at hold
    have hmemlt : ∀ a ∈ ids (atLevel i sp), a < s.heap.length := by
      intro a haids
      obtain ⟨b, hb, hbid⟩ := List.mem_map.mp haids
      rw [← hbid]
      exact hw.id_lt b ((atLevel_sublist i sp).subset hb)
    by_cases hil : i ≤ random_level r
    · have hsp2' : atLevel i (sp.takeWhile (belowB t) ++
          (⟨s.heap.length, t, v, random_level r⟩ : SEnt K V) :: sp.dropWhile (belowB t)) =
          atLevel i (sp.takeWhile (belowB t)) ++
            (⟨s.heap.length, t, v, random_level r⟩ : SEnt K V) ::
              atLevel i (sp.dropWhile (belowB t)) := by
        rw [atLevel_append]
        unfold atLevel
        rw [List.filter_cons]
        simp [hil]
      rw [hsp2']
      simp only [ids_append, ids_cons]
      rw [isChain_append]
      constructor
      · -- the prefix links survive: only the update node's pointer moved
        have holdL := ((isChain_append s.heap i s.head _ _).mp hold).1
        refine links_of_init_eq s.heap _ i _ s.head ?_ ?_ holdL
        · have hsub : List.Sublist (ids (atLevel i (sp.takeWhile (belowB t)))) (ids sp) := by
            refine List.Sublist.map SEnt.id ?_
            exact List.Sublist.trans (atLevel_sublist i _) (List.takeWhile_sublist _)
          exact List.Nodup.sublist (List.Sublist.cons₂ s.head hsub) hw.nodup
        · intro a ha hane
          rw [← hupdi] at hane
          have halt : a < s.heap.length := by
            rcases List.mem_cons.mp ha with h1 | h2
            · rw [h1]; exact hw.head_lt
            · obtain ⟨b, hb, hbid⟩ := List.mem_map.mp h2
              rw [← hbid]
              exact hw.id_lt b ((List.takeWhile_sublist _).subset ((atLevel_sublist i _).subset hb))
          exact FE1 a i hi halt hane
      · rw [← hupdi]
        refine isChain_cons_of _ i _ s.heap.length _ (FE2 i hil) ?_
        have holdC := ((isChain_append s.heap i s.head _ _).mp hold).2
        rw [← hupdi] at holdC
        refine isChain_retarget s.heap _ i (updAt sp s.head t i) s.heap.length _
          (FE3 i hil) ?_ holdC
        intro w hwmem
        obtain ⟨b, hb, hbid⟩ := List.mem_map.mp hwmem
        have hbsp : b ∈ sp := hDWmem b ((atLevel_sublist i _).subset hb)
        refine FE1 w i hi (by rw [← hbid]; exact hw.id_lt b hbsp) ?_
        rw [← hbid]
        exact hw.updAt_ne_of_ge t i b hbsp
          (not_lt.mpr (le_of_lt (hDWgt b ((atLevel_sublist i _).subset hb))))
    · have hsp2' : atLevel i (sp.takeWhile (belowB t) ++
          (⟨s.heap.length, t, v, random_level r⟩ : SEnt K V) :: sp.dropWhile (belowB t)) =
          atLevel i (sp.takeWhile (belowB t)) ++ atLevel i (sp.dropWhile (belowB t)) := by
        rw [atLevel_append]
        unfold atLevel
        rw [List.filter_cons]
        simp [hil]
      rw [hsp2', ids_append]
      refine isChain_congr s.heap _ i s.head _ ?_ hold
      intro a ha
      rcases List.mem_cons.mp ha with h1 | h2
      · rw [h1]
        exact FE1b s.head i (by omega) hw.head_lt
      · rw [hatL] at hmemlt
        exact FE1b a i (by omega) (hmemlt a h2)
  · show s.len + 1 = _
    rw [List.length_append, List.length_cons]
    have : sp.length = (sp.takeWhile (belowB t)).length + (sp.dropWhile (belowB t)).length := by
      conv_lhs => rw [hsplitsp]
      rw [List.length_append]
    rw [hw.len_eq, this]
    omega

/-! ### Effect of the unlink loop of `remove` -/

theorem unlink_dataAt (ups : List Nat) (del : Nat) :
    ∀ (c i0 : Nat) (h : Heap K V) (w : Nat),
    dataAt (unlink ups del h c i0) w = dataAt h w := by
  intro c
  induction c with
  | zero => intro i0 h w; rfl
  | succ c ih =>
    intro i0 h w
    unfold unlink
    by_cases hg : forwardAt h (ups.getD i0 0) i0 = some del
    · rw [if_pos hg, ih, dataAt_setForward]
    · rw [if_neg hg]

theorem unlink_fwdLenAt (ups : List Nat) (del : Nat) :
    ∀ (c i0 : Nat) (h : Heap K V) (w : Nat),
    fwdLenAt (unlink ups del h c i0) w = fwdLenAt h w := by
  intro c
  induction c with
  | zero => intro i0 h w; rfl
  | succ c ih =>
    intro i0 h w
    unfold unlink
    by_cases hg : forwardAt h (ups.getD i0 0) i0 = some del
    · rw [if_pos hg, ih, fwdLenAt_setForward]
    · rw [if_neg hg]

theorem unlink_length (ups : List Nat) (del : Nat) :
    ∀ (c i0 : Nat) (h : Heap K V),
    (unlink ups del h c i0).length = h.length := by
  intro c
  induction c with
  | zero => intro i0 h; rfl
  | succ c ih =>
    intro i0 h
    unfold unlink
    by_cases hg : forwardAt h (ups.getD i0 0) i0 = some del
    · rw [if_pos hg, ih, length_setForward]
    · rw [if_neg hg]

/-- The unlink loop redirects exactly the update nodes of levels up to
the removed node's level, and leaves every other pointer alone. -/
theorem unlink_spec (ups : List Nat) (del : Nat) :
    ∀ (c i0 : Nat) (h : Heap K V) (L : Nat),
    (∀ j, i0 ≤ j → j < i0 + c → ups.getD j 0 ≠ del) →
    (∀ j, i0 ≤ j → j < i0 + c → j ≤ L → forwardAt h (ups.getD j 0) j = some del) →
    (∀ j, i0 ≤ j → j < i0 + c → L < j → forwardAt h (ups.getD j 0) j ≠ some del) →
    (∀ j, i0 ≤ j → j < i0 + c → j ≤ L → j < fwdLenAt h (ups.getD j 0)) →
    (∀ w i, (i < i0 ∨ L < i ∨ w ≠ ups.getD i 0) →
      forwardAt (unlink ups del h c i0) w i = forwardAt h w i) ∧
    (∀ j, i0 ≤ j → j < i0 + c → j ≤ L →
      forwardAt (unlink ups del h c i0) (ups.getD j 0) j = forwardAt h del j) := by
  intro c
  induction c with
  | zero =>
    intro i0 h L _ _ _ _
    exact ⟨fun w i _ => rfl, fun j hj1 hj2 _ => absurd hj2 (by omega)⟩
  | succ c ih =>
    intro i0 h L hne hyes hno hbnd
    by_cases hiL : i0 ≤ L
    · have hg : forwardAt h (ups.getD i0 0) i0 = some del :=
        hyes i0 (le_refl i0) (by omega) hiL
      have hstep : unlink ups del h (c + 1) i0 =
          unlink ups del (setForward h (ups.getD i0 0) i0 (forwardAt h del i0)) c (i0 + 1) := by
        rw [unlink, if_pos hg]
      obtain ⟨ndu, hndu⟩ := getO_of_pos h (ups.getD i0 0)
        (lt_of_le_of_lt (Nat.zero_le i0) (hbnd i0 (le_refl i0) (by omega) hiL))
      have hlu : i0 < ndu.forward.length := by
        have hx := hbnd i0 (le_refl i0) (by omega) hiL
        simp only [fwdLenAt, hndu] at hx
        exact hx
      have hfr : ∀ w i, i ≠ i0 ∨ w ≠ ups.getD i0 0 →
          forwardAt (setForward h (ups.getD i0 0) i0 (forwardAt h del i0)) w i =
            forwardAt h w i := by
        intro w i hcond
        rcases hcond with hi | hwne
        · exact forwardAt_setForward_ne h _ w i0 i _ (Or.inr hi)
        · exact forwardAt_setForward_ne h _ w i0 i _ (Or.inl hwne)
      have hih := ih (i0 + 1) (setForward h (ups.getD i0 0) i0 (forwardAt h del i0)) L
        (fun j hj1 hj2 => hne j (by omega) (by omega))
        (fun j hj1 hj2 hjL => by
          rw [hfr _ j (Or.inl (by omega))]
          exact hyes j (by omega) (by omega) hjL)
        (fun j hj1 hj2 hjL => by
          rw [hfr _ j (Or.inl (by omega))]
          exact hno j (by omega) (by omega) hjL)
        (fun j hj1 hj2 hjL => by
          rw [fwdLenAt_setForward]
          exact hbnd j (by omega) (by omega) hjL)
      obtain ⟨ihframe, ihupd⟩ := hih
      constructor
      · intro w i hcond
        rw [hstep]
        by_cases hi : i = i0
        · subst hi
          have hwne : w ≠ ups.getD i 0 := by
            rcases hcond with h1 | h2 | h3
            · omega
            · omega
            · exact h3
          rw [ihframe w i (Or.inl (by omega))]
          exact hfr w i (Or.inr hwne)
        · have hcond2 : i < i0 + 1 ∨ L < i ∨ w ≠ ups.getD i 0 := by
            rcases hcond with h1 | h2 | h3
            · left; omega
            · right; left; exact h2
            · right; right; exact h3
          rw [ihframe w i hcond2]
          exact hfr w i (Or.inl hi)
      · intro j hj1 hj2 hjL
        rw [hstep]
        by_cases hj : j = i0
        · subst hj
          rw [ihframe (ups.getD j 0) j (Or.inl (by omega))]
          rw [forwardAt_setForward_self h _ j _ ndu hndu hlu]
        · rw [ihupd j (by omega) (by omega) hjL]
          exact hfr del j (Or.inr (hne i0 (le_refl i0) (by omega)).symm)
    · have hg : ¬ forwardAt h (ups.getD i0 0) i0 = some del :=
        hno i0 (le_refl i0) (by omega) (by omega)
      have hstep : unlink ups del h (c + 1) i0 = h := by
        rw [unlink, if_neg hg]
      rw [hstep]
      exact ⟨fun w i _ => rfl, fun j hj1 hj2 hjL => absurd hjL (by omega)⟩

/-- The successor of the recorded update node of any level is the first
entry at that level beyond the cut. -/
theorem Wf.upd_succ [LinearOrder K] {s : SkipList K V} {sp : List (SEnt K V)}
    (hw : Wf s sp) (t : K) (j : Nat) (hj : j < MAX_LEVEL) :
    forwardAt s.heap (updAt sp s.head t j) j =
      (ids (atLevel j (sp.dropWhile (belowB t)))).head? := by
  have hch := hw.links j hj
  have hTD := List.takeWhile_append_dropWhile (p := belowB t) (l := sp)
  have hatL : ids (atLevel j sp) = ids (atLevel j (sp.takeWhile (belowB t))) ++
      ids (atLevel j (sp.dropWhile (belowB t))) := by
    conv_lhs => rw [hTD.symm]
    rw [atLevel_append, ids_append]
  rw [hatL] at hch
  have hsplit := ((isChain_append s.heap j s.head _ _).mp hch).2
  rw [updAt_TW sp s.head t j hw.sorted]
  exact isChain_head s.heap j _ _ hsplit

theorem isChain_cons_inv (h : Heap K V) (i u b : Nat) (l : List Nat)
    (hc : IsChain h i u (b :: l)) :
    forwardAt h u i = some b ∧ IsChain h i b l := by
  obtain ⟨⟨h1, hl⟩, hend⟩ := hc
  rw [List.getLastD_cons] at hend
  exact ⟨h1, hl, hend⟩

/-- `remove` on an absent key returns `none` and leaves the state
literally unchanged. -/
theorem remove_absent [LinearOrder K] {s : SkipList K V} {sp : List (SEnt K V)}
    (hw : Wf s sp) (t : K) (hnot : ∀ a ∈ sp, a.key ≠ t) :
    s.remove t = (none, s) := by
  cases hD : sp.dropWhile (belowB t) with
  | nil =>
    simp only [SkipList.remove, hw.scanAll_eq t, hw.pred_succ t, hD, ids,
      List.map_nil, List.head?_nil]
  | cons e rest =>
    have hesp : e ∈ sp :=
      (List.dropWhile_sublist (belowB t)).subset (hD ▸ List.mem_cons_self e rest)
    have hde := hw.data_all e hesp
    have hkeq : keyEqB s.heap e.id t = false := by
      simp only [keyEqB, hde]
      simp [hnot e hesp]
    simp only [SkipList.remove, hw.scanAll_eq t, hw.pred_succ t, hD, ids,
      List.map_cons, List.head?_cons, hkeq, Bool.false_eq_true, if_false]

/-- `remove` on a present key returns the stored value; the state is the
unlink loop followed by freeing the node. -/
theorem remove_found [LinearOrder K] {s : SkipList K V} {sp : List (SEnt K V)}
    (hw : Wf s sp) (t : K) (e : SEnt K V) (rest : List (SEnt K V))
    (hD : sp.dropWhile (belowB t) = e :: rest) (hk : e.key = t) :
    s.remove t = (some e.val,
      ⟨s.len - 1, s.head,
        setO (unlink ((List.range MAX_LEVEL).map (updAt sp s.head t)) e.id
          s.heap MAX_LEVEL 0) e.id none⟩) := by
  have hesp : e ∈ sp :=
    (List.dropWhile_sublist (belowB t)).subset (hD ▸ List.mem_cons_self e rest)
  have hde := hw.data_all e hesp
  have hkeq : keyEqB s.heap e.id t = true := by
    simp only [keyEqB, hde]
    simp [hk]
  have hdataun : dataAt (unlink ((List.range MAX_LEVEL).map (updAt sp s.head t)) e.id
      s.heap MAX_LEVEL 0) e.id = some ⟨e.key, e.val⟩ := by
    rw [unlink_dataAt]
    exact hde
  simp only [SkipList.remove, hw.scanAll_eq t, hw.pred_succ t, hD, ids,
    List.map_cons, List.head?_cons, hkeq, if_true, hdataun]
  rfl

/-- The per-level guard of the unlink loop: the update node points at
the removed node exactly on the levels the removed node spans. -/
theorem Wf.remove_guard [LinearOrder K] {s : SkipList K V} {sp : List (SEnt K V)}
    (hw : Wf s sp) (t : K) (e : SEnt K V) (rest : List (SEnt K V))
    (hD : sp.dropWhile (belowB t) = e :: rest) (j : Nat) (hj : j < MAX_LEVEL) :
    (j ≤ e.lvl → forwardAt s.heap (updAt sp s.head t j) j = some e.id) ∧
    (e.lvl < j → forwardAt s.heap (updAt sp s.head t j) j ≠ some e.id) := by
  have hesp : e ∈ sp :=
    (List.dropWhile_sublist (belowB t)).subset (hD ▸ List.mem_cons_self e rest)
  have hTD := List.takeWhile_append_dropWhile (p := belowB t) (l := sp)
  have hsplitsp : sp = sp.takeWhile (belowB t) ++ e :: rest := by
    conv_lhs => rw [← hTD, hD]
  have heidnot : e.id ∉ ids (sp.takeWhile (belowB t)) ++ ids rest := by
    have hnd := hw.ids_nodup
    rw [hsplitsp, ids_append, ids_cons] at hnd
    exact (List.nodup_cons.mp (List.nodup_middle.mp hnd)).1
  have hsucc := hw.upd_succ t j hj
  rw [hD] at hsucc
  constructor
  · intro hjL
    rw [hsucc]
    have : atLevel j (e :: rest) = e :: atLevel j rest := by
      unfold atLevel
      rw [List.filter_cons]
      simp [hjL]
    rw [this, ids_cons]
    rfl
  · intro hjL
    rw [hsucc]
    have : atLevel j (e :: rest) = atLevel j rest := by
      unfold atLevel
      rw [List.filter_cons]
      simp [Nat.not_le.mpr hjL]
    rw [this]
    cases hh : (ids (atLevel j rest)).head? with
    | none => simp
    | some w =>
      intro hc
      rw [Option.some.injEq] at hc
      have hwmem : w ∈ ids (atLevel j rest) := by
        cases hl : ids (atLevel j rest) with
        | nil =>
          rw [hl] at hh
          simp at hh
        | cons x xs =>
          rw [hl] at hh
          simp only [List.head?_cons, Option.some.injEq] at hh
          rw [← hh]
          simp
      obtain ⟨b, hb, hbid⟩ := List.mem_map.mp hwmem
      refine heidnot ?_
      rw [← hc, ← hbid]
      exact List.mem_append_right _
        (List.mem_map_of_mem SEnt.id ((atLevel_sublist j rest).subset hb))

theorem fwdLenAt_free_ne (h : Heap K V) (u w : Nat) (hw : w ≠ u) :
    fwdLenAt (setO h u none) w = fwdLenAt h w := by
  unfold fwdLenAt
  rw [getO_free_ne h u w hw]

/-- Unlinking and freeing a found node keeps the structure well formed,
with that node's spine entry removed. -/
theorem remove_found_wf [LinearOrder K] {s : SkipList K V} {sp : List (SEnt K V)}
    (hw : Wf s sp) (t : K) (e : SEnt K V) (rest : List (SEnt K V))
    (hD : sp.dropWhile (belowB t) = e :: rest) (hk : e.key = t) :
    Wf (⟨s.len - 1, s.head,
        setO (unlink ((List.range MAX_LEVEL).map (updAt sp s.head t)) e.id
          s.heap MAX_LEVEL 0) e.id none⟩ : SkipList K V)
      (sp.takeWhile (belowB t) ++ rest) := by
  have hesp : e ∈ sp :=
    (List.dropWhile_sublist (belowB t)).subset (hD ▸ List.mem_cons_self e rest)
  have hL : e.lvl < MAX_LEVEL := hw.lvl_lt e hesp
  have hTD := List.takeWhile_append_dropWhile (p := belowB t) (l := sp)
  have hsplitsp : sp = sp.takeWhile (belowB t) ++ e :: rest := by
    conv_lhs => rw [← hTD, hD]
  have heidnot : e.id ∉ ids (sp.takeWhile (belowB t)) ++ ids rest := by
    have hnd := hw.ids_nodup
    rw [hsplitsp, ids_append, ids_cons] at hnd
    exact (List.nodup_cons.mp (List.nodup_middle.mp hnd)).1
  have hupsget : ∀ j, j < MAX_LEVEL →
      ((List.range MAX_LEVEL).map (updAt sp s.head t)).getD j 0 = updAt sp s.head t j :=
    fun j hj => getD_range_map (updAt sp s.head t) MAX_LEVEL j hj
  have hnott : ¬ e.key < t := by
    rw [hk]
    exact lt_irrefl t
  obtain ⟨U1, U2⟩ := unlink_spec ((List.range MAX_LEVEL).map (updAt sp s.head t))
    e.id MAX_LEVEL 0 s.heap e.lvl
    (by
      intro j hj0 hjc
      rw [hupsget j (by omega)]
      exact (hw.updAt_ne_of_ge t j e hesp hnott).symm)
    (by
      intro j hj0 hjc hjL
      rw [hupsget j (by omega)]
      exact (hw.remove_guard t e rest hD j (by omega)).1 hjL)
    (by
      intro j hj0 hjc hjL
      rw [hupsget j (by omega)]
      exact (hw.remove_guard t e rest hD j (by omega)).2 hjL)
    (by
      intro j hj0 hjc hjL
      rw [hupsget j (by omega)]
      exact hw.updAt_fwdLen t j (by omega))
  have hlen3 : (setO (unlink ((List.range MAX_LEVEL).map (updAt sp s.head t)) e.id
      s.heap MAX_LEVEL 0) e.id none).length = s.heap.length := by
    rw [length_setO, unlink_length]
  have hdfr : ∀ w, w ≠ e.id →
      dataAt (setO (unlink ((List.range MAX_LEVEL).map (updAt sp s.head t)) e.id
        s.heap MAX_LEVEL 0) e.id none) w = dataAt s.heap w := by
    intro w hwne
    rw [dataAt_free_ne _ _ _ hwne, unlink_dataAt]
  have hffr : ∀ w, w ≠ e.id →
      fwdLenAt (setO (unlink ((List.range MAX_LEVEL).map (updAt sp s.head t)) e.id
        s.heap MAX_LEVEL 0) e.id none) w = fwdLenAt s.heap w := by
    intro w hwne
    rw [fwdLenAt_free_ne _ _ _ hwne, unlink_fwdLenAt]
  have FU1 : ∀ w i, w ≠ e.id → (e.lvl < i ∨ (i < MAX_LEVEL ∧ w ≠ updAt sp s.head t i)) →
      forwardAt (setO (unlink ((List.range MAX_LEVEL).map (updAt sp s.head t)) e.id
        s.heap MAX_LEVEL 0) e.id none) w i = forwardAt s.heap w i := by
    intro w i hwne hcond
    rw [forwardAt_free_ne _ _ _ _ hwne]
    rcases hcond with h1 | ⟨h2, h3⟩
    · exact U1 w i (Or.inr (Or.inl h1))
    · exact U1 w i (Or.inr (Or.inr (by rw [hupsget i h2]; exact h3)))
  have FU2 : ∀ j, j ≤ e.lvl →
      forwardAt (setO (unlink ((List.range MAX_LEVEL).map (updAt sp s.head t)) e.id
        s.heap MAX_LEVEL 0) e.id none) (updAt sp s.head t j) j =
        forwardAt s.heap e.id j := by
    intro j hj
    rw [forwardAt_free_ne _ _ _ _ ((hw.updAt_ne_of_ge t j e hesp hnott).symm)]
    have := U2 j (Nat.zero_le j) (by omega) hj
    rw [hupsget j (by omega)] at this
    exact this
  have hTWmem : ∀ a ∈ sp.takeWhile (belowB t), a ∈ sp :=
    fun a ha => (List.takeWhile_sublist (belowB t)).subset ha
  have hrestmem : ∀ a ∈ rest, a ∈ sp := by
    intro a ha
    rw [hsplitsp]
    exact List.mem_append_right _ (List.mem_cons_of_mem e ha)
  have hrest_gt : ∀ a ∈ rest, t < a.key := by
    intro a ha
    have hpw := hw.sorted
    rw [hsplitsp, List.pairwise_append] at hpw
    have := (List.pairwise_cons.mp hpw.2.1).1 a ha
    rw [hk] at this
    exact this
  have hane : ∀ a : SEnt K V, a ∈ sp.takeWhile (belowB t) ∨ a ∈ rest → a.id ≠ e.id := by
    intro a ha hc
    refine heidnot ?_
    rcases ha with h1 | h2
    · exact hc ▸ List.mem_append_left _ (List.mem_map_of_mem SEnt.id h1)
    · exact hc ▸ List.mem_append_right _ (List.mem_map_of_mem SEnt.id h2)
  refine ⟨?_, ?_, ?_, ?_, ?_, ?_, ?_, ?_, ?_⟩
  · show s.head < _
    rw [hlen3]
    exact hw.head_lt
  · refine node_shape _ s.head none MAX_LEVEL ?_ ?_ (by decide)
    · rw [hdfr s.head (hw.head_ne_id e hesp)]
      exact hw.head_dataAt
    · rw [hffr s.head (hw.head_ne_id e hesp)]
      exact hw.head_fwdLen
  · intro a ha
    rcases List.mem_append.mp ha with h1 | h2
    · refine node_shape _ a.id (some ⟨a.key, a.val⟩) (a.lvl + 1) ?_ ?_ (by omega)
      · rw [hdfr a.id (hane a (Or.inl h1))]
        exact hw.data_all a (hTWmem a h1)
      · rw [hffr a.id (hane a (Or.inl h1))]
        exact hw.node_fwdLen a (hTWmem a h1)
    · refine node_shape _ a.id (some ⟨a.key, a.val⟩) (a.lvl + 1) ?_ ?_ (by omega)
      · rw [hdfr a.id (hane a (Or.inr h2))]
        exact hw.data_all a (hrestmem a h2)
      · rw [hffr a.id (hane a (Or.inr h2))]
        exact hw.node_fwdLen a (hrestmem a h2)
  · intro a ha
    rcases List.mem_append.mp ha with h1 | h2
    · exact hw.lvl_lt a (hTWmem a h1)
    · exact hw.lvl_lt a (hrestmem a h2)
  · intro a ha
    show a.id < _
    rw [hlen3]
    rcases List.mem_append.mp ha with h1 | h2
    · exact hw.id_lt a (hTWmem a h1)
    · exact hw.id_lt a (hrestmem a h2)
  · have hnd := hw.nodup
    rw [hsplitsp, ids_append, ids_cons] at hnd
    rw [ids_append]
    have hsub : List.Sublist
        (s.head :: (ids (sp.takeWhile (belowB t)) ++ ids rest))
        (s.head :: (ids (sp.takeWhile (belowB t)) ++ e.id :: ids rest)) := by
      refine List.Sublist.cons₂ s.head ?_
      refine List.Sublist.append_left ?_ _
      exact List.sublist_cons_self e.id (ids rest)
    exact List.Nodup.sublist hsub hnd
  · have hpw := hw.sorted
    rw [hsplitsp] at hpw
    refine List.Pairwise.sublist ?_ hpw
    refine List.Sublist.append_left ?_ _
    exact List.sublist_cons_self e rest
  · intro i hi
    have hold := hw.links i hi
    have hupdi := updAt_TW sp s.head t i hw.sorted
    have hatL : ids (atLevel i sp) = ids (atLevel i (sp.takeWhile (belowB t))) ++
        ids (atLevel i (e :: rest)) := by
      conv_lhs => rw [hsplitsp]
      rw [atLevel_append, ids_append]
    rw [hatL] at hold
    show IsChain _ i s.head (ids (atLevel i (sp.takeWhile (belowB t) ++ rest)))
    rw [atLevel_append, ids_append]
    by_cases hil : i ≤ e.lvl
    · have hcons : atLevel i (e :: rest) = e :: atLevel i rest := by
        unfold atLevel
        rw [List.filter_cons]
        simp [hil]
      rw [hcons, ids_cons] at hold
      obtain ⟨holdL, holdC⟩ := (isChain_append s.heap i s.head _ _).mp hold
      rw [← hupdi] at holdC
      obtain ⟨hfwde, holdC2⟩ := isChain_cons_inv s.heap i _ e.id _ holdC
      rw [isChain_append]
      constructor
      · refine links_of_init_eq s.heap _ i _ s.head ?_ ?_ holdL
        · have hsub : List.Sublist (ids (atLevel i (sp.takeWhile (belowB t)))) (ids sp) := by
            refine List.Sublist.map SEnt.id ?_
            exact List.Sublist.trans (atLevel_sublist i _) (List.takeWhile_sublist _)
          exact List.Nodup.sublist (List.Sublist.cons₂ s.head hsub) hw.nodup
        · intro a ha hane2
          rw [← hupdi] at hane2
          have haei : a ≠ e.id := by
            rcases List.mem_cons.mp ha with h1 | h2
            · rw [h1]
              exact hw.head_ne_id e hesp
            · obtain ⟨b, hb, hbid⟩ := List.mem_map.mp h2
              rw [← hbid]
              exact hane b (Or.inl ((atLevel_sublist i _).subset hb))
          exact FU1 a i haei (Or.inr ⟨hi, hane2⟩)
      · rw [← hupdi]
        refine isChain_retarget s.heap _ i e.id (updAt sp s.head t i) _
          (FU2 i hil) ?_ holdC2
        intro w hwmem
        obtain ⟨b, hb, hbid⟩ := List.mem_map.mp hwmem
        have hbrest : b ∈ rest := (atLevel_sublist i rest).subset hb
        refine FU1 w i (by rw [← hbid]; exact hane b (Or.inr hbrest)) ?_
        right
        refine ⟨hi, ?_⟩
        rw [← hbid]
        exact hw.updAt_ne_of_ge t i b (hrestmem b hbrest)
          (not_lt.mpr (le_of_lt (hrest_gt b hbrest)))
    · have hcons : atLevel i (e :: rest) = atLevel i rest := by
        unfold atLevel
        rw [List.filter_cons]
        simp [hil]
      rw [hcons] at hold
      refine isChain_congr s.heap _ i s.head _ ?_ hold
      intro a ha
      have haei : a ≠ e.id := by
        rcases List.mem_cons.mp ha with h1 | h2
        · rw [h1]
          exact hw.head_ne_id e hesp
        · rcases List.mem_append.mp h2 with h3 | h4
          · obtain ⟨b, hb, hbid⟩ := List.mem_map.mp h3
            rw [← hbid]
            exact hane b (Or.inl ((atLevel_sublist i _).subset hb))
          · obtain ⟨b, hb, hbid⟩ := List.mem_map.mp h4
            rw [← hbid]
            exact hane b (Or.inr ((atLevel_sublist i _).subset hb))
      exact FU1 a i haei (Or.inl (by omega))
  · show s.len - 1 = _
    have hlensp : sp.length = (sp.takeWhile (belowB t)).length + (1 + rest.length) := by
      conv_lhs => rw [hsplitsp]
      simp [Nat.add_comm]
    rw [hw.len_eq, hlensp, List.length_append]
    omega

/-! ### Effect of the relink loop of `pop_front` -/

theorem popRelink_dataAt (headIdx del : Nat) :
    ∀ (c i0 : Nat) (h : Heap K V) (w : Nat),
    dataAt (popRelink headIdx del h c i0) w = dataAt h w := by
  intro c
  induction c with
  | zero => intro i0 h w; rfl
  | succ c ih =>
    intro i0 h w
    unfold popRelink
    rw [ih, dataAt_setForward]

theorem popRelink_fwdLenAt (headIdx del : Nat) :
    ∀ (c i0 : Nat) (h : Heap K V) (w : Nat),
    fwdLenAt (popRelink headIdx del h c i0) w = fwdLenAt h w := by
  intro c
  induction c with
  | zero => intro i0 h w; rfl
  | succ c ih =>
    intro i0 h w
    unfold popRelink
    rw [ih, fwdLenAt_setForward]

theorem popRelink_length (headIdx del : Nat) :
    ∀ (c i0 : Nat) (h : Heap K V),
    (popRelink headIdx del h c i0).length = h.length := by
  intro c
  induction c with
  | zero => intro i0 h; rfl
  | succ c ih =>
    intro i0 h
    unfold popRelink
    rw [ih, length_setForward]

/-- The relink loop copies the removed node's pointers into the head
sentinel on the processed levels and changes nothing else. -/
theorem popRelink_spec (headIdx del : Nat) (hne : del ≠ headIdx) :
    ∀ (c i0 : Nat) (h : Heap K V),
    (∀ j, i0 ≤ j → j < i0 + c → j < fwdLenAt h headIdx) →
    (∀ w i, (w ≠ headIdx ∨ i < i0 ∨ i0 + c ≤ i) →
      forwardAt (popRelink headIdx del h c i0) w i = forwardAt h w i) ∧
    (∀ j, i0 ≤ j → j < i0 + c →
      forwardAt (popRelink headIdx del h c i0) headIdx j = forwardAt h del j) := by
  intro c
  induction c with
  | zero =>
    intro i0 h _
    exact ⟨fun w i _ => rfl, fun j hj1 hj2 => absurd hj2 (by omega)⟩
  | succ c ih =>
    intro i0 h hbnd
    obtain ⟨ndh, hndh⟩ := getO_of_pos h headIdx
      (lt_of_le_of_lt (Nat.zero_le i0) (hbnd i0 (le_refl i0) (by omega)))
    have hlh : i0 < ndh.forward.length := by
      have hx := hbnd i0 (le_refl i0) (by omega)
      simp only [fwdLenAt, hndh] at hx
      exact hx
    have hstep : popRelink headIdx del h (c + 1) i0 =
        popRelink headIdx del (setForward h headIdx i0 (forwardAt h del i0)) c (i0 + 1) := by
      rw [popRelink]
    have hfr : ∀ w i, w ≠ headIdx ∨ i ≠ i0 →
        forwardAt (setForward h headIdx i0 (forwardAt h del i0)) w i = forwardAt h w i := by
      intro w i hcond
      rcases hcond with hwne | hi
      · exact forwardAt_setForward_ne h _ w i0 i _ (Or.inl hwne)
      · exact forwardAt_setForward_ne h _ w i0 i _ (Or.inr hi)
    have hih := ih (i0 + 1) (setForward h headIdx i0 (forwardAt h del i0))
      (fun j hj1 hj2 => by
        rw [fwdLenAt_setForward]
        exact hbnd j (by omega) (by omega))
    obtain ⟨ihframe, ihupd⟩ := hih
    constructor
    · intro w i hcond
      rw [hstep]
      rcases hcond with hwne | hlt | hge
      · rw [ihframe w i (Or.inl hwne)]
        exact hfr w i (Or.inl hwne)
      · rw [ihframe w i (Or.inr (Or.inl (by omega)))]
        exact hfr w i (Or.inr (by omega))
      · rw [ihframe w i (Or.inr (Or.inr (by omega)))]
        exact hfr w i (Or.inr (by omega))
    · intro j hj1 hj2
      rw [hstep]
      by_cases hj : j = i0
      · subst hj
        rw [ihframe headIdx j (Or.inr (Or.inl (by omega)))]
        exact forwardAt_setForward_self h headIdx j _ ndh hndh hlh
      · rw [ihupd j (by omega) (by omega)]
        exact hfr del j (Or.inl hne)

/-- `pop_front` on an empty list does nothing. -/
theorem pop_front_empty [LinearOrder K] {s : SkipList K V}
    (hw : Wf s ([] : List (SEnt K V))) : s.pop_front = (none, s) := by
  have hch := hw.links 0 (by decide)
  rw [atLevel_zero] at hch
  have hfw : forwardAt s.heap s.head 0 = none := hch.2
  simp only [SkipList.pop_front, hfw]

/-- `pop_front` on a nonempty list removes exactly the first entry. -/
theorem pop_front_found [LinearOrder K] {s : SkipList K V} {sp : List (SEnt K V)}
    (hw : Wf s sp) (e : SEnt K V) (rest : List (SEnt K V)) (hsp : sp = e :: rest) :
    s.pop_front = (some (e.key, e.val),
      ⟨s.len - 1, s.head,
        setO (popRelink s.head e.id s.heap (e.lvl + 1) 0) e.id none⟩) := by
  have hesp : e ∈ sp := by
    rw [hsp]
    simp
  have hch := hw.links 0 (by decide)
  rw [atLevel_zero, hsp, ids_cons] at hch
  have hfw : forwardAt s.heap s.head 0 = some e.id := hch.1.1
  have hflv : fwdLenAt s.heap e.id = e.lvl + 1 := hw.node_fwdLen e hesp
  have hdat : dataAt (popRelink s.head e.id s.heap (e.lvl + 1) 0) e.id =
      some ⟨e.key, e.val⟩ := by
    rw [popRelink_dataAt]
    exact hw.data_all e hesp
  simp only [SkipList.pop_front, hfw, hflv, Nat.add_sub_cancel, hdat]
  rfl

/-- `pop_front` keeps the structure well formed with the spine's tail. -/
theorem pop_front_found_wf [LinearOrder K] {s : SkipList K V} {sp : List (SEnt K V)}
    (hw : Wf s sp) (e : SEnt K V) (rest : List (SEnt K V)) (hsp : sp = e :: rest) :
    Wf (⟨s.len - 1, s.head,
        setO (popRelink s.head e.id s.heap (e.lvl + 1) 0) e.id none⟩ : SkipList K V)
      rest := by
  have hesp : e ∈ sp := by
    rw [hsp]
    simp
  have hL : e.lvl < MAX_LEVEL := hw.lvl_lt e hesp
  have hnehd : e.id ≠ s.head := fun hc => hw.head_ne_id e hesp hc.symm
  have heidnot : e.id ∉ ids rest := by
    have hnd := hw.ids_nodup
    rw [hsp, ids_cons] at hnd
    exact (List.nodup_cons.mp hnd).1
  have hrestmem : ∀ a ∈ rest, a ∈ sp := by
    intro a ha
    rw [hsp]
    exact List.mem_cons_of_mem e ha
  have hane : ∀ a ∈ rest, a.id ≠ e.id := by
    intro a ha hc
    exact heidnot (hc ▸ List.mem_map_of_mem SEnt.id ha)
  obtain ⟨R1, R2⟩ := popRelink_spec s.head e.id hnehd (e.lvl + 1) 0 s.heap
    (by
      intro j hj0 hjc
      rw [hw.head_fwdLen]
      omega)
  have hlen3 : (setO (popRelink s.head e.id s.heap (e.lvl + 1) 0) e.id none).length =
      s.heap.length := by
    rw [length_setO, popRelink_length]
  have hdfr : ∀ w, w ≠ e.id →
      dataAt (setO (popRelink s.head e.id s.heap (e.lvl + 1) 0) e.id none) w =
        dataAt s.heap w := by
    intro w hwne
    rw [dataAt_free_ne _ _ _ hwne, popRelink_dataAt]
  have hffr : ∀ w, w ≠ e.id →
      fwdLenAt (setO (popRelink s.head e.id s.heap (e.lvl + 1) 0) e.id none) w =
        fwdLenAt s.heap w := by
    intro w hwne
    rw [fwdLenAt_free_ne _ _ _ hwne, popRelink_fwdLenAt]
  have FR1 : ∀ w i, w ≠ e.id → (w ≠ s.head ∨ e.lvl + 1 ≤ i) →
      forwardAt (setO (popRelink s.head e.id s.heap (e.lvl + 1) 0) e.id none) w i =
        forwardAt s.heap w i := by
    intro w i hwne hcond
    rw [forwardAt_free_ne _ _ _ _ hwne]
    rcases hcond with h1 | h2
    · exact R1 w i (Or.inl h1)
    · exact R1 w i (Or.inr (Or.inr (by omega)))
  have FR2 : ∀ j, j ≤ e.lvl →
      forwardAt (setO (popRelink s.head e.id s.heap (e.lvl + 1) 0) e.id none) s.head j =
        forwardAt s.heap e.id j := by
    intro j hj
    rw [forwardAt_free_ne _ _ _ _ hnehd.symm]
    exact R2 j (Nat.zero_le j) (by omega)
  refine ⟨?_, ?_, ?_, ?_, ?_, ?_, ?_, ?_, ?_⟩
  · show s.head < _
    rw [hlen3]
    exact hw.head_lt
  · refine node_shape _ s.head none MAX_LEVEL ?_ ?_ (by decide)
    · rw [hdfr s.head hnehd.symm]
      exact hw.head_dataAt
    · rw [hffr s.head hnehd.symm]
      exact hw.head_fwdLen
  · intro a ha
    refine node_shape _ a.id (some ⟨a.key, a.val⟩) (a.lvl + 1) ?_ ?_ (by omega)
    · rw [hdfr a.id (hane a ha)]
      exact hw.data_all a (hrestmem a ha)
    · rw [hffr a.id (hane a ha)]
      exact hw.node_fwdLen a (hrestmem a ha)
  · intro a ha
    exact hw.lvl_lt a (hrestmem a ha)
  · intro a ha
    show a.id < _
    rw [hlen3]
    exact hw.id_lt a (hrestmem a ha)
  · have hnd := hw.nodup
    rw [hsp, ids_cons] at hnd
    refine List.Nodup.sublist ?_ hnd
    exact List.Sublist.cons₂ s.head (List.sublist_cons_self e.id (ids rest))
  · have hpw := hw.sorted
    rw [hsp] at hpw
    exact (List.pairwise_cons.mp hpw).2
  · intro i hi
    have hold := hw.links i hi
    rw [hsp] at hold
    show IsChain _ i s.head (ids (atLevel i rest))
    by_cases hil : i ≤ e.lvl
    · have hcons : atLevel i (e :: rest) = e :: atLevel i rest := by
        unfold atLevel
        rw [List.filter_cons]
        simp [hil]
      rw [hcons, ids_cons] at hold
      obtain ⟨hfwde, holdC⟩ := isChain_cons_inv s.heap i s.head e.id _ hold
      refine isChain_retarget s.heap _ i e.id s.head _ (FR2 i hil) ?_ holdC
      intro w hwmem
      obtain ⟨b, hb, hbid⟩ := List.mem_map.mp hwmem
      have hbrest : b ∈ rest := (atLevel_sublist i rest).subset hb
      refine FR1 w i (by rw [← hbid]; exact hane b hbrest) ?_
      left
      rw [← hbid]
      exact fun hc => hw.head_ne_id b (hrestmem b hbrest) hc.symm
    · have hcons : atLevel i (e :: rest) = atLevel i rest := by
        unfold atLevel
        rw [List.filter_cons]
        simp [hil]
      rw [hcons] at hold
      refine isChain_congr s.heap _ i s.head _ ?_ hold
      intro a ha
      have haei : a ≠ e.id := by
        rcases List.mem_cons.mp ha with h1 | h2
        · rw [h1]
          exact hnehd.symm
        · obtain ⟨b, hb, hbid⟩ := List.mem_map.mp h2
          rw [← hbid]
          exact hane b ((atLevel_sublist i rest).subset hb)
      exact FR1 a i haei (Or.inr (by omega))
  · show s.len - 1 = _
    rw [hw.len_eq, hsp]
    simp

/-! ### The abstract model operations -/

/-- Model insert into a sorted association list. -/
def mInsert [LinearOrder K] (m : List (K × V)) (t : K) (v : V) : List (K × V) :=
  m.takeWhile (fun p => decide (p.1 < t)) ++ (t, v) ::
    (match m.dropWhile (fun p => decide (p.1 < t)) with
     | p :: post => if p.1 = t then post else p :: post
     | [] => [])

/-- Model remove from a sorted association list. -/
def mRemove [LinearOrder K] (m : List (K × V)) (t : K) : List (K × V) :=
  match m.dropWhile (fun p => decide (p.1 < t)) with
  | p :: post =>
    if p.1 = t then m.takeWhile (fun p => decide (p.1 < t)) ++ post else m
  | [] => m

theorem entriesSp_takeWhile [LinearOrder K] (sp : List (SEnt K V)) (t : K) :
    entriesSp (sp.takeWhile (belowB t)) =
      (entriesSp sp).takeWhile (fun p => decide (p.1 < t)) := by
  unfold entriesSp
  induction sp with
  | nil => rfl
  | cons e l ih =>
    by_cases hk : e.key < t
    · simp [List.takeWhile_cons, belowB, hk, ih]
    · simp [List.takeWhile_cons, belowB, hk]

theorem entriesSp_dropWhile [LinearOrder K] (sp : List (SEnt K V)) (t : K) :
    entriesSp (sp.dropWhile (belowB t)) =
      (entriesSp sp).dropWhile (fun p => decide (p.1 < t)) := by
  unfold entriesSp
  induction sp with
  | nil => rfl
  | cons e l ih =>
    by_cases hk : e.key < t
    · simp [List.dropWhile_cons, belowB, hk, ih]
    · simp [List.dropWhile_cons, belowB, hk]

theorem entriesSp_append (l₁ l₂ : List (SEnt K V)) :
    entriesSp (l₁ ++ l₂) = entriesSp l₁ ++ entriesSp l₂ := by
  simp [entriesSp]

/-- The model lookup, by the position of the target in the sorted order. -/
theorem mFind_split [LinearOrder K] (sp : List (SEnt K V)) (t : K)
    (hsorted : sp.Pairwise (fun a b => a.key < b.key)) :
    mFind (entriesSp sp) t =
      (match sp.dropWhile (belowB t) with
       | e :: _ => if e.key = t then some e.val else none
       | [] => none) := by
  have hTD := List.takeWhile_append_dropWhile (p := belowB t) (l := sp)
  have hfindTW : (entriesSp (sp.takeWhile (belowB t))).find?
      (fun p => decide (p.1 = t)) = none := by
    rw [List.find?_eq_none]
    intro x hx
    obtain ⟨a, haTW, hax⟩ := List.mem_map.mp hx
    have hkey := mem_takeWhile_below t sp a haTW
    rw [← hax]
    simp only [decide_eq_true_eq]
    exact fun hc => absurd (hc ▸ hkey) (lt_irrefl t)
  cases hD : sp.dropWhile (belowB t) with
  | nil =>
    have hTWsp : sp.takeWhile (belowB t) = sp := by
      conv_rhs => rw [← hTD, hD, List.append_nil]
    rw [← hTWsp, mFind, hfindTW]
    rfl
  | cons e rest =>
    have hsplitsp : sp = sp.takeWhile (belowB t) ++ e :: rest := by
      conv_lhs => rw [← hTD, hD]
    have hmodel : entriesSp sp =
        entriesSp (sp.takeWhile (belowB t)) ++ (e.key, e.val) :: entriesSp rest := by
      conv_lhs => rw [hsplitsp]
      simp [entriesSp]
    have hnb : ¬ e.key < t := by
      simpa [belowB] using head?_dropWhile_false (belowB t) sp e (by rw [hD]; rfl)
    rw [mFind, hmodel, List.find?_append, hfindTW, Option.none_or, List.find?_cons]
    by_cases hk : e.key = t
    · have : (decide (((e.key, e.val) : K × V).1 = t)) = true := by simp [hk]
      rw [this]
      simp [hk]
    · have hke : (decide (((e.key, e.val) : K × V).1 = t)) = false := by simp [hk]
      rw [hke]
      have hgt : t < e.key := lt_of_le_of_ne (not_lt.mp hnb) (fun hh => hk hh.symm)
      have hfrest : (entriesSp rest).find? (fun p => decide (p.1 = t)) = none := by
        rw [List.find?_eq_none]
        intro x hx
        obtain ⟨a, ha, hax⟩ := List.mem_map.mp hx
        have hpw := hsorted
        rw [hsplitsp, List.pairwise_append] at hpw
        have hlt := (List.pairwise_cons.mp hpw.2.1).1 a ha
        rw [← hax]
        simp only [decide_eq_true_eq]
        intro hc
        have hta : t < a.key := lt_trans hgt hlt
        rw [hc] at hta
        exact lt_irrefl t hta
      simp [hfrest, hk]

/-- The model lookup misses exactly when no spine key equals the target. -/
theorem mFind_none_iff [LinearOrder K] (sp : List (SEnt K V)) (t : K) :
    mFind (entriesSp sp) t = none ↔ ∀ a ∈ sp, a.key ≠ t := by
  have hstep : mFind (entriesSp sp) t = none ↔
      (entriesSp sp).find? (fun p => decide (p.1 = t)) = none := by
    unfold mFind
    cases hf : (entriesSp sp).find? (fun p => decide (p.1 = t)) with
    | none => simp
    | some p => simp
  rw [hstep, List.find?_eq_none]
  constructor
  · intro hnone a ha hk
    exact hnone (a.key, a.val) (List.mem_map_of_mem _ ha) (by simp [hk])
  · intro hnot x hx
    obtain ⟨a, ha, hax⟩ := List.mem_map.mp hx
    rw [← hax]
    simp only [decide_eq_true_eq]
    exact hnot a ha

/-! ### The traversals read off the spine -/

theorem chainList_eq (h : Heap K V) :
    ∀ (l : List Nat) (u fuel : Nat), IsChain h 0 u l → l.length ≤ fuel →
    chainList h fuel (forwardAt h u 0) = l := by
  intro l
  induction l with
  | nil =>
    intro u fuel hc _
    have hfw : forwardAt h u 0 = none := hc.2
    rw [hfw]
    cases fuel with
    | zero => rfl
    | succ f => rfl
  | cons v l ih =>
    intro u fuel hc hfuel
    obtain ⟨hfw, hrest⟩ := isChain_cons_inv h 0 u v l hc
    rw [hfw]
    cases fuel with
    | zero => exact absurd hfuel (by simp)
    | succ f =>
      rw [chainList, ih v f hrest (by simpa using Nat.le_of_succ_le_succ hfuel)]

theorem Wf.chainIds_eq [LinearOrder K] {s : SkipList K V} {sp : List (SEnt K V)}
    (hw : Wf s sp) : s.chainIds = ids sp := by
  have hch := hw.links 0 (by decide)
  rw [atLevel_zero] at hch
  unfold SkipList.chainIds
  refine chainList_eq s.heap (ids sp) s.head s.heap.length hch ?_
  have h1 : (ids sp).length = sp.length := by simp [ids]
  have := hw.sp_lt_heap
  omega

theorem Wf.iterListO_eq [LinearOrder K] {s : SkipList K V} {sp : List (SEnt K V)}
    (hw : Wf s sp) : s.iterListO = (entriesSp sp).map some := by
  unfold SkipList.iterListO
  have hcl : chainList s.heap s.heap.length (forwardAt s.heap s.head 0) = ids sp :=
    hw.chainIds_eq
  rw [hcl]
  unfold ids entriesSp
  rw [List.map_map, List.map_map]
  refine List.map_congr_left ?_
  intro e he
  simp only [Function.comp_apply]
  rw [hw.data_all e he]
  rfl

theorem reduceOption_map_some {α : Type} (l : List α) :
    (l.map some).reduceOption = l := by
  induction l with
  | nil => rfl
  | cons a l ih => simp [List.reduceOption_cons_of_some, ih]

theorem Wf.iterList_eq [LinearOrder K] {s : SkipList K V} {sp : List (SEnt K V)}
    (hw : Wf s sp) : s.iterList = entriesSp sp := by
  unfold SkipList.iterList
  rw [hw.iterListO_eq]
  exact reduceOption_map_some _

/-! ### The operations refine the model -/

theorem nokey_cases [LinearOrder K] (sp : List (SEnt K V)) (t : K)
    (hsorted : sp.Pairwise (fun a b => a.key < b.key))
    (hcase : sp.dropWhile (belowB t) = [] ∨
      ∃ e rest, sp.dropWhile (belowB t) = e :: rest ∧ e.key ≠ t) :
    ∀ a ∈ sp, a.key ≠ t := by
  intro a ha
  have hTD := List.takeWhile_append_dropWhile (p := belowB t) (l := sp)
  have ha2 : a ∈ sp.takeWhile (belowB t) ++ sp.dropWhile (belowB t) := by
    rw [hTD]
    exact ha
  rcases List.mem_append.mp ha2 with h1 | h2
  · have := mem_takeWhile_below t sp a h1
    exact fun hc => absurd (hc ▸ this) (lt_irrefl t)
  · rcases hcase with hnil | ⟨e, rest, hD, hke⟩
    · rw [hnil] at h2
      simp at h2
    · rw [hD] at h2
      have hnb : ¬ e.key < t := by
        simpa [belowB] using head?_dropWhile_false (belowB t) sp e (by rw [hD]; rfl)
      rcases List.mem_cons.mp h2 with hae | har
      · rw [hae]
        exact hke
      · have hpw : (e :: rest).Pairwise (fun a b => a.key < b.key) := by
          have := List.Pairwise.sublist (List.dropWhile_sublist (belowB t)) hsorted
          rw [hD] at this
          exact this
        have hlt := (List.pairwise_cons.mp hpw).1 a har
        intro hc
        rw [hc] at hlt
        exact hnb hlt

theorem insert_step [LinearOrder K] {s : SkipList K V} {sp : List (SEnt K V)}
    (hw : Wf s sp) (t : K) (v : V) (r : ℚ) :
    ∃ sp2, Wf (s.insert t v r).2 sp2 ∧
      entriesSp sp2 = mInsert (entriesSp sp) t v ∧
      (s.insert t v r).1 = mFind (entriesSp sp) t ∧
      (s.insert t v r).2.head = s.head ∧
      (mFind (entriesSp sp) t = none → (s.insert t v r).2.len = s.len + 1) ∧
      (mFind (entriesSp sp) t ≠ none → (s.insert t v r).2.len = s.len) := by
  have hdropm := entriesSp_dropWhile sp t
  have htakem := entriesSp_takeWhile sp t
  have hsplit := mFind_split sp t hw.sorted
  cases hD : sp.dropWhile (belowB t) with
  | nil =>
    have hnot : ∀ a ∈ sp, a.key ≠ t := nokey_cases sp t hw.sorted (Or.inl hD)
    have hfind : mFind (entriesSp sp) t = none := (mFind_none_iff sp t).mpr hnot
    have hpath := insert_goes_fresh hw t v r hnot
    refine ⟨sp.takeWhile (belowB t) ++
      (⟨s.heap.length, t, v, random_level r⟩ : SEnt K V) :: sp.dropWhile (belowB t),
      ?_, ?_, ?_, ?_, ?_, ?_⟩
    · rw [hpath]
      exact insertFresh_wf hw t v r hnot
    · rw [entriesSp_append, hD]
      unfold mInsert
      rw [← hdropm, ← htakem, hD]
      rfl
    · rw [hpath, hfind]
      rfl
    · rw [hpath]
      rfl
    · intro _
      rw [hpath]
      rfl
    · intro hcontra
      exact absurd hfind hcontra
  | cons e rest =>
    by_cases hk : e.key = t
    · have hfind : mFind (entriesSp sp) t = some e.val := by
        rw [hsplit, hD]
        simp [hk]
      have hpath := insert_found hw t v r e rest hD hk
      refine ⟨sp.takeWhile (belowB t) ++
        (⟨e.id, e.key, v, e.lvl⟩ : SEnt K V) :: rest, ?_, ?_, ?_, ?_, ?_, ?_⟩
      · rw [hpath]
        exact insert_found_wf hw t v e rest hD
      · rw [entriesSp_append]
        unfold mInsert
        rw [← hdropm, ← htakem, hD]
        have herest : entriesSp ((⟨e.id, e.key, v, e.lvl⟩ : SEnt K V) :: rest) =
            (e.key, v) :: entriesSp rest := rfl
        have heD : entriesSp (e :: rest) = (e.key, e.val) :: entriesSp rest := rfl
        rw [herest, heD]
        simp [hk]
      · rw [hpath, hfind]
      · rw [hpath]
      · intro hcontra
        rw [hfind] at hcontra
        exact absurd hcontra (by simp)
      · intro _
        rw [hpath]
    · have hnot : ∀ a ∈ sp, a.key ≠ t :=
        nokey_cases sp t hw.sorted (Or.inr ⟨e, rest, hD, hk⟩)
      have hfind : mFind (entriesSp sp) t = none := (mFind_none_iff sp t).mpr hnot
      have hpath := insert_goes_fresh hw t v r hnot
      refine ⟨sp.takeWhile (belowB t) ++
        (⟨s.heap.length, t, v, random_level r⟩ : SEnt K V) :: sp.dropWhile (belowB t),
        ?_, ?_, ?_, ?_, ?_, ?_⟩
      · rw [hpath]
        exact insertFresh_wf hw t v r hnot
      · rw [entriesSp_append, hD]
        unfold mInsert
        rw [← hdropm, ← htakem, hD]
        have heD : entriesSp (e :: rest) = (e.key, e.val) :: entriesSp rest := rfl
        rw [heD]
        simp [hk, entriesSp]
      · rw [hpath, hfind]
        rfl
      · rw [hpath]
        rfl
      · intro _
        rw [hpath]
        rfl
      · intro hcontra
        exact absurd hfind hcontra

theorem remove_step [LinearOrder K] {s : SkipList K V} {sp : List (SEnt K V)}
    (hw : Wf s sp) (t : K) :
    ∃ sp2, Wf (s.remove t).2 sp2 ∧
      entriesSp sp2 = mRemove (entriesSp sp) t ∧
      (s.remove t).1 = mFind (entriesSp sp) t ∧
      (s.remove t).2.head = s.head ∧
      (mFind (entriesSp sp) t = none → (s.remove t).2 = s) ∧
      (mFind (entriesSp sp) t ≠ none → (s.remove t).2.len + 1 = s.len) := by
  have hdropm := entriesSp_dropWhile sp t
  have htakem := entriesSp_takeWhile sp t
  have hsplit := mFind_split sp t hw.sorted
  cases hD : sp.dropWhile (belowB t) with
  | nil =>
    have hnot : ∀ a ∈ sp, a.key ≠ t := nokey_cases sp t hw.sorted (Or.inl hD)
    have hfind : mFind (entriesSp sp) t = none := (mFind_none_iff sp t).mpr hnot
    have hpath := remove_absent hw t hnot
    refine ⟨sp, ?_, ?_, ?_, ?_, ?_, ?_⟩
    · rw [hpath]
      exact hw
    · unfold mRemove
      rw [← hdropm, hD]
      rfl
    · rw [hpath, hfind]
    · rw [hpath]
    · intro _
      rw [hpath]
    · intro hcontra
      exact absurd hfind hcontra
  | cons e rest =>
    by_cases hk : e.key = t
    · have hfind : mFind (entriesSp sp) t = some e.val := by
        rw [hsplit, hD]
        simp [hk]
      have hpath := remove_found hw t e rest hD hk
      have hlenpos : 1 ≤ s.len := by
        rw [hw.len_eq]
        have hmem : e ∈ sp :=
          (List.dropWhile_sublist (belowB t)).subset (hD ▸ List.mem_cons_self e rest)
        cases sp with
        | nil => simp at hmem
        | cons a l => simp
      refine ⟨sp.takeWhile (belowB t) ++ rest, ?_, ?_, ?_, ?_, ?_, ?_⟩
      · rw [hpath]
        exact remove_found_wf hw t e rest hD hk
      · rw [entriesSp_append]
        unfold mRemove
        rw [← hdropm, ← htakem, hD]
        have heD : entriesSp (e :: rest) = (e.key, e.val) :: entriesSp rest := rfl
        rw [heD]
        simp [hk]
      · rw [hpath, hfind]
      · rw [hpath]
      · intro hcontra
        rw [hfind] at hcontra
        exact absurd hcontra (by simp)
      · intro _
        rw [hpath]
        show s.len - 1 + 1 = s.len
        omega
    · have hnot : ∀ a ∈ sp, a.key ≠ t :=
        nokey_cases sp t hw.sorted (Or.inr ⟨e, rest, hD, hk⟩)
      have hfind : mFind (entriesSp sp) t = none := (mFind_none_iff sp t).mpr hnot
      have hpath := remove_absent hw t hnot
      refine ⟨sp, ?_, ?_, ?_, ?_, ?_, ?_⟩
      · rw [hpath]
        exact hw
      · unfold mRemove
        rw [← hdropm, ← htakem, hD]
        have heD : entriesSp (e :: rest) = (e.key, e.val) :: entriesSp rest := rfl
        rw [heD]
        simp [hk]
      · rw [hpath, hfind]
      · rw [hpath]
      · intro _
        rw [hpath]
      · intro hcontra
        exact absurd hfind hcontra

theorem pop_step [LinearOrder K] {s : SkipList K V} {sp : List (SEnt K V)}
    (hw : Wf s sp) :
    ∃ sp2, Wf (s.pop_front).2 sp2 ∧
      entriesSp sp2 = (entriesSp sp).tail ∧
      (s.pop_front).1 = (entriesSp sp).head? ∧
      (s.pop_front).2.head = s.head ∧
      (sp = [] → (s.pop_front).2 = s) ∧
      (sp ≠ [] → (s.pop_front).2.len + 1 = s.len) := by
  cases sp with
  | nil =>
    have hpath := pop_front_empty hw
    refine ⟨[], ?_, ?_, ?_, ?_, ?_, ?_⟩
    · rw [hpath]
      exact hw
    · rfl
    · rw [hpath]
      rfl
    · rw [hpath]
    · intro _
      rw [hpath]
    · intro hcontra
      exact absurd rfl hcontra
  | cons e rest =>
    have hpath := pop_front_found hw e rest rfl
    refine ⟨rest, ?_, ?_, ?_, ?_, ?_, ?_⟩
    · rw [hpath]
      exact pop_front_found_wf hw e rest rfl
    · rfl
    · rw [hpath]
      rfl
    · rw [hpath]
    · intro hcontra
      exact absurd hcontra (by simp)
    · intro _
      rw [hpath]
      show s.len - 1 + 1 = s.len
      have : s.len = rest.length + 1 := by
        rw [hw.len_eq]
        rfl
      omega

/-- The empty list is well formed over the empty spine. -/
theorem new_wf [LinearOrder K] : Wf (SkipList.new : SkipList K V) [] := by
  refine ⟨?_, ?_, ?_, ?_, ?_, ?_, ?_, ?_, ?_⟩
  · show 0 < 1
    omega
  · refine ⟨List.replicate MAX_LEVEL none, rfl, ?_⟩
    simp
  · intro a ha
    simp at ha
  · intro a ha
    simp at ha
  · intro a ha
    simp at ha
  · simp [ids]
  · simp
  · intro i _
    refine ⟨trivial, ?_⟩
    show forwardAt [some (Node.headNode : Node K V)] 0 i = none
    simp only [forwardAt, Node.headNode, Node.mkNode]
    show getO (List.replicate (MAX_LEVEL - 1 + 1) none) i = none
    exact getO_replicate_none _ i
  · rfl

theorem clearGo_wf [LinearOrder K] :
    ∀ (sp : List (SEnt K V)) (s : SkipList K V), Wf s sp →
    Wf (clearGo s sp.length) [] ∧ (clearGo s sp.length).head = s.head := by
  intro sp
  induction sp with
  | nil =>
    intro s hw
    exact ⟨hw, rfl⟩
  | cons e rest ih =>
    intro s hw
    have hlen : s.len = rest.length + 1 := by
      rw [hw.len_eq]
      rfl
    have hne : ¬ s.len = 0 := by omega
    have hstep : clearGo s (e :: rest).length = clearGo (s.pop_front).2 rest.length := by
      show clearGo s (rest.length + 1) = _
      rw [clearGo, if_neg hne]
    have hpath := pop_front_found hw e rest rfl
    have hw2 := pop_front_found_wf hw e rest rfl
    rw [hstep, hpath]
    have := ih _ hw2
    exact ⟨this.1, this.2⟩

theorem clear_wf [LinearOrder K] {s : SkipList K V} {sp : List (SEnt K V)}
    (hw : Wf s sp) : Wf s.clear [] ∧ s.clear.head = s.head := by
  unfold SkipList.clear
  rw [hw.len_eq]
  exact clearGo_wf sp s hw

theorem step_wf [LinearOrder K] {s : SkipList K V} {sp : List (SEnt K V)}
    (hw : Wf s sp) (op : Op K V) : ∃ sp2, Wf (step s op) sp2 := by
  cases op with
  | ins k v r =>
    obtain ⟨sp2, hw2, _⟩ := insert_step hw k v r
    exact ⟨sp2, hw2⟩
  | del k =>
    obtain ⟨sp2, hw2, _⟩ := remove_step hw k
    exact ⟨sp2, hw2⟩
  | pop =>
    obtain ⟨sp2, hw2, _⟩ := pop_step hw
    exact ⟨sp2, hw2⟩
  | clr => exact ⟨[], (clear_wf hw).1⟩

theorem foldl_wf [LinearOrder K] :
    ∀ (ops : List (Op K V)) (s : SkipList K V) (sp : List (SEnt K V)),
    Wf s sp → ∃ sp2, Wf (ops.foldl step s) sp2 := by
  intro ops
  induction ops with
  | nil => intro s sp hw; exact ⟨sp, hw⟩
  | cons op ops ih =>
    intro s sp hw
    obtain ⟨sp1, hw1⟩ := step_wf hw op
    exact ih (step s op) sp1 hw1

/-- Every state reachable by running operations from `new()` is well
formed over some spine. -/
theorem run_wf [LinearOrder K] (ops : List (Op K V)) :
    ∃ sp, Wf (run ops) sp :=
  foldl_wf ops SkipList.new [] new_wf

theorem intoGo_eq [LinearOrder K] :
    ∀ (sp : List (SEnt K V)) (s : SkipList K V), Wf s sp →
    intoGo s sp.length = entriesSp sp := by
  intro sp
  induction sp with
  | nil => intro s _; rfl
  | cons e rest ih =>
    intro s hw
    have hpath := pop_front_found hw e rest rfl
    have hw2 := pop_front_found_wf hw e rest rfl
    have hred : intoGo s (rest.length + 1) = (e.key, e.val) ::
        intoGo (⟨s.len - 1, s.head,
          setO (popRelink s.head e.id s.heap (e.lvl + 1) 0) e.id none⟩ : SkipList K V)
          rest.length := by
      rw [intoGo, hpath]
    show intoGo s (rest.length + 1) = _
    rw [hred, ih _ hw2]
    rfl

theorem Wf.intoList_eq [LinearOrder K] {s : SkipList K V} {sp : List (SEnt K V)}
    (hw : Wf s sp) : s.intoList = entriesSp sp := by
  unfold SkipList.intoList
  rw [hw.len_eq]
  exact intoGo_eq sp s hw

/-! ### `clone` rebuilds the same entries -/

theorem takeWhile_all_true {α : Type} (p : α → Bool) (l : List α)
    (h : ∀ a ∈ l, p a = true) : l.takeWhile p = l := by
  induction l with
  | nil => rfl
  | cons a t ih =>
    rw [List.takeWhile_cons, h a (by simp), if_pos rfl]
    rw [ih (fun b hb => h b (by simp [hb]))]

theorem dropWhile_all_true {α : Type} (p : α → Bool) (l : List α)
    (h : ∀ a ∈ l, p a = true) : l.dropWhile p = [] := by
  induction l with
  | nil => rfl
  | cons a t ih =>
    rw [List.dropWhile_cons, h a (by simp), if_pos rfl]
    exact ih (fun b hb => h b (by simp [hb]))

/-- Inserting a key above everything in the map appends the new pair. -/
theorem mInsert_append_of_gt [LinearOrder K] (m : List (K × V)) (t : K) (v : V)
    (hall : ∀ p ∈ m, p.1 < t) : mInsert m t v = m ++ [(t, v)] := by
  unfold mInsert
  rw [takeWhile_all_true _ m (fun p hp => by simp [hall p hp]),
    dropWhile_all_true _ m (fun p hp => by simp [hall p hp])]

/-- Folding ascending fresh inserts extends the entries in order. -/
theorem foldl_ins_entries [LinearOrder K] (rs : Nat → ℚ) :
    ∀ (l : List (Nat × (K × V))) (s0 : SkipList K V) (sp0 : List (SEnt K V)),
    Wf s0 sp0 →
    (entriesSp sp0 ++ l.map Prod.snd).Pairwise (fun a b => a.1 < b.1) →
    ∃ sp2, Wf (l.foldl (fun q p => (q.insert p.2.1 p.2.2 (rs p.1)).2) s0) sp2 ∧
      entriesSp sp2 = entriesSp sp0 ++ l.map Prod.snd := by
  intro l
  induction l with
  | nil =>
    intro s0 sp0 hw _
    exact ⟨sp0, hw, by simp⟩
  | cons p l ih =>
    intro s0 sp0 hw hsort
    obtain ⟨i, k, v⟩ := p
    have hall : ∀ q ∈ entriesSp sp0, q.1 < k := by
      intro q hq
      have := (List.pairwise_append.mp hsort).2.2 q hq (k, v) (by simp)
      exact this
    obtain ⟨sp1, hw1, hent1, _⟩ := insert_step hw k v (rs i)
    have hent1b : entriesSp sp1 = entriesSp sp0 ++ [(k, v)] := by
      rw [hent1]
      exact mInsert_append_of_gt _ k v hall
    have hsort1 : (entriesSp sp1 ++ l.map Prod.snd).Pairwise (fun a b => a.1 < b.1) := by
      rw [hent1b, List.append_assoc]
      have hmap : ((i, (k, v)) :: l).map Prod.snd = (k, v) :: l.map Prod.snd := rfl
      rw [hmap] at hsort
      exact hsort
    obtain ⟨sp2, hw2, hent2⟩ := ih _ sp1 hw1 hsort1
    refine ⟨sp2, hw2, ?_⟩
    rw [hent2, hent1b, List.append_assoc]
    rfl

/-- `clone()` produces a well-formed list with the same entries,
whatever levels its fresh draws produce. -/
theorem clone_spec [LinearOrder K] {s : SkipList K V} {sp : List (SEnt K V)}
    (hw : Wf s sp) (rs : Nat → ℚ) :
    ∃ sp2, Wf (s.cloneWith rs) sp2 ∧ entriesSp sp2 = entriesSp sp := by
  unfold SkipList.cloneWith
  rw [hw.iterList_eq]
  have hsort : (entriesSp ([] : List (SEnt K V)) ++
      ((entriesSp sp).enum.map Prod.snd)).Pairwise (fun a b => a.1 < b.1) := by
    rw [List.enum_map_snd]
    show (entriesSp sp).Pairwise (fun a b => a.1 < b.1)
    unfold entriesSp
    rw [List.pairwise_map]
    exact hw.sorted
  obtain ⟨sp2, hw2, hent⟩ := foldl_ins_entries rs (entriesSp sp).enum
    SkipList.new [] new_wf hsort
  refine ⟨sp2, hw2, ?_⟩
  rw [hent, List.enum_map_snd]
  rfl

/-! ### Model-level lookup lemmas -/

theorem find?_prefix_below_none [LinearOrder K] (m : List (K × V)) (t : K) :
    (m.takeWhile (fun p => decide (p.1 < t))).find? (fun p => decide (p.1 = t)) =
      none := by
  rw [List.find?_eq_none]
  intro x hx
  have hlt := List.mem_takeWhile_imp hx
  simp only [decide_eq_true_eq] at hlt ⊢
  exact fun hc => absurd (hc ▸ hlt) (lt_irrefl t)

/-- Looking up the inserted key in the model finds the inserted value. -/
theorem mFind_mInsert_self [LinearOrder K] (m : List (K × V)) (t : K) (v : V) :
    mFind (mInsert m t v) t = some v := by
  unfold mFind mInsert
  rw [List.find?_append, find?_prefix_below_none, Option.none_or,
      List.find?_cons_of_pos _ (by simp)]
  rfl

/-- Model insertion of a different key does not change a lookup. -/
theorem mFind_mInsert_ne [LinearOrder K] (m : List (K × V)) (t2 : K) (v2 : V)
    (t : K) (hne : t2 ≠ t) :
    mFind (mInsert m t2 v2) t = mFind m t := by
  unfold mFind mInsert
  conv_rhs =>
    rw [← List.takeWhile_append_dropWhile (p := fun p : K × V => decide (p.1 < t2)) (l := m)]
  cases hD : m.dropWhile (fun p : K × V => decide (p.1 < t2)) with
  | nil =>
    simp only [hD]
    rw [List.find?_append, List.find?_append,
        List.find?_cons_of_neg _ (by simp [hne])]
  | cons p post =>
    simp only [hD]
    by_cases hp : p.1 = t2
    · simp only [if_pos hp]
      rw [List.find?_append, List.find?_append,
          List.find?_cons_of_neg _ (by simp [hne]),
          List.find?_cons_of_neg _ (by simp [hp]; exact hne)]
    · simp only [if_neg hp]
      rw [List.find?_append, List.find?_append,
          List.find?_cons_of_neg _ (by simp [hne])]

/-- After a model removal of `t`, looking up `t` fails (on sorted lists). -/
theorem mFind_mRemove_self [LinearOrder K] (m : List (K × V)) (t : K)
    (hsort : m.Pairwise (fun a b => a.1 < b.1)) :
    mFind (mRemove m t) t = none := by
  unfold mRemove
  cases hD : m.dropWhile (fun p : K × V => decide (p.1 < t)) with
  | nil =>
    simp only [hD]
    have hTW : m.takeWhile (fun p : K × V => decide (p.1 < t)) = m := by
      conv_rhs =>
        rw [← List.takeWhile_append_dropWhile (p := fun p : K × V => decide (p.1 < t)) (l := m)]
      rw [hD, List.append_nil]
    unfold mFind
    rw [← hTW, find?_prefix_below_none]
    rfl
  | cons p post =>
    simp only [hD]
    have hsplitm : m = m.takeWhile (fun p : K × V => decide (p.1 < t)) ++ p :: post := by
      conv_lhs =>
        rw [← List.takeWhile_append_dropWhile (p := fun p : K × V => decide (p.1 < t)) (l := m)]
      rw [hD]
    have hnb : ¬ p.1 < t := by
      have hh := head?_dropWhile_false (fun q : K × V => decide (q.1 < t)) m p
        (by rw [hD]; rfl)
      simpa using hh
    have hpost : ∀ q ∈ post, p.1 < q.1 := by
      have hpw := hsort
      rw [hsplitm, List.pairwise_append] at hpw
      exact (List.pairwise_cons.mp hpw.2.1).1
    have hfpost : post.find? (fun q => decide (q.1 = t)) = none := by
      rw [List.find?_eq_none]
      intro x hx
      simp only [decide_eq_true_eq]
      intro hc
      exact hnb (hc ▸ hpost x hx)
    by_cases hp : p.1 = t
    · simp only [if_pos hp]
      unfold mFind
      rw [List.find?_append, find?_prefix_below_none, Option.none_or, hfpost]
      rfl
    · simp only [if_neg hp]
      unfold mFind
      conv_lhs => rw [hsplitm]
      rw [List.find?_append, find?_prefix_below_none, Option.none_or,
          List.find?_cons_of_neg _ (by simp [hp]), hfpost]
      rfl


/-! ### Running from an arbitrary state, and trace accounting -/

/-- Run a sequence of operations from an arbitrary state. -/
def runFrom [LinearOrder K] (s : SkipList K V) (ops : List (Op K V)) :
    SkipList K V :=
  ops.foldl step s

/-- `true` for an insert of a key other than `k`: a later operation
that does not touch the binding of `k`. -/
def insOther [DecidableEq K] (k : K) : Op K V → Bool
  | .ins k2 _ _ => decide (k2 ≠ k)
  | _ => false

/-- `true` for inserts and removes only. -/
def isInsDel : Op K V → Bool
  | .ins _ _ _ => true
  | .del _ => true
  | _ => false

/-- The keys passed to the insert operations of a trace, in order. -/
def insKeys : List (Op K V) → List K
  | [] => []
  | .ins k _ _ :: ops => k :: insKeys ops
  | _ :: ops => insKeys ops

/-- The number of distinct keys ever passed to `insert` in a trace. -/
def distinctInserted [DecidableEq K] (ops : List (Op K V)) : Nat :=
  (insKeys ops).dedup.length

/-- The number of inserts along a trace that create a new node: the
key was absent at the time of the call, so `insert` returned `None`. -/
def newInserts [LinearOrder K] : SkipList K V → List (Op K V) → Nat
  | _, [] => 0
  | s, op :: ops =>
    (match op with
     | .ins k v r => if ((s.insert k v r).1).isSome then 0 else 1
     | _ => 0) + newInserts (step s op) ops

/-- The number of removes along a trace that find their key, so that
`remove` returned `Some` and decremented the length. -/
def removesSucceeded [LinearOrder K] : SkipList K V → List (Op K V) → Nat
  | _, [] => 0
  | s, op :: ops =>
    (match op with
     | .del k => if ((s.remove k).1).isSome then 1 else 0
     | _ => 0) + removesSucceeded (step s op) ops

/-- The effect of one operation on the model association list. -/
def mStep [LinearOrder K] (m : List (K × V)) : Op K V → List (K × V)
  | .ins k v _ => mInsert m k v
  | .del k => mRemove m k
  | .pop => m.tail
  | .clr => []

theorem runFrom_wf [LinearOrder K] (s : SkipList K V) (sp : List (SEnt K V))
    (hw : Wf s sp) (ops : List (Op K V)) : ∃ sp2, Wf (runFrom s ops) sp2 :=
  foldl_wf ops s sp hw

theorem Wf.entries_sorted [LinearOrder K] {s : SkipList K V}
    {sp : List (SEnt K V)} (hw : Wf s sp) :
    (entriesSp sp).Pairwise (fun a b => a.1 < b.1) := by
  unfold entriesSp
  rw [List.pairwise_map]
  exact hw.sorted

theorem step_entries [LinearOrder K] {s : SkipList K V} {sp : List (SEnt K V)}
    (hw : Wf s sp) (op : Op K V) :
    ∃ sp2, Wf (step s op) sp2 ∧ entriesSp sp2 = mStep (entriesSp sp) op := by
  cases op with
  | ins k v r =>
    obtain ⟨sp2, hw2, he, _⟩ := insert_step hw k v r
    exact ⟨sp2, hw2, he⟩
  | del k =>
    obtain ⟨sp2, hw2, he, _⟩ := remove_step hw k
    exact ⟨sp2, hw2, he⟩
  | pop =>
    obtain ⟨sp2, hw2, he, _⟩ := pop_step hw
    exact ⟨sp2, hw2, he⟩
  | clr => exact ⟨[], (clear_wf hw).1, rfl⟩

theorem runFrom_entries [LinearOrder K] :
    ∀ (ops : List (Op K V)) (s : SkipList K V) (sp : List (SEnt K V)), Wf s sp →
    ∃ sp2, Wf (runFrom s ops) sp2 ∧
      entriesSp sp2 = ops.foldl mStep (entriesSp sp) := by
  intro ops
  induction ops with
  | nil => intro s sp hw; exact ⟨sp, hw, rfl⟩
  | cons op ops ih =>
    intro s sp hw
    obtain ⟨sp1, hw1, he1⟩ := step_entries hw op
    obtain ⟨sp2, hw2, he2⟩ := ih (step s op) sp1 hw1
    refine ⟨sp2, hw2, ?_⟩
    rw [he2, he1]
    rfl

/-- Two well-formed states with the same entries stay observably equal
under any further sequence of operations. -/
theorem obs_facts [LinearOrder K] {s1 s2 : SkipList K V}
    {sp1 sp2 : List (SEnt K V)} (hw1 : Wf s1 sp1) (hw2 : Wf s2 sp2)
    (he : entriesSp sp1 = entriesSp sp2) (ops : List (Op K V)) :
    (runFrom s1 ops).len = (runFrom s2 ops).len ∧
    (runFrom s1 ops).iterList = (runFrom s2 ops).iterList ∧
    ∀ k, (runFrom s1 ops).get k = (runFrom s2 ops).get k := by
  obtain ⟨spa, hwa, hea⟩ := runFrom_entries ops s1 sp1 hw1
  obtain ⟨spb, hwb, heb⟩ := runFrom_entries ops s2 sp2 hw2
  have hent : entriesSp spa = entriesSp spb := by rw [hea, heb, he]
  have hlen : spa.length = spb.length := by
    have hle := congrArg List.length hent
    simpa [entriesSp] using hle
  refine ⟨?_, ?_, ?_⟩
  · rw [hwa.len_eq, hwb.len_eq, hlen]
  · rw [hwa.iterList_eq, hwb.iterList_eq, hent]
  · intro k
    rw [hwa.get_eq, hwb.get_eq, hent]

/-- A successful lookup comes from a spine node with the looked-up key,
sitting right where the scan stops. -/
theorem Wf.get_some_cases [LinearOrder K] {s : SkipList K V}
    {sp : List (SEnt K V)} (hw : Wf s sp) (t : K) (w : V)
    (hg : s.get t = some w) :
    ∃ e rest, sp.dropWhile (belowB t) = e :: rest ∧ e.key = t ∧ e.val = w := by
  rw [hw.get_eq, mFind_split sp t hw.sorted] at hg
  cases hD : sp.dropWhile (belowB t) with
  | nil =>
    simp only [hD] at hg
    exact absurd hg (by simp)
  | cons e rest =>
    simp only [hD] at hg
    by_cases hk : e.key = t
    · rw [if_pos hk] at hg
      exact ⟨e, rest, rfl, hk, Option.some.inj hg⟩
    · rw [if_neg hk] at hg
      exact absurd hg (by simp)

/-- Length accounting along a trace of inserts and removes. -/
theorem runFrom_len_acc [LinearOrder K] :
    ∀ (ops : List (Op K V)) (s : SkipList K V) (sp : List (SEnt K V)), Wf s sp →
    (∀ op ∈ ops, isInsDel op = true) →
    (runFrom s ops).len + removesSucceeded s ops = s.len + newInserts s ops := by
  intro ops
  induction ops with
  | nil =>
    intro s sp hw _
    simp [runFrom, removesSucceeded, newInserts]
  | cons op ops ih =>
    intro s sp hw honly
    have hop := honly op (List.mem_cons_self op ops)
    have hrest : ∀ o ∈ ops, isInsDel o = true := fun o ho =>
      honly o (List.mem_cons_of_mem op ho)
    cases op with
    | ins k v r =>
      obtain ⟨sp1, hw1, _, hret, _, hlnone, hlsome⟩ := insert_step hw k v r
      have ihh := ih (s.insert k v r).2 sp1 hw1 hrest
      simp only [runFrom, List.foldl_cons, removesSucceeded, newInserts, step] at ihh ⊢
      by_cases hm : mFind (entriesSp sp) k = none
      · have hfl : ((s.insert k v r).1).isSome = false := by
          rw [hret, hm]
          rfl
        rw [hfl]
        have hl1 := hlnone hm
        simp only [Bool.false_eq_true, if_false]
        omega
      · have htr : ((s.insert k v r).1).isSome = true := by
          rw [hret]
          cases hc : mFind (entriesSp sp) k with
          | none => exact absurd hc hm
          | some w => rfl
        rw [htr]
        have hl1 := hlsome hm
        simp only [if_true]
        omega
    | del k =>
      obtain ⟨sp1, hw1, _, hret, _, hnone, hsome⟩ := remove_step hw k
      have ihh := ih (s.remove k).2 sp1 hw1 hrest
      simp only [runFrom, List.foldl_cons, removesSucceeded, newInserts, step] at ihh ⊢
      by_cases hm : mFind (entriesSp sp) k = none
      · have hfl : ((s.remove k).1).isSome = false := by
          rw [hret, hm]
          rfl
        rw [hfl]
        have hl1 : (s.remove k).2.len = s.len := by rw [hnone hm]
        simp only [Bool.false_eq_true, if_false]
        omega
      · have htr : ((s.remove k).1).isSome = true := by
          rw [hret]
          cases hc : mFind (entriesSp sp) k with
          | none => exact absurd hc hm
          | some w => rfl
        rw [htr]
        have hl1 := hsome hm
        simp only [if_true]
        omega
    | pop => simp [isInsDel] at hop
    | clr => simp [isInsDel] at hop


/-! ### Helpers shared by the claim theorems -/

theorem Wf.keys_sorted [LinearOrder K] {s : SkipList K V}
    {sp : List (SEnt K V)} (hw : Wf s sp) :
    ((entriesSp sp).map Prod.fst).Pairwise (fun a b => a < b) := by
  unfold entriesSp
  rw [List.map_map, List.pairwise_map]
  exact hw.sorted

/-- Later inserts of other keys leave a binding's lookup unchanged. -/
theorem get_preserved [LinearOrder K] (k : K) (v : V) :
    ∀ (more : List (Op K V)) (s : SkipList K V) (sp : List (SEnt K V)),
    Wf s sp → (∀ op ∈ more, insOther k op = true) →
    mFind (entriesSp sp) k = some v →
    (runFrom s more).get k = some v := by
  intro more
  induction more with
  | nil =>
    intro s sp hw _ hf
    show s.get k = some v
    rw [hw.get_eq]
    exact hf
  | cons op ops ih =>
    intro s sp hw hmore hf
    have hrest : ∀ o ∈ ops, insOther k o = true := fun o ho =>
      hmore o (List.mem_cons_of_mem op ho)
    cases op with
    | ins k2 v2 r2 =>
      have hne : k2 ≠ k := by
        have hm := hmore _ (List.mem_cons_self _ _)
        simpa [insOther] using hm
      obtain ⟨sp1, hw1, hent, _⟩ := insert_step hw k2 v2 r2
      have hf1 : mFind (entriesSp sp1) k = some v := by
        rw [hent, mFind_mInsert_ne _ _ _ _ hne]
        exact hf
      exact ih (step s (Op.ins k2 v2 r2)) sp1 hw1 hrest hf1
    | del k2 =>
      have hm := hmore _ (List.mem_cons_self _ _)
      simp [insOther] at hm
    | pop =>
      have hm := hmore _ (List.mem_cons_self _ _)
      simp [insOther] at hm
    | clr =>
      have hm := hmore _ (List.mem_cons_self _ _)
      simp [insOther] at hm

/-! ### The claims -/

/-- C1: after any sequence of operations, `insert(k, v)` returns exactly
what `get(k)` returned before it (the prior value when `k` existed, else
none), and after that insert, `get(k)` returns `v` through any further
sequence of inserts that do not touch `k` — the most recently inserted
value for `k` survives until the next insert touching `k`. -/
theorem C1_insert_get [LinearOrder K] (ops : List (Op K V)) (k : K) (v : V)
    (r : ℚ) (more : List (Op K V))
    (hmore : ∀ op ∈ more, insOther k op = true) :
    ((run ops).insert k v r).1 = (run ops).get k ∧
    (runFrom ((run ops).insert k v r).2 more).get k = some v := by
  obtain ⟨sp, hw⟩ := run_wf ops
  obtain ⟨sp1, hw1, hent, hret, _⟩ := insert_step hw k v r
  constructor
  · rw [hret, hw.get_eq]
  · have hf1 : mFind (entriesSp sp1) k = some v := by
      rw [hent]
      exact mFind_mInsert_self _ _ _
    exact get_preserved k v more _ sp1 hw1 hmore hf1

theorem C1_witness :
    ((run ([Op.ins 2 5 0] : List (Op Nat Nat))).insert 1 7 0).1 =
      (run ([Op.ins 2 5 0] : List (Op Nat Nat))).get 1 ∧
    (runFrom ((run ([Op.ins 2 5 0] : List (Op Nat Nat))).insert 1 7 0).2
      [Op.ins 3 9 0]).get 1 = some 7 :=
  C1_insert_get [Op.ins 2 5 0] 1 7 0 [Op.ins 3 9 0] (by decide)

/-- C2: removing `k` right after an insert of `k` returns the stored
value and leaves `get(k) = none`; removing an absent key returns none
and leaves the state literally unchanged. -/
theorem C2_remove [LinearOrder K] (ops : List (Op K V)) (k : K) (v : V)
    (r : ℚ) :
    (((run ops).insert k v r).2.remove k).1 = some v ∧
    ((((run ops).insert k v r).2.remove k).2).get k = none ∧
    ((run ops).get k = none → (run ops).remove k = (none, run ops)) := by
  obtain ⟨sp, hw⟩ := run_wf ops
  obtain ⟨sp1, hw1, hent1, _⟩ := insert_step hw k v r
  obtain ⟨sp2, hw2, hent2, hret2, _⟩ := remove_step hw1 k
  have hf1 : mFind (entriesSp sp1) k = some v := by
    rw [hent1]
    exact mFind_mInsert_self _ _ _
  refine ⟨?_, ?_, ?_⟩
  · rw [hret2, hf1]
  · rw [hw2.get_eq, hent2]
    exact mFind_mRemove_self _ _ hw1.entries_sorted
  · intro hg
    obtain ⟨sp3, hw3, hent3, hret3, _, hnone3, _⟩ := remove_step hw k
    have hm : mFind (entriesSp sp) k = none := by
      rw [← hw.get_eq]
      exact hg
    exact Prod.ext_iff.mpr ⟨by rw [hret3]; exact hm, hnone3 hm⟩

theorem C2_witness :
    (((run ([] : List (Op Nat Nat))).insert 4 9 0).2.remove 4).1 = some 9 ∧
    ((((run ([] : List (Op Nat Nat))).insert 4 9 0).2.remove 4).2).get 4 = none ∧
    ((run ([] : List (Op Nat Nat))).get 4 = none →
      (run ([] : List (Op Nat Nat))).remove 4 = (none, run [])) :=
  C2_remove [] 4 9 0

/-- C3: in every reachable state, the borrowing level-0 traversal yields
exactly `len()` entries, strictly increasing by key, with no duplicate
keys, and visits each node exactly once. -/
theorem C3_traversal [LinearOrder K] (ops : List (Op K V)) :
    (run ops).iterList.length = (run ops).len ∧
    ((run ops).iterList.map Prod.fst).Pairwise (fun a b => a < b) ∧
    ((run ops).iterList.map Prod.fst).Nodup ∧
    (run ops).chainIds.Nodup := by
  obtain ⟨sp, hw⟩ := run_wf ops
  have hp : (((run ops).iterList).map Prod.fst).Pairwise (fun a b => a < b) := by
    rw [hw.iterList_eq]
    exact hw.keys_sorted
  refine ⟨?_, hp, ?_, ?_⟩
  · rw [hw.iterList_eq, hw.len_eq]
    simp [entriesSp]
  · exact hp.imp (fun h => ne_of_lt h)
  · rw [hw.chainIds_eq]
    exact hw.ids_nodup

theorem C3_witness :
    (run ([Op.ins 2 20 0, Op.ins 1 10 0] : List (Op Nat Nat))).iterList.length =
      (run ([Op.ins 2 20 0, Op.ins 1 10 0] : List (Op Nat Nat))).len ∧
    ((run ([Op.ins 2 20 0, Op.ins 1 10 0] : List (Op Nat Nat))).iterList.map
      Prod.fst).Pairwise (fun a b => a < b) ∧
    ((run ([Op.ins 2 20 0, Op.ins 1 10 0] : List (Op Nat Nat))).iterList.map
      Prod.fst).Nodup ∧
    (run ([Op.ins 2 20 0, Op.ins 1 10 0] : List (Op Nat Nat))).chainIds.Nodup :=
  C3_traversal [Op.ins 2 20 0, Op.ins 1 10 0]

/-- C4 (amended): over insert/remove traces, `len()` plus the number of
successful removes equals the number of inserts that created a node
(key absent at call time), so it never goes negative; and the
per-operation deltas are exactly: new-key insert +1, existing-key
insert 0, successful remove −1, absent-key remove 0, nonempty pop −1. -/
theorem C4_len_accounting [LinearOrder K] (ops : List (Op K V)) (k : K)
    (v : V) (r : ℚ) (honly : ∀ op ∈ ops, isInsDel op = true) :
    (run ops).len + removesSucceeded SkipList.new ops =
      newInserts SkipList.new ops ∧
    removesSucceeded SkipList.new ops ≤ newInserts SkipList.new ops ∧
    ((run ops).get k = none →
      ((run ops).insert k v r).2.len = (run ops).len + 1) ∧
    (∀ w, (run ops).get k = some w →
      ((run ops).insert k v r).2.len = (run ops).len) ∧
    (∀ w, (run ops).get k = some w →
      ((run ops).remove k).2.len + 1 = (run ops).len) ∧
    ((run ops).get k = none → ((run ops).remove k).2.len = (run ops).len) ∧
    (((run ops).pop_front).1 ≠ none →
      ((run ops).pop_front).2.len + 1 = (run ops).len) := by
  have hacc := runFrom_len_acc ops SkipList.new [] new_wf honly
  have hacc2 : (run ops).len + removesSucceeded SkipList.new ops =
      newInserts SkipList.new ops := by
    simpa [run, runFrom, SkipList.new] using hacc
  obtain ⟨sp, hw⟩ := run_wf ops
  obtain ⟨spi, hwi, henti, hreti, _, hlnone, hlsome⟩ := insert_step hw k v r
  obtain ⟨spr, hwr, hentr, hretr, _, hrnone, hrsome⟩ := remove_step hw k
  obtain ⟨spp, hwp, hentp, hretp, _, hpnil, hpcons⟩ := pop_step hw
  refine ⟨hacc2, by omega, ?_, ?_, ?_, ?_, ?_⟩
  · intro hg
    apply hlnone
    rw [← hw.get_eq]
    exact hg
  · intro w hg
    apply hlsome
    rw [← hw.get_eq, hg]
    simp
  · intro w hg
    apply hrsome
    rw [← hw.get_eq, hg]
    simp
  · intro hg
    have hst := hrnone (by rw [← hw.get_eq]; exact hg)
    rw [hst]
  · intro hne
    apply hpcons
    intro hnil
    rw [hretp, hnil] at hne
    exact hne rfl

/-- The trace that separates the two readings of C4: re-inserting a
removed key. -/
def c4ops : List (Op Nat Nat) := [Op.ins 1 10 0, Op.del 1, Op.ins 1 20 0]

/-- C4, counterexample to the literal reading: after insert 1, remove 1,
insert 1 again, `len()` is 1 but (distinct keys ever inserted) −
(successful removes) is 1 − 1 = 0. -/
theorem C4_counterexample :
    (∀ op ∈ c4ops, isInsDel op = true) ∧
    (run c4ops).len = 1 ∧
    distinctInserted c4ops = 1 ∧
    removesSucceeded SkipList.new c4ops = 1 ∧
    (run c4ops).len ≠
      distinctInserted c4ops - removesSucceeded SkipList.new c4ops := by
  obtain ⟨sp1, hw1, hent1, _, _, hn1, _⟩ :=
    insert_step (new_wf (K := Nat) (V := Nat)) 1 10 0
  have hm1 : mFind (entriesSp ([] : List (SEnt Nat Nat))) 1 = none := rfl
  have hlen1 := hn1 hm1
  obtain ⟨sp2, hw2, hent2, hret2, _, _, hs2⟩ := remove_step hw1 1
  have hm2 : mFind (entriesSp sp1) 1 = some 10 := by
    rw [hent1]
    exact mFind_mInsert_self _ _ _
  have hlen2 := hs2 (by rw [hm2]; simp)
  obtain ⟨sp3, hw3, hent3, _, _, hn3, _⟩ := insert_step hw2 1 20 0
  have hm3 : mFind (entriesSp sp2) 1 = none := by
    rw [hent2]
    exact mFind_mRemove_self _ _ hw1.entries_sorted
  have hlen3 := hn3 hm3
  have hnew : (SkipList.new : SkipList Nat Nat).len = 0 := rfl
  have hrun : (run c4ops).len = 1 := by
    show ((((SkipList.new.insert 1 10 (0:ℚ)).2.remove 1).2.insert 1 20
      (0:ℚ)).2).len = 1
    omega
  have hdist : distinctInserted c4ops = 1 := by decide
  have hrem : removesSucceeded SkipList.new c4ops = 1 := by
    show removesSucceeded SkipList.new
      [Op.ins 1 10 (0:ℚ), Op.del 1, Op.ins 1 20 (0:ℚ)] = 1
    simp only [removesSucceeded, step]
    have hsome : ((SkipList.new.insert 1 10 (0:ℚ)).2.remove 1).1.isSome =
        true := by
      rw [hret2, hm2]
      rfl
    simp [hsome]
  refine ⟨by decide, hrun, hdist, hrem, ?_⟩
  rw [hrun, hdist, hrem]
  decide

theorem C4_witness :
    (run ([Op.ins 1 2 0, Op.del 1] : List (Op Nat Nat))).len +
      removesSucceeded SkipList.new [Op.ins 1 2 0, Op.del 1] =
      newInserts SkipList.new [Op.ins 1 2 0, Op.del 1] ∧
    removesSucceeded SkipList.new ([Op.ins 1 2 0, Op.del 1] : List (Op Nat Nat)) ≤
      newInserts SkipList.new [Op.ins 1 2 0, Op.del 1] ∧
    ((run ([Op.ins 1 2 0, Op.del 1] : List (Op Nat Nat))).get 1 = none →
      ((run ([Op.ins 1 2 0, Op.del 1] : List (Op Nat Nat))).insert 1 3 0).2.len =
        (run ([Op.ins 1 2 0, Op.del 1] : List (Op Nat Nat))).len + 1) ∧
    (∀ w, (run ([Op.ins 1 2 0, Op.del 1] : List (Op Nat Nat))).get 1 = some w →
      ((run ([Op.ins 1 2 0, Op.del 1] : List (Op Nat Nat))).insert 1 3 0).2.len =
        (run ([Op.ins 1 2 0, Op.del 1] : List (Op Nat Nat))).len) ∧
    (∀ w, (run ([Op.ins 1 2 0, Op.del 1] : List (Op Nat Nat))).get 1 = some w →
      ((run ([Op.ins 1 2 0, Op.del 1] : List (Op Nat Nat))).remove 1).2.len + 1 =
        (run ([Op.ins 1 2 0, Op.del 1] : List (Op Nat Nat))).len) ∧
    ((run ([Op.ins 1 2 0, Op.del 1] : List (Op Nat Nat))).get 1 = none →
      ((run ([Op.ins 1 2 0, Op.del 1] : List (Op Nat Nat))).remove 1).2.len =
        (run ([Op.ins 1 2 0, Op.del 1] : List (Op Nat Nat))).len) ∧
    (((run ([Op.ins 1 2 0, Op.del 1] : List (Op Nat Nat))).pop_front).1 ≠ none →
      ((run ([Op.ins 1 2 0, Op.del 1] : List (Op Nat Nat))).pop_front).2.len + 1 =
        (run ([Op.ins 1 2 0, Op.del 1] : List (Op Nat Nat))).len) :=
  C4_len_accounting [Op.ins 1 2 0, Op.del 1] 1 3 0 (by decide)

/-- C5: `into_iter` yields exactly the ascending borrowing traversal
(sorted by key), and each `pop_front` returns the first entry, leaves
the traversal of the rest, keeps the head sentinel, and decrements
`len` by one when the list was nonempty. -/
theorem C5_into_iter [LinearOrder K] (ops : List (Op K V)) :
    (run ops).intoList = (run ops).iterList ∧
    ((run ops).intoList.map Prod.fst).Pairwise (fun a b => a < b) ∧
    ((run ops).pop_front).1 = (run ops).iterList.head? ∧
    ((run ops).pop_front).2.iterList = (run ops).iterList.tail ∧
    ((run ops).pop_front).2.head = (run ops).head ∧
    ((run ops).iterList ≠ [] →
      ((run ops).pop_front).2.len + 1 = (run ops).len) := by
  obtain ⟨sp, hw⟩ := run_wf ops
  obtain ⟨sp2, hw2, hent2, hret2, hhead2, _, hne2⟩ := pop_step hw
  refine ⟨?_, ?_, ?_, ?_, hhead2, ?_⟩
  · rw [hw.intoList_eq, hw.iterList_eq]
  · rw [hw.intoList_eq]
    exact hw.keys_sorted
  · rw [hret2, hw.iterList_eq]
  · rw [hw2.iterList_eq, hent2, hw.iterList_eq]
  · intro hnonempty
    apply hne2
    intro hspnil
    apply hnonempty
    rw [hw.iterList_eq, hspnil]
    rfl

theorem C5_witness :
    (run ([Op.ins 1 4 0] : List (Op Nat Nat))).intoList =
      (run ([Op.ins 1 4 0] : List (Op Nat Nat))).iterList ∧
    ((run ([Op.ins 1 4 0] : List (Op Nat Nat))).intoList.map
      Prod.fst).Pairwise (fun a b => a < b) ∧
    ((run ([Op.ins 1 4 0] : List (Op Nat Nat))).pop_front).1 =
      (run ([Op.ins 1 4 0] : List (Op Nat Nat))).iterList.head? ∧
    ((run ([Op.ins 1 4 0] : List (Op Nat Nat))).pop_front).2.iterList =
      (run ([Op.ins 1 4 0] : List (Op Nat Nat))).iterList.tail ∧
    ((run ([Op.ins 1 4 0] : List (Op Nat Nat))).pop_front).2.head =
      (run ([Op.ins 1 4 0] : List (Op Nat Nat))).head ∧
    ((run ([Op.ins 1 4 0] : List (Op Nat Nat))).iterList ≠ [] →
      ((run ([Op.ins 1 4 0] : List (Op Nat Nat))).pop_front).2.len + 1 =
        (run ([Op.ins 1 4 0] : List (Op Nat Nat))).len) :=
  C5_into_iter [Op.ins 1 4 0]

/-- C6: `clear()` drives `len` to 0, empties the traversal, keeps the
head sentinel, and the cleared list is observably identical to a freshly
constructed one under every further operation sequence. -/
theorem C6_clear [LinearOrder K] (ops : List (Op K V)) :
    (run ops).clear.len = 0 ∧
    (run ops).clear.iterList = [] ∧
    (run ops).clear.head = (run ops).head ∧
    (∀ more : List (Op K V),
      (runFrom (run ops).clear more).len = (run more).len ∧
      (runFrom (run ops).clear more).iterList = (run more).iterList ∧
      ∀ k, (runFrom (run ops).clear more).get k = (run more).get k) := by
  obtain ⟨sp, hw⟩ := run_wf ops
  obtain ⟨hwc, hhead⟩ := clear_wf hw
  refine ⟨hwc.len_eq, ?_, hhead, ?_⟩
  · rw [hwc.iterList_eq]
    rfl
  · intro more
    exact obs_facts hwc new_wf rfl more

theorem C6_witness :
    (run ([Op.ins 1 4 0] : List (Op Nat Nat))).clear.len = 0 ∧
    (run ([Op.ins 1 4 0] : List (Op Nat Nat))).clear.iterList = [] ∧
    (run ([Op.ins 1 4 0] : List (Op Nat Nat))).clear.head =
      (run ([Op.ins 1 4 0] : List (Op Nat Nat))).head ∧
    (∀ more : List (Op Nat Nat),
      (runFrom (run ([Op.ins 1 4 0] : List (Op Nat Nat))).clear more).len =
        (run more).len ∧
      (runFrom (run ([Op.ins 1 4 0] : List (Op Nat Nat))).clear more).iterList =
        (run more).iterList ∧
      ∀ k, (runFrom (run ([Op.ins 1 4 0] : List (Op Nat Nat))).clear more).get k =
        (run more).get k) :=
  C6_clear [Op.ins 1 4 0]

/-- C7: `clone()` (re-inserting the borrowing traversal in ascending
order, with fresh level draws `rs`) yields a list with the same length,
the same traversal, and the same lookups as the source; inserting into
the clone returns the source's stored value and only changes the
clone's lookup, the source's lookup staying what it was. -/
theorem C7_clone [LinearOrder K] (ops : List (Op K V)) (rs : Nat → ℚ) :
    ((run ops).cloneWith rs).len = (run ops).len ∧
    ((run ops).cloneWith rs).iterList = (run ops).iterList ∧
    (∀ k, ((run ops).cloneWith rs).get k = (run ops).get k) ∧
    (∀ k v r w, (run ops).get k = some w →
      (((run ops).cloneWith rs).insert k v r).1 = some w ∧
      ((((run ops).cloneWith rs).insert k v r).2).get k = some v ∧
      (run ops).get k = some w) := by
  obtain ⟨sp, hw⟩ := run_wf ops
  obtain ⟨sp2, hw2, hent⟩ := clone_spec hw rs
  have hlen : sp2.length = sp.length := by
    have hl := congrArg List.length hent
    simpa [entriesSp] using hl
  refine ⟨?_, ?_, ?_, ?_⟩
  · rw [hw2.len_eq, hw.len_eq, hlen]
  · rw [hw2.iterList_eq, hw.iterList_eq, hent]
  · intro k
    rw [hw2.get_eq, hw.get_eq, hent]
  · intro k v r w hg
    have hm : mFind (entriesSp sp) k = some w := by
      rw [← hw.get_eq]
      exact hg
    obtain ⟨sp3, hw3, hent3, hret3, _⟩ := insert_step hw2 k v r
    refine ⟨?_, ?_, hg⟩
    · rw [hret3, hent]
      exact hm
    · rw [hw3.get_eq, hent3]
      exact mFind_mInsert_self _ _ _

theorem C7_witness :
    ((run ([Op.ins 1 4 0] : List (Op Nat Nat))).cloneWith (fun _ => 0)).len =
      (run ([Op.ins 1 4 0] : List (Op Nat Nat))).len ∧
    ((run ([Op.ins 1 4 0] : List (Op Nat Nat))).cloneWith (fun _ => 0)).iterList =
      (run ([Op.ins 1 4 0] : List (Op Nat Nat))).iterList ∧
    (∀ k, ((run ([Op.ins 1 4 0] : List (Op Nat Nat))).cloneWith (fun _ => 0)).get k =
      (run ([Op.ins 1 4 0] : List (Op Nat Nat))).get k) ∧
    (∀ k v r w, (run ([Op.ins 1 4 0] : List (Op Nat Nat))).get k = some w →
      (((run ([Op.ins 1 4 0] : List (Op Nat Nat))).cloneWith
        (fun _ => 0)).insert k v r).1 = some w ∧
      ((((run ([Op.ins 1 4 0] : List (Op Nat Nat))).cloneWith
        (fun _ => 0)).insert k v r).2).get k = some v ∧
      (run ([Op.ins 1 4 0] : List (Op Nat Nat))).get k = some w) :=
  C7_clone [Op.ins 1 4 0] (fun _ => 0)

/-- C8: inserting a key that is already present returns the old value
and changes only that node's stored value: length, head, heap size,
every other heap cell, the node's key and its forward (level) vector
are all unchanged, and only the binding of `k` reads differently. -/
theorem C8_insert_existing [LinearOrder K] (ops : List (Op K V)) (k : K)
    (v : V) (r : ℚ) (w : V) (hg : (run ops).get k = some w) :
    ((run ops).insert k v r).1 = some w ∧
    ((run ops).insert k v r).2.len = (run ops).len ∧
    ((run ops).insert k v r).2.head = (run ops).head ∧
    ((run ops).insert k v r).2.heap.length = (run ops).heap.length ∧
    ((run ops).insert k v r).2.get k = some v ∧
    (∀ k2, k2 ≠ k → ((run ops).insert k v r).2.get k2 = (run ops).get k2) ∧
    ∃ nid, dataAt ((run ops).insert k v r).2.heap nid = some ⟨k, v⟩ ∧
      fwdLenAt ((run ops).insert k v r).2.heap nid =
        fwdLenAt (run ops).heap nid ∧
      ∀ u, u ≠ nid →
        getO ((run ops).insert k v r).2.heap u = getO (run ops).heap u := by
  obtain ⟨sp, hw⟩ := run_wf ops
  obtain ⟨e, rest, hD, hk, hv⟩ := hw.get_some_cases k w hg
  have heq := insert_found hw k v r e rest hD hk
  have hesp : e ∈ sp :=
    (List.dropWhile_sublist (belowB k)).subset (hD ▸ List.mem_cons_self e rest)
  obtain ⟨fw, hfw, hfwlen⟩ := hw.nodes e hesp
  obtain ⟨sp3, hw3, hent3, _⟩ := insert_step hw k v r
  refine ⟨?_, ?_, ?_, ?_, ?_, ?_, ⟨e.id, ?_, ?_, ?_⟩⟩
  · rw [heq, hv]
  · rw [heq]
  · rw [heq]
  · rw [heq]
    exact length_setValue _ _ _
  · rw [hw3.get_eq, hent3]
    exact mFind_mInsert_self _ _ _
  · intro k2 hk2
    rw [hw3.get_eq, hent3, hw.get_eq]
    exact mFind_mInsert_ne _ _ _ _ (Ne.symm hk2)
  · rw [heq]
    have hd := dataAt_setValue_self (run ops).heap e.id v
      ⟨some ⟨e.key, e.val⟩, fw⟩ ⟨e.key, e.val⟩ hfw rfl
    rw [hk] at hd
    exact hd
  · rw [heq]
    exact fwdLenAt_setValue _ _ _ _
  · intro u hu
    rw [heq]
    exact getO_setValue_ne _ _ _ _ hu

theorem C8_witness :
    ((run ([Op.ins 1 5 0] : List (Op Nat Nat))).insert 1 7 0).1 = some 5 ∧
    ((run ([Op.ins 1 5 0] : List (Op Nat Nat))).insert 1 7 0).2.len =
      (run ([Op.ins 1 5 0] : List (Op Nat Nat))).len ∧
    ((run ([Op.ins 1 5 0] : List (Op Nat Nat))).insert 1 7 0).2.head =
      (run ([Op.ins 1 5 0] : List (Op Nat Nat))).head ∧
    ((run ([Op.ins 1 5 0] : List (Op Nat Nat))).insert 1 7 0).2.heap.length =
      (run ([Op.ins 1 5 0] : List (Op Nat Nat))).heap.length ∧
    ((run ([Op.ins 1 5 0] : List (Op Nat Nat))).insert 1 7 0).2.get 1 = some 7 ∧
    (∀ k2, k2 ≠ 1 →
      ((run ([Op.ins 1 5 0] : List (Op Nat Nat))).insert 1 7 0).2.get k2 =
        (run ([Op.ins 1 5 0] : List (Op Nat Nat))).get k2) ∧
    ∃ nid, dataAt ((run ([Op.ins 1 5 0] : List (Op Nat Nat))).insert 1 7 0).2.heap
        nid = some ⟨1, 7⟩ ∧
      fwdLenAt ((run ([Op.ins 1 5 0] : List (Op Nat Nat))).insert 1 7 0).2.heap
        nid = fwdLenAt (run ([Op.ins 1 5 0] : List (Op Nat Nat))).heap nid ∧
      ∀ u, u ≠ nid →
        getO ((run ([Op.ins 1 5 0] : List (Op Nat Nat))).insert 1 7 0).2.heap u =
          getO (run ([Op.ins 1 5 0] : List (Op Nat Nat))).heap u :=
  C8_insert_existing [Op.ins 1 5 0] 1 7 0 5 (by
    obtain ⟨sp1, hw1, hent1, _⟩ :=
      insert_step (new_wf (K := Nat) (V := Nat)) 1 5 0
    show (SkipList.new.insert 1 5 (0:ℚ)).2.get 1 = some 5
    rw [hw1.get_eq, hent1]
    exact mFind_mInsert_self _ _ _)

/-- C9: for every random draw, `random_level` returns a level strictly
below `MAX_LEVEL`, and the scan's update list always has exactly
`MAX_LEVEL` entries, so each index `0 ..= random_level r` that the
splice loop of `insert` touches is in bounds. -/
theorem C9_random_level [LinearOrder K] (r : ℚ) (h : Heap K V) (t : K)
    (cur : Nat) :
    random_level r < MAX_LEVEL ∧
    ((scanAll h t (MAX_LEVEL - 1) cur).2).length = MAX_LEVEL ∧
    (∀ i, i ≤ random_level r →
      i < ((scanAll h t (MAX_LEVEL - 1) cur).2).length) := by
  have h1 := random_level_lt r
  have h2 := scanAll_snd_length h t (MAX_LEVEL - 1) cur
  refine ⟨h1, ?_, ?_⟩
  · rw [h2]
    decide
  · intro i hi
    rw [h2]
    simp only [MAX_LEVEL] at h1 ⊢
    omega

theorem C9_witness :
    random_level 0 < MAX_LEVEL ∧
    ((scanAll ([] : Heap Nat Nat) 0 (MAX_LEVEL - 1) 0).2).length = MAX_LEVEL ∧
    (∀ i, i ≤ random_level 0 →
      i < ((scanAll ([] : Heap Nat Nat) 0 (MAX_LEVEL - 1) 0).2).length) :=
  C9_random_level 0 ([] : Heap Nat Nat) 0 0

/-- C10: in every reachable state, each node the borrowing traversal
visits holds an entry (so the iterator unwraps cannot fail), and when
`pop_front` or `remove` return an entry the length is at least 1, so
the `len - 1` decrement never underflows. -/
theorem C10_reachable_safety [LinearOrder K] (ops : List (Op K V)) (k : K) :
    (∀ o ∈ (run ops).iterListO, o.isSome = true) ∧
    (((run ops).pop_front).1 ≠ none → 1 ≤ (run ops).len) ∧
    (((run ops).remove k).1 ≠ none → 1 ≤ (run ops).len) := by
  obtain ⟨sp, hw⟩ := run_wf ops
  obtain ⟨sp2, hw2, hent2, hret2, _⟩ := pop_step hw
  obtain ⟨sp3, hw3, hent3, hret3, _⟩ := remove_step hw k
  refine ⟨?_, ?_, ?_⟩
  · intro o ho
    rw [hw.iterListO_eq] at ho
    obtain ⟨p, _, hp⟩ := List.mem_map.mp ho
    rw [← hp]
    rfl
  · intro hne
    rw [hret2] at hne
    cases hsp : sp with
    | nil =>
      rw [hsp] at hne
      exact absurd rfl hne
    | cons e rest =>
      rw [hw.len_eq, hsp]
      simp
  · intro hne
    rw [hret3] at hne
    cases hsp : sp with
    | nil =>
      rw [hsp] at hne
      exact absurd rfl hne
    | cons e rest =>
      rw [hw.len_eq, hsp]
      simp

theorem C10_witness :
    (∀ o ∈ (run ([Op.ins 1 5 0] : List (Op Nat Nat))).iterListO,
      o.isSome = true) ∧
    (((run ([Op.ins 1 5 0] : List (Op Nat Nat))).pop_front).1 ≠ none →
      1 ≤ (run ([Op.ins 1 5 0] : List (Op Nat Nat))).len) ∧
    (((run ([Op.ins 1 5 0] : List (Op Nat Nat))).remove 1).1 ≠ none →
      1 ≤ (run ([Op.ins 1 5 0] : List (Op Nat Nat))).len) :=
  C10_reachable_safety [Op.ins 1 5 0] 1

end SkipVerify
